import Mathlib

/-!
# MerkleTree_C: a shallow embedding of `mtree.h`

The development follows `src/mtree.h` function by function.

Modelling conventions.

* A C `int` is a Lean `Int`; the values that occur stay far inside the range of a
  32-bit `int`, so no wrap-around is modelled.  `/` and `%` on `int` are the truncating
  `Int.tdiv` and `Int.tmod`.
* A C pointer used as an array (`struct NODE*`, `unsigned char**`, `int*`) is a total map
  `Mem α = Int → α` from offsets to contents.  The caller's allocation size is not part of
  the value, exactly as in C.  A cell the code never stores to keeps whatever the initial
  map holds, and every theorem quantifies over these initial maps.
* A byte buffer holding a hash (`unsigned char*` of `H_BYTES` bytes) is a `List Nat`.
* `shake256` lives in `fips202.c`, which is not part of the sources (only `fips202.h`
  declares it).  It is the field `xof` of `Env`; the theorems about what the code does
  for every engine quantify over `Env`, and the runs that show a dependence on the heap
  contents are made with the engine `sample_env`.
* `malloc` returns storage whose contents are indeterminate, and nothing in `mtree.h`
  frees a block.  Every call of `get_concat_hash` obtains its own three `int` blocks; what
  they hold is a `Heap`, and the callers take a map `heaps` that gives every call its own
  `Heap`: in `build_tree` the call that fills node `in` gets `heaps in`, in
  `find_root_from_path` the call that fills `md_values[i]` gets `heaps i`.  Theorems
  quantify over `heaps`, so the contents may differ from call to call and between
  `build_tree` and `find_root_from_path`.  The bytes of a fresh `H_BYTES` buffer are
  `Env.fresh_bytes`; in the runs the theorems describe such a buffer is written before
  it is read.
* `convert_binary` stores to the offsets `1 .. H_BITS` of a buffer that was allocated with
  `H_BITS` cells.  The map records the store at offset `H_BITS` in the cell behind the
  buffer and does not model which other object that cell belongs to; offset 0 keeps what
  `malloc` left there.
* Byte counts (`length`, `inlen`, `outlen`) are non-negative and are `Nat`.
* `while` loops whose termination depends on the data take a `fuel : Nat` and return
  `none` when it runs out.
* A slot of the pointer array `md_values` of `find_root_from_path` is `none` until a
  pointer is assigned to it; a load or store through such a slot has no defined behaviour,
  and the function then returns `none`.
-/

namespace MerkleTree

/-! ## Constants (mtree.h, lines 24-25) -/

/-- `#define H_BYTES 16`. -/
def H_BYTES : Nat := 16

/-- `#define H_BITS 128`. -/
def H_BITS : Nat := 128

/-- `sizeof(int)` on the platforms `fips202.h` is written for. -/
def SIZEOF_INT : Nat := 4

/-! ## Memory -/

/-- Memory behind a C pointer: a map from offsets to contents. -/
abbrev Mem (α : Type) := Int → α

/-- The store `m[i] = v`. -/
def store {α : Type} (m : Mem α) (i : Int) (v : α) : Mem α :=
  fun k => if k = i then v else m k

/-- What the code takes from outside `mtree.h`. -/
structure Env where
  /-- The function `shake256` of `fips202.c`: `xof outlen input k` is byte `k` of the
  `outlen`-byte output on the input bytes `input`. -/
  xof : Nat → List Nat → Nat → Nat
  /-- Contents of a byte buffer as `malloc` returns it. -/
  fresh_bytes : List Nat

/-- What one call of `get_concat_hash` finds in the three blocks `malloc` returns to it. -/
structure Heap where
  /-- Contents of `binary1` as `malloc` returns it. -/
  binary1 : Mem Nat
  /-- Contents of `binary2` as `malloc` returns it. -/
  binary2 : Mem Nat
  /-- Contents of `binary3` as `malloc` returns it. -/
  binary3 : Mem Nat

/-- The call `shake256(output, outlen, input, inlen)`: the `outlen` bytes written to
`output`, computed from the first `inlen` bytes found at `input`. -/
def shake256 (env : Env) (outlen : Nat) (input : List Nat) (inlen : Nat) : List Nat :=
  (List.range outlen).map (env.xof outlen (input.take inlen))

/-! ## Merkle tree node and tree representations (mtree.h, lines 31-44) -/

/-- `struct NODE`. -/
structure NODE where
  node_id : Int
  hashval : List Nat
  prev : Int
  next : Int
  parent : Int
deriving DecidableEq

/-- `TREE`. -/
structure TREE where
  leaf_count : Int
  node_count : Int
  merkle_tree : Mem NODE

/-! ## convert_binary (mtree.h, lines 48-61) -/

/-- The stores `binary[H_BITS-index] = (hashval[i] >> j) & 1` of `convert_binary`, in
program order, as pairs (offset, value).  The state of the two loops is the list of
stores so far and `index`. -/
def convert_binary_stores (hashval : List Nat) : List (Int × Nat) :=
  ((List.range H_BYTES).reverse.foldl
    (fun (st : List (Int × Nat) × Int) (i : Nat) =>
      (List.range 8).foldl
        (fun (st : List (Int × Nat) × Int) (j : Nat) =>
          (st.1 ++ [((H_BITS : Int) - st.2, (hashval.getD i 0 >>> j) &&& 1)], st.2 + 1))
        st)
    ([], 0)).1

/-- The function `convert_binary(hashval, binary)`: the buffer `binary` after the stores. -/
def convert_binary (hashval : List Nat) (binary : Mem Nat) : Mem Nat :=
  (convert_binary_stores hashval).foldl (fun m p => store m p.1 p.2) binary

/-! ## get_concat_hash (mtree.h, lines 65-84) -/

/-- The bytes found at `(unsigned char*)binary`: every `int` cell contributes
`SIZEOF_INT` bytes, least significant first.  All `SIZEOF_INT * H_BITS` bytes of the
allocation are listed. -/
def int_bytes (binary : Mem Nat) : List Nat :=
  (List.range (SIZEOF_INT * H_BITS)).map
    (fun m => (binary ((m / SIZEOF_INT : Nat) : Int) >>> (8 * (m % SIZEOF_INT))) % 256)

/-- The loop `for(i = 0; i<H_BITS; i++) binary3[i] = binary1[i]^binary2[i];`. -/
def xor_binary (binary1 binary2 binary3 : Mem Nat) : Mem Nat :=
  (List.range H_BITS).foldl
    (fun b3 (i : Nat) => store b3 (i : Int) (binary1 (i : Int) ^^^ binary2 (i : Int))) binary3

/-- The function `get_concat_hash(msg, msg1, md_value)`: the bytes written to `md_value`.
`heap` is what this call finds in its three new blocks. -/
def get_concat_hash (env : Env) (heap : Heap) (msg msg1 : List Nat) : List Nat :=
  let binary1 := convert_binary msg heap.binary1
  let binary2 := convert_binary msg1 heap.binary2
  let binary3 := xor_binary binary1 binary2 heap.binary3
  shake256 env H_BYTES (int_bytes binary3) H_BITS

/-! ## compare_hash (mtree.h, lines 88-99) -/

/-- The loop of `compare_hash` from byte `i` on, with `n` bytes left. -/
def compare_hash_from (hash1 hash2 : List Nat) : Nat → Nat → Int
  | 0, _ => 1
  | n + 1, i =>
    if hash1.getD i 0 ≠ hash2.getD i 0 then 0
    else compare_hash_from hash1 hash2 n (i + 1)

/-- The function `compare_hash(hash1, hash2)`. -/
def compare_hash (hash1 hash2 : List Nat) : Int :=
  compare_hash_from hash1 hash2 H_BYTES 0

/-! ## build_tree (mtree.h, lines 103-192) -/

/-- Body of the init loop (lines 112-116); the fresh `hashval` buffer is `malloc`ed. -/
def init_node (env : Env) (mt : Mem NODE) (i : Int) : Mem NODE :=
  store mt i { node_id := i, hashval := env.fresh_bytes, prev := -1, next := -1, parent := -1 }

/-- Body of the leaf loop (lines 123-140). -/
def fill_leaf (env : Env) (hlist : Mem (List Nat)) (length : Nat) (leaf_count : Int)
    (mt : Mem NODE) (i : Int) : Mem NODE :=
  let mt1 :=
    if i = 0 then
      store mt i { mt i with prev := -1, next := (mt (i + 1)).node_id }
    else if i = leaf_count - 1 then
      store mt i { mt i with prev := (mt (i - 1)).node_id, next := -1 }
    else
      store mt i { mt i with prev := (mt (i - 1)).node_id, next := (mt (i + 1)).node_id }
  store mt1 i { mt1 i with hashval := shake256 env H_BYTES (hlist i) length }

/-- The local variables of the two nested `while` loops (lines 145-148) and the node
array. -/
structure LoopState where
  mt : Mem NODE
  j : Int
  layer_node_count : Int
  sub_len : Int
  in_ : Int

/-- Body of the inner `while` loop (lines 155-184).  Its call of `get_concat_hash` fills
node `in` and gets the blocks `heaps in`; `in` grows with every run, so every run has its
own. -/
def inner_body (env : Env) (heaps : Mem Heap) (node_count : Int) (s : LoopState) : LoopState :=
  let mt1 :=
    if s.in_ ≠ node_count - 1 then
      if s.in_ = s.sub_len then
        store s.mt s.in_ { s.mt s.in_ with prev := -1, next := (s.mt (s.in_ + 1)).node_id }
      else if s.in_ = s.sub_len + s.layer_node_count - 1 then
        store s.mt s.in_ { s.mt s.in_ with prev := (s.mt (s.in_ - 1)).node_id, next := -1 }
      else
        store s.mt s.in_
          { s.mt s.in_ with prev := (s.mt (s.in_ - 1)).node_id,
                            next := (s.mt (s.in_ + 1)).node_id }
    else s.mt
  let mt2 := store mt1 s.j { mt1 s.j with parent := s.in_ }
  let mt3 := store mt2 (s.j + 1) { mt2 (s.j + 1) with parent := s.in_ }
  let mt4 := store mt3 s.in_
    { mt3 s.in_ with
      hashval := get_concat_hash env (heaps s.in_) (mt3 s.j).hashval (mt3 (s.j + 1)).hashval }
  { s with mt := mt4, j := s.j + 2, in_ := s.in_ + 1 }

/-- The inner loop `while(j<sub_len-1)` (lines 153-185). -/
def inner_while (env : Env) (heaps : Mem Heap) (node_count : Int) :
    Nat → LoopState → Option LoopState
  | 0, _ => none
  | fuel + 1, s =>
    if s.j < s.sub_len - 1 then
      inner_while env heaps node_count fuel (inner_body env heaps node_count s)
    else some s

/-- The outer loop `while (in < node_count)` (lines 151-189); every run of the inner loop
gets the whole remaining fuel. -/
def outer_while (env : Env) (heaps : Mem Heap) (leaf_count node_count : Int) :
    Nat → LoopState → Option LoopState
  | 0, _ => none
  | fuel + 1, s =>
    if s.in_ < node_count then
      match inner_while env heaps node_count (fuel + 1) s with
      | none => none
      | some s1 =>
        outer_while env heaps leaf_count node_count fuel
          { s1 with sub_len := leaf_count + s1.sub_len.tdiv 2,
                    layer_node_count := s1.layer_node_count.tdiv 2 }
    else some s

/-- The function `build_tree(mtree, hlist, length)`: the return value and the tree. -/
def build_tree (env : Env) (heaps : Mem Heap) (fuel : Nat) (mtree : TREE)
    (hlist : Mem (List Nat)) (length : Nat) : Option (Int × TREE) :=
  let node_count := mtree.node_count
  let leaf_count := mtree.leaf_count
  let mt0 := (List.range node_count.toNat).foldl
    (fun mt (i : Nat) => init_node env mt (i : Int)) mtree.merkle_tree
  let mt1 := (List.range leaf_count.toNat).foldl
    (fun mt (i : Nat) => fill_leaf env hlist length leaf_count mt (i : Int)) mt0
  match outer_while env heaps leaf_count node_count fuel
      { mt := mt1, j := 0, layer_node_count := leaf_count.tdiv 2, sub_len := leaf_count,
        in_ := leaf_count } with
  | none => none
  | some s => some (0, { mtree with merkle_tree := s.mt })

/-! ## find_path (mtree.h, lines 215-237) -/

/-- The loop `for(t=0; t<H_BYTES; t++) dst[t] = src[t];` into a fresh `H_BYTES` buffer. -/
def copy_hash (src : List Nat) : List Nat :=
  (List.range H_BYTES).map (fun t => src.getD t 0)

/-- What `find_path` leaves behind: its return value, the `path` array and the final value
of its counter `i`, the number of path elements written. -/
structure PathResult where
  status : Int
  path : Mem (List Nat)
  count : Int

/-- The loop `while(parent!=-1)` of `find_path` (lines 221-235). -/
def find_path_loop (mt : Mem NODE) :
    Nat → (node_id parent : Int) → (path : Mem (List Nat)) → (i : Int) → Option PathResult
  | 0, _, _, _, _ => none
  | fuel + 1, node_id, parent, path, i =>
    if parent ≠ -1 then
      let sibling := if node_id.tmod 2 = 1 then (mt node_id).prev else (mt node_id).next
      let node_id1 := parent
      let parent1 := (mt node_id1).parent
      let path1 := store path i (copy_hash (mt sibling).hashval)
      find_path_loop mt fuel node_id1 parent1 path1 (i + 1)
    else some { status := 0, path := path, count := i }

/-- The function `find_path(mtree, node_id, path)`. -/
def find_path (fuel : Nat) (mtree : TREE) (node_id : Int) (path : Mem (List Nat)) :
    Option PathResult :=
  find_path_loop mtree.merkle_tree fuel node_id (mtree.merkle_tree node_id).parent path 0

/-! ## find_root_from_path (mtree.h, lines 242-258) -/

/-- The loop `for (i = 1; i < len; i++) get_concat_hash(path[i],md_values[i-1],md_values[i]);`
from `i` on, with `n` rounds left.  The call loads through `md_values[i-1]` and stores
through `md_values[i]`; it gets the blocks `heaps i`. -/
def md_loop (env : Env) (heaps : Mem Heap) (path : Mem (List Nat)) :
    Nat → Int → Mem (Option (List Nat)) → Option (Mem (Option (List Nat)))
  | 0, _, md => some md
  | n + 1, i, md =>
    match md (i - 1), md i with
    | some prev, some _ =>
      md_loop env heaps path n (i + 1)
        (store md i (some (get_concat_hash env (heaps i) (path i) prev)))
    | _, _ => none

/-- The function `find_root_from_path(path, node_hash, root, len)`: the return value and
the bytes written to `root`.  `md_values` is the local array of `len` pointers, each
assigned slot standing for the buffer it points to; no slot is assigned at entry. -/
def find_root_from_path (env : Env) (heaps : Mem Heap) (path : Mem (List Nat))
    (node_hash : List Nat) (len : Int) : Option (Int × List Nat) :=
  let md0 : Mem (Option (List Nat)) := (List.range len.toNat).foldl
    (fun md (i : Nat) => store md (i : Int) (some env.fresh_bytes)) (fun _ => none)
  match md0 0 with
  | none => none
  | some _ =>
    match md_loop env heaps path (len - 1).toNat 1
        (store md0 0 (some (get_concat_hash env (heaps 0) (path 0) node_hash))) with
    | none => none
    | some md2 =>
      match md2 (len - 1) with
      | none => none
      | some last => some (0, copy_hash last)

/-! ## find_nodeid (mtree.h, lines 262-277) -/

/-- The loop of `find_nodeid` from leaf `i` on, with `n` leaves left; `-1` is the
initial value of `node_id`. -/
def find_nodeid_loop (mt : Mem NODE) (hash : List Nat) : Nat → Int → Int
  | 0, _ => -1
  | n + 1, i =>
    if compare_hash hash (mt i).hashval ≠ 0 then (mt i).node_id
    else find_nodeid_loop mt hash n (i + 1)

/-- The function `find_nodeid(mtree, text_list_element, length)`. -/
def find_nodeid (env : Env) (mtree : TREE) (text_list_element : List Nat) (length : Nat) :
    Int :=
  let hash := shake256 env H_BYTES text_list_element length
  find_nodeid_loop mtree.merkle_tree hash mtree.leaf_count.toNat 0

/-! ## Vocabulary of the statements -/

/-- Bit `j` of byte `i` of a hash buffer, as `convert_binary` extracts it. -/
def hash_bit (hashval : List Nat) (index : Nat) : Nat :=
  (hashval.getD (H_BYTES - 1 - index / 8) 0 >>> (index % 8)) &&& 1

/-- The node the init loop leaves in cell `k`. -/
def init_cell (env : Env) (k : Int) : NODE :=
  { node_id := k, hashval := env.fresh_bytes, prev := -1, next := -1, parent := -1 }

/-- The node the leaf loop leaves in cell `k`, in terms of the array `mt0` the loop starts
from. -/
def leaf_cell (env : Env) (hlist : Mem (List Nat)) (length : Nat) (leaf_count : Int)
    (mt0 : Mem NODE) (k : Int) : NODE :=
  { node_id := (mt0 k).node_id,
    hashval := shake256 env H_BYTES (hlist k) length,
    prev := if k = 0 then -1 else (mt0 (k - 1)).node_id,
    next := if k = 0 then (mt0 (k + 1)).node_id
            else if k = leaf_count - 1 then -1 else (mt0 (k + 1)).node_id,
    parent := (mt0 k).parent }

/-- The node array after lines 155-173 of the inner loop body (sibling links of `in`). -/
def body_links (node_count : Int) (s : LoopState) : Mem NODE :=
  if s.in_ ≠ node_count - 1 then
    if s.in_ = s.sub_len then
      store s.mt s.in_ { s.mt s.in_ with prev := -1, next := (s.mt (s.in_ + 1)).node_id }
    else if s.in_ = s.sub_len + s.layer_node_count - 1 then
      store s.mt s.in_ { s.mt s.in_ with prev := (s.mt (s.in_ - 1)).node_id, next := -1 }
    else
      store s.mt s.in_
        { s.mt s.in_ with prev := (s.mt (s.in_ - 1)).node_id,
                          next := (s.mt (s.in_ + 1)).node_id }
  else s.mt

/-- The store `m[c].parent = p`. -/
def set_parent (m : Mem NODE) (c p : Int) : Mem NODE := store m c { m c with parent := p }

/-- The stores of an `H_BYTES` result into the buffer `m[p].hashval`. -/
def set_hashval (m : Mem NODE) (p : Int) (h : List Nat) : Mem NODE :=
  store m p { m p with hashval := h }

/-- Sibling links of an inner node `p` that lies in the layer of width `W`, which occupies
the indices `2*L - 2*W .. 2*L - W - 1`. -/
def LayerLinks (L : Int) (mt : Mem NODE) (p W : Int) : Prop :=
  2 ≤ W ∧ 2 * W ≤ L ∧ 2 * L - 2 * W ≤ p ∧ p < 2 * L - W ∧
  (mt p).prev = (if p = 2 * L - 2 * W then -1 else p - 1) ∧
  (mt p).next = (if p = 2 * L - W - 1 then -1 else p + 1)

/-- State of the node array when the children below `j` have been paired and the inner
nodes below `in_` have been filled; `m0` is the array `build_tree` was given, `L` the leaf
count, and the node count is `2*L - 1`. -/
structure TreeInv (env : Env) (heaps : Mem Heap) (hlist : Mem (List Nat)) (length : Nat)
    (L : Int) (m0 mt : Mem NODE) (j in_ : Int) : Prop where
  rel : j = 2 * (in_ - L)
  in_lo : L ≤ in_
  in_hi : in_ ≤ 2 * L - 1
  outside : ∀ k, (k < 0 ∨ 2 * L - 1 ≤ k) → mt k = m0 k
  node_id : ∀ k, 0 ≤ k → k < 2 * L - 1 → (mt k).node_id = k
  parent_done : ∀ c, 0 ≤ c → c < j → (mt c).parent = L + c / 2
  parent_todo : ∀ c, j ≤ c → c < 2 * L - 1 → (mt c).parent = -1
  leaf_hash : ∀ i, 0 ≤ i → i < L → (mt i).hashval = shake256 env H_BYTES (hlist i) length
  inner_hash : ∀ p, L ≤ p → p < in_ →
    (mt p).hashval
      = get_concat_hash env (heaps p) (mt (2 * (p - L))).hashval
          (mt (2 * (p - L) + 1)).hashval
  leaf_prev : ∀ i, 0 ≤ i → i < L → (mt i).prev = if i = 0 then -1 else i - 1
  leaf_next : ∀ i, 0 ≤ i → i < L → (mt i).next = if i = L - 1 then -1 else i + 1
  inner_links : ∀ p, L ≤ p → p < in_ → p ≠ 2 * L - 2 →
    ∃ e : Nat, LayerLinks L mt p ((2 : Int) ^ e)
  todo_links : ∀ p, in_ ≤ p → p < 2 * L - 1 → (mt p).prev = -1 ∧ (mt p).next = -1
  root_links : (mt (2 * L - 2)).prev = -1 ∧ (mt (2 * L - 2)).next = -1

/-- A finished tree: the invariant with all `2*L - 1` nodes filled. -/
def Built (env : Env) (heaps : Mem Heap) (hlist : Mem (List Nat)) (length : Nat) (L : Int)
    (m0 mt : Mem NODE) : Prop :=
  TreeInv env heaps hlist length L m0 mt (2 * L - 2) (2 * L - 1)

/-- The accumulation `find_root_from_path` performs: starting from `acc`, the path elements
`path[i], path[i+1], ...` are combined in, `d` of them, the call for `path[i]` on the
blocks `heaps i`. -/
def root_fold (env : Env) (heaps : Mem Heap) (path : Mem (List Nat)) :
    Nat → Int → List Nat → List Nat
  | 0, _, acc => acc
  | d + 1, i, acc =>
    root_fold env heaps path d (i + 1) (get_concat_hash env (heaps i) (path i) acc)

/-- The `t`-th ancestor of node `n`: the parent of `c` is `L + c / 2`. -/
def ancestor (L : Int) : Nat → Int → Int
  | 0, n => n
  | t + 1, n => ancestor L t (L + n / 2)

/-- The other child of the parent of `n`. -/
def sibling_of (n : Int) : Int := if n % 2 = 1 then n - 1 else n + 1

/-- A small hash engine: byte `k` of the output is the sum of the input bytes plus `k`,
reduced to a byte. -/
def sample_env : Env :=
  { xof := fun _ input k => (input.sum + k) % 256,
    fresh_bytes := [] }

/-- Blocks as a heap that was never used returns them: every cell is 0. -/
def sample_heap : Heap :=
  { binary1 := fun _ => 0, binary2 := fun _ => 0, binary3 := fun _ => 0 }

/-- Every call finds blocks that were never used. -/
def sample_heaps : Mem Heap := fun _ => sample_heap

/-- Blocks that were used before: cell 0 of `binary1` holds 1. -/
def used_heap : Heap :=
  { binary1 := fun k => if k = 0 then 1 else 0, binary2 := fun _ => 0, binary3 := fun _ => 0 }

/-- The value of the cell `binary3[0] = binary1[0]^binary2[0]`, which `convert_binary`
never writes: it is made of what `malloc` left in the two blocks. -/
def cell0 (heap : Heap) : Nat := heap.binary1 0 ^^^ heap.binary2 0

/-- Raw inputs: input `i` is the one-byte text `[i]`. -/
def sample_hlist : Mem (List Nat) := fun i => [i.toNat]

/-- A node array as `malloc` may return it: every cell holds the same stale node. -/
def sample_mem : Mem NODE :=
  fun _ => { node_id := 7, hashval := [], prev := 7, next := 7, parent := 7 }

/-- A path array whose slots hold empty buffers. -/
def sample_path : Mem (List Nat) := fun _ => []

/-- Raw inputs that are all the same one-byte text. -/
def sample_same : Mem (List Nat) := fun _ => [5]

/-- Two hash buffers agree on their bytes 0 to 3. -/
def same_first_four (a b : List Nat) : Prop := ∀ t, t < 4 → a.getD t 0 = b.getD t 0

/-- The buffer `h` with the byte at `pos` replaced by a different byte. -/
def tamper_byte (h : List Nat) (pos : Nat) : List Nat :=
  h.set pos ((h.getD pos 0 + 1) % 256)

/-- The bytes `get_concat_hash` hands to `shake256`: the first `H_BITS` bytes found at
`(unsigned char*)binary3`. -/
def hash_input (heap : Heap) (msg msg1 : List Nat) : List Nat :=
  (int_bytes (xor_binary (convert_binary msg heap.binary1) (convert_binary msg1 heap.binary2)
    heap.binary3)).take H_BITS

/-- The `SIZEOF_INT` bytes of an `int` cell that holds `v`, least significant first. -/
def cell_bytes (v : Nat) : List Nat :=
  (List.range SIZEOF_INT).map (fun t => (v >>> (8 * t)) % 256)

/-- The bytes of the cells `binary3[1] .. binary3[31]`: cell `c` holds the XOR of the bits
`H_BITS - c` of the two hashes. -/
def input_tail (msg msg1 : List Nat) : List Nat :=
  (List.range (SIZEOF_INT * 31)).map
    (fun m =>
      ((hash_bit msg (H_BITS - 1 - m / SIZEOF_INT) ^^^ hash_bit msg1 (H_BITS - 1 - m / SIZEOF_INT))
        >>> (8 * (m % SIZEOF_INT))) % 256)

/-- Two hash buffers agree in all `H_BYTES` bytes, as `compare_hash` tests it. -/
def bytes_equal (hash1 hash2 : List Nat) : Prop :=
  ∀ t, t < H_BYTES → hash1.getD t 0 = hash2.getD t 0

/-- A tree header with two leaves over a node array whose cell `i` has `node_id = i`, an
empty hash buffer and no links. -/
def sample_tree : TREE :=
  { leaf_count := 2, node_count := 3,
    merkle_tree := fun i => { node_id := i, hashval := [], prev := -1, next := -1, parent := -1 } }

/-- The state of `build_tree` at the entry of the nested loops (line 148): the node array
after the init loop and the leaf loop, and the four loop variables. -/
def loop_entry (env : Env) (mtree : TREE) (hlist : Mem (List Nat)) (length : Nat) : LoopState :=
  { mt := (List.range mtree.leaf_count.toNat).foldl
      (fun mt (i : Nat) => fill_leaf env hlist length mtree.leaf_count mt (i : Int))
      ((List.range mtree.node_count.toNat).foldl
        (fun mt (i : Nat) => init_node env mt (i : Int)) mtree.merkle_tree),
    j := 0, layer_node_count := mtree.leaf_count.tdiv 2, sub_len := mtree.leaf_count,
    in_ := mtree.leaf_count }

/-- The indices of `merkle_tree` that one run of the inner loop body (lines 155-180) reads
or writes, in program order. -/
def body_accesses (node_count : Int) (s : LoopState) : List Int :=
  (if s.in_ ≠ node_count - 1 then
      if s.in_ = s.sub_len then [s.in_, s.in_ + 1, s.in_]
      else if s.in_ = s.sub_len + s.layer_node_count - 1 then [s.in_ - 1, s.in_, s.in_]
      else [s.in_ - 1, s.in_, s.in_ + 1, s.in_]
    else [])
    ++ [s.j, s.j + 1, s.j, s.j + 1, s.in_]

/-- What the nested loops did so far: the indices read or written, and the inner nodes
whose fields were assigned, both in program order. -/
structure LoopLog where
  touched : List Int
  filled : List Int

/-- The inner loop of `inner_while`, keeping the log. -/
def inner_while_log (env : Env) (heaps : Mem Heap) (node_count : Int) :
    Nat → LoopState → LoopLog → Option (LoopState × LoopLog)
  | 0, _, _ => none
  | fuel + 1, s, log =>
    if s.j < s.sub_len - 1 then
      inner_while_log env heaps node_count fuel (inner_body env heaps node_count s)
        { touched := log.touched ++ body_accesses node_count s,
          filled := log.filled ++ [s.in_] }
    else some (s, log)

/-- The outer loop of `outer_while`, keeping the log. -/
def outer_while_log (env : Env) (heaps : Mem Heap) (leaf_count node_count : Int) :
    Nat → LoopState → LoopLog → Option (LoopState × LoopLog)
  | 0, _, _ => none
  | fuel + 1, s, log =>
    if s.in_ < node_count then
      match inner_while_log env heaps node_count (fuel + 1) s log with
      | none => none
      | some (s1, log1) =>
        outer_while_log env heaps leaf_count node_count fuel
          { s1 with sub_len := leaf_count + s1.sub_len.tdiv 2,
                    layer_node_count := s1.layer_node_count.tdiv 2 } log1
    else some (s, log)

/-! ## Memory and the bit expansion -/

@[simp]
theorem store_same {α : Type} (m : Mem α) (i : Int) (v : α) : store m i v i = v := by
  simp [store]

theorem store_other {α : Type} (m : Mem α) (i k : Int) (v : α) (h : k ≠ i) :
    store m i v k = m k := by
  simp [store, h]

theorem convert_inner_fold (b : Nat) (c : Int) (n : Nat) (l : List (Int × Nat)) (idx : Int) :
    (List.range n).foldl
        (fun (st : List (Int × Nat) × Int) (j : Nat) =>
          (st.1 ++ [(c - st.2, (b >>> j) &&& 1)], st.2 + 1)) (l, idx)
      = (l ++ (List.range n).map (fun (j : Nat) => (c - (idx + (j : Int)), (b >>> j) &&& 1)),
          idx + (n : Int)) := by
  induction n with
  | zero => simp
  | succ n ih =>
    rw [List.range_succ, List.foldl_append, ih]
    simp [List.map_append, add_assoc]

theorem convert_outer_fold (hashval : List Nat) (c : Int) (m : Nat) (l : List (Int × Nat))
    (idx : Int) :
    (List.range m).reverse.foldl
        (fun (st : List (Int × Nat) × Int) (i : Nat) =>
          (List.range 8).foldl
            (fun (st : List (Int × Nat) × Int) (j : Nat) =>
              (st.1 ++ [(c - st.2, (hashval.getD i 0 >>> j) &&& 1)], st.2 + 1)) st) (l, idx)
      = (l ++ (List.range (8 * m)).map
            (fun (t : Nat) =>
              (c - (idx + (t : Int)), (hashval.getD (m - 1 - t / 8) 0 >>> (t % 8)) &&& 1)),
          idx + ((8 * m : Nat) : Int)) := by
  induction m generalizing l idx with
  | zero => simp
  | succ m ih =>
    have hr : (List.range (m + 1)).reverse = m :: (List.range m).reverse := by
      rw [List.range_succ, List.reverse_append, List.reverse_singleton, List.singleton_append]
    rw [hr, List.foldl_cons, convert_inner_fold, ih]
    have h8 : 8 * (m + 1) = 8 + 8 * m := by ring
    have e1 : (List.range 8).map
          (fun (j : Nat) => (c - (idx + (j : Int)), (hashval.getD m 0 >>> j) &&& 1))
        = (List.range 8).map (fun (t : Nat) =>
            (c - (idx + (t : Int)), (hashval.getD (m + 1 - 1 - t / 8) 0 >>> (t % 8)) &&& 1)) := by
      apply List.map_congr_left
      intro j hj
      have hj8 : j < 8 := List.mem_range.mp hj
      have h0 : j / 8 = 0 := Nat.div_eq_of_lt hj8
      have h1 : j % 8 = j := Nat.mod_eq_of_lt hj8
      simp [h0, h1]
    have e2 : (List.range (8 * m)).map (fun (t : Nat) =>
            (c - (idx + ((8 : Nat) : Int) + (t : Int)),
              (hashval.getD (m - 1 - t / 8) 0 >>> (t % 8)) &&& 1))
        = ((List.range (8 * m)).map (fun t => 8 + t)).map (fun (t : Nat) =>
            (c - (idx + (t : Int)), (hashval.getD (m + 1 - 1 - t / 8) 0 >>> (t % 8)) &&& 1)) := by
      rw [List.map_map]
      apply List.map_congr_left
      intro t _
      have h0 : (8 + t) / 8 = 1 + t / 8 := by omega
      have h1 : (8 + t) % 8 = t % 8 := by omega
      have h2 : m + 1 - 1 - (1 + t / 8) = m - 1 - t / 8 := by omega
      simp only [Function.comp, h0, h1, h2, Nat.cast_add, Nat.cast_ofNat, add_assoc]
    rw [e1, e2, h8, List.range_add, List.map_append, List.append_assoc]
    refine Prod.ext rfl ?_
    simp only
    push_cast
    ring

theorem convert_binary_stores_eq (hashval : List Nat) :
    convert_binary_stores hashval =
      (List.range H_BITS).map
        (fun (index : Nat) => ((H_BITS : Int) - (index : Int), hash_bit hashval index)) := by
  unfold convert_binary_stores
  rw [convert_outer_fold]
  simp [H_BITS, H_BYTES, hash_bit]

theorem foldl_store_range {α : Type} (c : Int) (v : Nat → α) (n : Nat) (f : Mem α) (k : Int) :
    (((List.range n).map (fun (index : Nat) => (c - (index : Int), v index))).foldl
        (fun m p => store m p.1 p.2) f) k
      = if c - (n : Int) < k ∧ k ≤ c then v (c - k).toNat else f k := by
  induction n with
  | zero =>
    have h0 : ¬ (c < k ∧ k ≤ c) := by omega
    simp [h0]
  | succ n ih =>
    rw [List.range_succ, List.map_append, List.foldl_append]
    simp only [List.map_cons, List.map_nil, List.foldl_cons, List.foldl_nil]
    by_cases hk : k = c - (n : Int)
    · subst hk
      have h1 : c - ((n + 1 : Nat) : Int) < c - (n : Int) ∧ c - (n : Int) ≤ c := by omega
      have h2 : (c - (c - (n : Int))).toNat = n := by omega
      simp [h1, h2]
    · rw [store_other _ _ _ _ hk, ih]
      have h1 : (c - ((n + 1 : Nat) : Int) < k ∧ k ≤ c) ↔ (c - (n : Int) < k ∧ k ≤ c) := by
        omega
      simp only [h1]

/-- Closed form of `convert_binary`: offsets `1..H_BITS` receive the bits, every other
cell keeps its content. -/
theorem convert_binary_apply (hashval : List Nat) (binary : Mem Nat) (k : Int) :
    convert_binary hashval binary k
      = if 0 < k ∧ k ≤ (H_BITS : Int) then hash_bit hashval ((H_BITS : Int) - k).toNat
        else binary k := by
  unfold convert_binary
  rw [convert_binary_stores_eq, foldl_store_range]
  simp

/-- Closed form of the XOR loop. -/
theorem xor_binary_apply (binary1 binary2 binary3 : Mem Nat) (k : Int) :
    xor_binary binary1 binary2 binary3 k
      = if 0 ≤ k ∧ k < (H_BITS : Int) then binary1 k ^^^ binary2 k else binary3 k := by
  unfold xor_binary
  generalize H_BITS = n
  induction n with
  | zero =>
    have h0 : ¬ (0 ≤ k ∧ k < 0) := by omega
    simp [h0]
  | succ n ih =>
    rw [List.range_succ, List.foldl_append]
    simp only [List.foldl_cons, List.foldl_nil]
    by_cases hk : k = (n : Int)
    · subst hk
      have h1 : 0 ≤ (n : Int) ∧ (n : Int) < ((n + 1 : Nat) : Int) := by omega
      simp [h1]
    · rw [store_other _ _ _ _ hk, ih]
      have h1 : (0 ≤ k ∧ k < ((n + 1 : Nat) : Int)) ↔ (0 ≤ k ∧ k < (n : Int)) := by omega
      simp only [h1]

/-- Closed form of the array `binary3` of `get_concat_hash` after the XOR loop: the cells
`1 .. H_BITS - 1` hold the XOR of two bits, cell 0 holds what `malloc` left in `binary1[0]`
and `binary2[0]`, every other cell what `malloc` left in `binary3`. -/
theorem binary3_apply (heap : Heap) (a b : List Nat) (k : Int) :
    xor_binary (convert_binary a heap.binary1) (convert_binary b heap.binary2) heap.binary3 k
      = if 0 < k ∧ k < (H_BITS : Int) then
          hash_bit a ((H_BITS : Int) - k).toNat ^^^ hash_bit b ((H_BITS : Int) - k).toNat
        else if k = 0 then cell0 heap else heap.binary3 k := by
  rw [xor_binary_apply]
  simp only [convert_binary_apply]
  have hH : (H_BITS : Int) = 128 := rfl
  by_cases h1 : 0 < k ∧ k < (H_BITS : Int)
  · have h2 : 0 ≤ k ∧ k < (H_BITS : Int) := ⟨by omega, h1.2⟩
    have h3 : 0 < k ∧ k ≤ (H_BITS : Int) := ⟨h1.1, by omega⟩
    simp only [if_pos h1, if_pos h2, if_pos h3]
  · rw [if_neg h1]
    by_cases h0 : k = 0
    · subst h0
      have h2 : (0 : Int) ≤ 0 ∧ (0 : Int) < (H_BITS : Int) := by rw [hH]; omega
      have h3 : ¬ ((0 : Int) < 0 ∧ (0 : Int) ≤ (H_BITS : Int)) := by omega
      simp only [if_pos h2, if_neg h3, if_true]
      rfl
    · have h2 : ¬ (0 ≤ k ∧ k < (H_BITS : Int)) := by omega
      rw [if_neg h2, if_neg h0]

/-- The output of `get_concat_hash` is the engine's output on `hash_input`. -/
theorem get_concat_hash_eq_input (env : Env) (heap : Heap) (a b : List Nat) :
    get_concat_hash env heap a b
      = (List.range H_BYTES).map (env.xof H_BYTES (hash_input heap a b)) :=
  rfl

/-- The bytes handed to `shake256` are the `SIZEOF_INT` bytes of each of the cells
`binary3[0] .. binary3[31]`. -/
theorem hash_input_eq (heap : Heap) (a b : List Nat) :
    hash_input heap a b
      = (List.range (SIZEOF_INT * 32)).map
          (fun m =>
            (xor_binary (convert_binary a heap.binary1) (convert_binary b heap.binary2)
              heap.binary3 ((m / SIZEOF_INT : Nat) : Int) >>> (8 * (m % SIZEOF_INT))) % 256) := by
  unfold hash_input int_bytes
  rw [← List.map_take, List.take_range]
  rfl

/-- The bytes handed to `shake256`: the four bytes of the never-written cell 0, then the
bytes of the cells 1 to 31, which hold XORs of bits of the two hashes. -/
theorem hash_input_split (heap : Heap) (a b : List Nat) :
    hash_input heap a b = cell_bytes (cell0 heap) ++ input_tail a b := by
  rw [hash_input_eq]
  have h4 : SIZEOF_INT = 4 := rfl
  have hr : SIZEOF_INT * 32 = SIZEOF_INT + SIZEOF_INT * 31 := by rw [h4]
  rw [hr, List.range_add, List.map_append, List.map_map]
  unfold cell_bytes input_tail
  refine congrArg₂ (fun (x y : List Nat) => x ++ y) ?_ ?_
  · apply List.map_congr_left
    intro m hm
    have hm1 : m < SIZEOF_INT := List.mem_range.mp hm
    rw [h4] at hm1
    have hd : m / SIZEOF_INT = 0 := by rw [h4]; omega
    have hmod : m % SIZEOF_INT = m := by rw [h4]; omega
    rw [hd, hmod, binary3_apply]
    have h1 : ¬ ((0 : Int) < ((0 : Nat) : Int) ∧ ((0 : Nat) : Int) < (H_BITS : Int)) := by
      simp
    rw [if_neg h1, if_pos (by simp)]
  · apply List.map_congr_left
    intro m hm
    have hm1 : m < SIZEOF_INT * 31 := List.mem_range.mp hm
    rw [h4] at hm1
    simp only [Function.comp]
    have hd : (SIZEOF_INT + m) / SIZEOF_INT = 1 + m / SIZEOF_INT := by rw [h4]; omega
    have hmod : (SIZEOF_INT + m) % SIZEOF_INT = m % SIZEOF_INT := by rw [h4]; omega
    rw [hd, hmod, binary3_apply]
    have hH : H_BITS = 128 := rfl
    have hq : m / SIZEOF_INT < 31 := by rw [h4]; omega
    generalize m / SIZEOF_INT = q at hq ⊢
    have h1 : (0 : Int) < ((1 + q : Nat) : Int) ∧ ((1 + q : Nat) : Int) < (H_BITS : Int) := by
      rw [hH]; omega
    have h2 : ((H_BITS : Int) - ((1 + q : Nat) : Int)).toNat = H_BITS - 1 - q := by
      rw [hH]; omega
    rw [if_pos h1, h2]

/-- The bytes of the cells 1 to 31 are the same for both orders of the two hashes. -/
theorem input_tail_comm (a b : List Nat) : input_tail a b = input_tail b a := by
  unfold input_tail
  apply List.map_congr_left
  intro m _
  rw [Nat.xor_comm]

/-- Two calls that find the same value in the never-written cell 0 give the same output
for both orders of the two hashes: apart from that cell only XORs of bits are handed to
`shake256`. -/
theorem get_concat_hash_comm (env : Env) (heap heap' : Heap) (a b : List Nat)
    (hc : cell0 heap = cell0 heap') :
    get_concat_hash env heap a b = get_concat_hash env heap' b a := by
  rw [get_concat_hash_eq_input, get_concat_hash_eq_input, hash_input_split, hash_input_split,
    hc, input_tail_comm]

/-- Two calls on the same two hashes that find the same value in the never-written cell 0
give the same output. -/
theorem get_concat_hash_heap (env : Env) (heap heap' : Heap) (a b : List Nat)
    (hc : cell0 heap = cell0 heap') :
    get_concat_hash env heap a b = get_concat_hash env heap' a b := by
  rw [get_concat_hash_eq_input, get_concat_hash_eq_input, hash_input_split, hash_input_split,
    hc]

/-- Under the sum engine a call that finds 0 in the never-written cell 0 and a call that
finds 1 there give different outputs, whenever the cells 1 to 31 agree. -/
theorem sample_env_cell0_ne (heap heap' : Heap) (a b a' b' : List Nat)
    (ht : input_tail a b = input_tail a' b') (h0 : cell0 heap = 0) (h1 : cell0 heap' = 1) :
    get_concat_hash sample_env heap a b ≠ get_concat_hash sample_env heap' a' b' := by
  intro heq
  have e : (get_concat_hash sample_env heap a b).getD 0 0
      = (get_concat_hash sample_env heap' a' b').getD 0 0 := by rw [heq]
  rw [get_concat_hash_eq_input, get_concat_hash_eq_input, hash_input_split, hash_input_split,
    h0, h1, ht] at e
  have hs0 : (cell_bytes 0).sum = 0 := by decide
  have hs1 : (cell_bytes 1).sum = 1 := by decide
  simp only [H_BYTES, sample_env, List.getD_eq_getElem?_getD, List.getElem?_map,
    List.sum_append, hs0, hs1] at e
  have hr : (List.range 16)[0]? = some 0 := by decide
  rw [hr] at e
  simp only [Option.map_some', Option.getD_some] at e
  omega

theorem shake256_length (env : Env) (outlen : Nat) (input : List Nat) (inlen : Nat) :
    (shake256 env outlen input inlen).length = outlen := by
  simp [shake256]

theorem get_concat_hash_length (env : Env) (heap : Heap) (a b : List Nat) :
    (get_concat_hash env heap a b).length = H_BYTES := by
  simp [get_concat_hash, shake256_length]

theorem copy_hash_of_length (h : List Nat) (hl : h.length = H_BYTES) : copy_hash h = h := by
  unfold copy_hash
  apply List.ext_getElem
  · simp [hl]
  · intro n h1 h2
    simp only [List.length_map, List.length_range] at h1
    simp [List.getD_eq_getElem?_getD, List.getElem?_eq_getElem h2]

/-! ## The loops of build_tree, cell by cell -/

theorem init_fold_apply (env : Env) (m0 : Mem NODE) (n : Nat) (k : Int) :
    ((List.range n).foldl (fun mt (i : Nat) => init_node env mt (i : Int)) m0) k
      = if 0 ≤ k ∧ k < (n : Int) then init_cell env k else m0 k := by
  induction n with
  | zero =>
    have h0 : ¬ (0 ≤ k ∧ k < 0) := by omega
    simp [h0]
  | succ n ih =>
    rw [List.range_succ, List.foldl_append]
    simp only [List.foldl_cons, List.foldl_nil]
    generalize List.foldl (fun mt (i : Nat) => init_node env mt (i : Int)) m0 (List.range n)
      = mtn at ih ⊢
    unfold init_node
    by_cases hk : k = (n : Int)
    · subst hk
      have h1 : 0 ≤ (n : Int) ∧ (n : Int) < ((n + 1 : Nat) : Int) := by omega
      simp [h1, init_cell]
    · rw [store_other _ _ _ _ hk, ih]
      have h1 : (0 ≤ k ∧ k < ((n + 1 : Nat) : Int)) ↔ (0 ≤ k ∧ k < (n : Int)) := by omega
      simp only [h1]

theorem leaf_fold_apply (env : Env) (hlist : Mem (List Nat)) (length : Nat) (leaf_count : Int)
    (mt0 : Mem NODE) (n : Nat) (k : Int) :
    ((List.range n).foldl
        (fun mt (i : Nat) => fill_leaf env hlist length leaf_count mt (i : Int)) mt0) k
      = if 0 ≤ k ∧ k < (n : Int) then leaf_cell env hlist length leaf_count mt0 k
        else mt0 k := by
  induction n generalizing k with
  | zero =>
    have h0 : ¬ (0 ≤ k ∧ k < 0) := by omega
    simp [h0]
  | succ n ih =>
    rw [List.range_succ, List.foldl_append]
    simp only [List.foldl_cons, List.foldl_nil]
    generalize List.foldl
      (fun mt (i : Nat) => fill_leaf env hlist length leaf_count mt (i : Int)) mt0 (List.range n)
      = mtn at ih ⊢
    by_cases hk : k = (n : Int)
    · subst hk
      have h1 : 0 ≤ (n : Int) ∧ (n : Int) < ((n + 1 : Nat) : Int) := by omega
      have h2 : ¬ (0 ≤ (n : Int) ∧ (n : Int) < (n : Int)) := by omega
      have h3 : ¬ (0 ≤ (n : Int) + 1 ∧ (n : Int) + 1 < (n : Int)) := by omega
      simp only [h1, and_self, if_true, fill_leaf, store_same, ih, h2, h3, if_false]
      by_cases hn : (n : Int) = 0
      · simp [hn, leaf_cell]
      · have h4 : 0 ≤ (n : Int) - 1 ∧ (n : Int) - 1 < (n : Int) := by omega
        by_cases hl : (n : Int) = leaf_count - 1
        · simp [hn, hl.symm, h4, leaf_cell]
        · simp [hn, hl, h4, leaf_cell]
    · have h1 : (0 ≤ k ∧ k < ((n + 1 : Nat) : Int)) ↔ (0 ≤ k ∧ k < (n : Int)) := by omega
      simp only [h1]
      rw [← ih]
      unfold fill_leaf
      split_ifs <;> simp [store_other _ _ _ _ hk]

theorem store_apply {α : Type} (m : Mem α) (i k : Int) (v : α) :
    store m i v k = if k = i then v else m k := rfl

/-- A store that keeps a field of the cell it overwrites keeps that field everywhere. -/
theorem store_keeps {α β : Type} (f : α → β) (m : Mem α) (i k : Int) (v : α)
    (h : f v = f (m i)) : f (store m i v k) = f (m k) := by
  by_cases hk : k = i
  · subst hk; simp [h]
  · rw [store_other _ _ _ _ hk]

theorem inner_body_mt (env : Env) (heaps : Mem Heap) (nc : Int) (s : LoopState) :
    (inner_body env heaps nc s).mt =
      set_hashval (set_parent (set_parent (body_links nc s) s.j s.in_) (s.j + 1) s.in_) s.in_
        (get_concat_hash env (heaps s.in_)
          ((set_parent (set_parent (body_links nc s) s.j s.in_) (s.j + 1) s.in_) s.j).hashval
          ((set_parent (set_parent (body_links nc s) s.j s.in_) (s.j + 1) s.in_)
            (s.j + 1)).hashval) := rfl

@[simp]
theorem set_parent_node_id (m : Mem NODE) (c p k : Int) :
    (set_parent m c p k).node_id = (m k).node_id := store_keeps NODE.node_id _ _ _ _ rfl

@[simp]
theorem set_parent_hashval (m : Mem NODE) (c p k : Int) :
    (set_parent m c p k).hashval = (m k).hashval := store_keeps NODE.hashval _ _ _ _ rfl

@[simp]
theorem set_parent_prev (m : Mem NODE) (c p k : Int) :
    (set_parent m c p k).prev = (m k).prev := store_keeps NODE.prev _ _ _ _ rfl

@[simp]
theorem set_parent_next (m : Mem NODE) (c p k : Int) :
    (set_parent m c p k).next = (m k).next := store_keeps NODE.next _ _ _ _ rfl

theorem set_parent_parent (m : Mem NODE) (c p k : Int) :
    (set_parent m c p k).parent = if k = c then p else (m k).parent := by
  unfold set_parent
  rw [store_apply]
  split_ifs <;> rfl

@[simp]
theorem set_hashval_node_id (m : Mem NODE) (p k : Int) (h : List Nat) :
    (set_hashval m p h k).node_id = (m k).node_id := store_keeps NODE.node_id _ _ _ _ rfl

@[simp]
theorem set_hashval_parent (m : Mem NODE) (p k : Int) (h : List Nat) :
    (set_hashval m p h k).parent = (m k).parent := store_keeps NODE.parent _ _ _ _ rfl

@[simp]
theorem set_hashval_prev (m : Mem NODE) (p k : Int) (h : List Nat) :
    (set_hashval m p h k).prev = (m k).prev := store_keeps NODE.prev _ _ _ _ rfl

@[simp]
theorem set_hashval_next (m : Mem NODE) (p k : Int) (h : List Nat) :
    (set_hashval m p h k).next = (m k).next := store_keeps NODE.next _ _ _ _ rfl

theorem set_hashval_hashval (m : Mem NODE) (p k : Int) (h : List Nat) :
    (set_hashval m p h k).hashval = if k = p then h else (m k).hashval := by
  unfold set_hashval
  rw [store_apply]
  split_ifs <;> rfl

theorem body_links_node_id (nc : Int) (s : LoopState) (k : Int) :
    (body_links nc s k).node_id = (s.mt k).node_id := by
  unfold body_links
  split_ifs <;> first | rfl | exact store_keeps NODE.node_id _ _ _ _ rfl

theorem body_links_parent (nc : Int) (s : LoopState) (k : Int) :
    (body_links nc s k).parent = (s.mt k).parent := by
  unfold body_links
  split_ifs <;> first | rfl | exact store_keeps NODE.parent _ _ _ _ rfl

theorem body_links_hashval (nc : Int) (s : LoopState) (k : Int) :
    (body_links nc s k).hashval = (s.mt k).hashval := by
  unfold body_links
  split_ifs <;> first | rfl | exact store_keeps NODE.hashval _ _ _ _ rfl

theorem body_links_prev (nc : Int) (s : LoopState) (k : Int) :
    (body_links nc s k).prev
      = if k = s.in_ ∧ s.in_ ≠ nc - 1 then
          (if s.in_ = s.sub_len then -1 else (s.mt (s.in_ - 1)).node_id)
        else (s.mt k).prev := by
  unfold body_links
  by_cases hk : k = s.in_
  · subst hk
    split_ifs <;> simp_all
  · split_ifs <;> simp_all [store_other]

theorem body_links_next (nc : Int) (s : LoopState) (k : Int) :
    (body_links nc s k).next
      = if k = s.in_ ∧ s.in_ ≠ nc - 1 then
          (if s.in_ = s.sub_len then (s.mt (s.in_ + 1)).node_id
           else if s.in_ = s.sub_len + s.layer_node_count - 1 then -1
           else (s.mt (s.in_ + 1)).node_id)
        else (s.mt k).next := by
  unfold body_links
  by_cases hk : k = s.in_
  · subst hk
    split_ifs <;> simp_all
  · split_ifs <;> simp_all [store_other]

/-- Fields of the node array after one run of the inner loop body. -/
theorem inner_body_node_id (env : Env) (heaps : Mem Heap) (nc : Int) (s : LoopState) (k : Int) :
    ((inner_body env heaps nc s).mt k).node_id = (s.mt k).node_id := by
  rw [inner_body_mt]
  simp [body_links_node_id]

theorem inner_body_hashval (env : Env) (heaps : Mem Heap) (nc : Int) (s : LoopState) (k : Int) :
    ((inner_body env heaps nc s).mt k).hashval
      = if k = s.in_ then
          get_concat_hash env (heaps s.in_) (s.mt s.j).hashval (s.mt (s.j + 1)).hashval
        else (s.mt k).hashval := by
  rw [inner_body_mt]
  simp [set_hashval_hashval, body_links_hashval]

theorem inner_body_parent (env : Env) (heaps : Mem Heap) (nc : Int) (s : LoopState) (k : Int) :
    ((inner_body env heaps nc s).mt k).parent
      = if k = s.j ∨ k = s.j + 1 then s.in_ else (s.mt k).parent := by
  rw [inner_body_mt]
  simp only [set_hashval_parent, set_parent_parent, body_links_parent]
  split_ifs <;> simp_all

theorem inner_body_prev (env : Env) (heaps : Mem Heap) (nc : Int) (s : LoopState) (k : Int) :
    ((inner_body env heaps nc s).mt k).prev
      = if k = s.in_ ∧ s.in_ ≠ nc - 1 then
          (if s.in_ = s.sub_len then -1 else (s.mt (s.in_ - 1)).node_id)
        else (s.mt k).prev := by
  rw [inner_body_mt]
  simp only [set_hashval_prev, set_parent_prev, body_links_prev]

theorem inner_body_next (env : Env) (heaps : Mem Heap) (nc : Int) (s : LoopState) (k : Int) :
    ((inner_body env heaps nc s).mt k).next
      = if k = s.in_ ∧ s.in_ ≠ nc - 1 then
          (if s.in_ = s.sub_len then (s.mt (s.in_ + 1)).node_id
           else if s.in_ = s.sub_len + s.layer_node_count - 1 then -1
           else (s.mt (s.in_ + 1)).node_id)
        else (s.mt k).next := by
  rw [inner_body_mt]
  simp only [set_hashval_next, set_parent_next, body_links_next]

theorem inner_body_outside (env : Env) (heaps : Mem Heap) (nc : Int) (s : LoopState) (k : Int)
    (h1 : k ≠ s.j) (h2 : k ≠ s.j + 1) (h3 : k ≠ s.in_) :
    (inner_body env heaps nc s).mt k = s.mt k := by
  rw [inner_body_mt]
  unfold set_hashval set_parent
  rw [store_other _ _ _ _ h3, store_other _ _ _ _ h2, store_other _ _ _ _ h1]
  unfold body_links
  split_ifs <;> first | rfl | exact store_other _ _ _ _ h3

@[simp]
theorem inner_body_j (env : Env) (heaps : Mem Heap) (nc : Int) (s : LoopState) :
    (inner_body env heaps nc s).j = s.j + 2 := rfl

@[simp]
theorem inner_body_in (env : Env) (heaps : Mem Heap) (nc : Int) (s : LoopState) :
    (inner_body env heaps nc s).in_ = s.in_ + 1 := rfl

@[simp]
theorem inner_body_sub_len (env : Env) (heaps : Mem Heap) (nc : Int) (s : LoopState) :
    (inner_body env heaps nc s).sub_len = s.sub_len := rfl

@[simp]
theorem inner_body_layer_node_count (env : Env) (heaps : Mem Heap) (nc : Int) (s : LoopState) :
    (inner_body env heaps nc s).layer_node_count = s.layer_node_count := rfl

/-! ## The invariant of the two nested loops -/

/-- One run of the inner loop body inside the layer of width `2^e` keeps the invariant. -/
theorem inner_body_inv (env : Env) (heaps : Mem Heap)
    (hlist : Mem (List Nat)) (length : Nat) (L : Int)
    (m0 : Mem NODE) (e : Nat) (W : Int) (s : LoopState)
    (hinv : TreeInv env heaps hlist length L m0 s.mt s.j s.in_)
    (hWe : W = (2 : Int) ^ e) (hW : 2 * W ≤ L)
    (hsub : s.sub_len = 2 * L - 2 * W)
    (hlnc : s.layer_node_count = W)
    (hlo : s.sub_len ≤ s.in_) (hhi : s.in_ < 2 * L - W) :
    TreeInv env heaps hlist length L m0 (inner_body env heaps (2 * L - 1) s).mt
      (inner_body env heaps (2 * L - 1) s).j (inner_body env heaps (2 * L - 1) s).in_ := by
  have hpos : (1 : Int) ≤ W := by rw [hWe]; exact one_le_pow₀ (by norm_num)
  obtain ⟨rel, in_lo, in_hi, outside, node_id, parent_done, parent_todo, leaf_hash, inner_hash,
    leaf_prev, leaf_next, inner_links, todo_links, root_links⟩ := hinv
  have hj0 : 0 ≤ s.j := by omega
  have hjin : s.j + 1 < s.in_ := by omega
  refine ⟨?_, ?_, ?_, ?_, ?_, ?_, ?_, ?_, ?_, ?_, ?_, ?_, ?_, ?_⟩
  · simp only [inner_body_j, inner_body_in]; omega
  · simp only [inner_body_in]; omega
  · simp only [inner_body_in]; omega
  · intro k hk
    rw [inner_body_outside _ _ _ _ _ (by omega) (by omega) (by omega)]
    exact outside k hk
  · intro k h0 h1
    rw [inner_body_node_id]
    exact node_id k h0 h1
  · intro c h0 h1
    simp only [inner_body_j] at h1
    rw [inner_body_parent]
    by_cases hc : c = s.j ∨ c = s.j + 1
    · simp only [hc, if_true]; omega
    · simp only [hc, if_false]
      exact parent_done c h0 (by omega)
  · intro c h0 h1
    simp only [inner_body_j] at h0
    rw [inner_body_parent]
    have hc : ¬ (c = s.j ∨ c = s.j + 1) := by omega
    simp only [hc, if_false]
    exact parent_todo c (by omega) h1
  · intro i h0 h1
    rw [inner_body_hashval]
    have hi : i ≠ s.in_ := by omega
    simp only [hi, if_false]
    exact leaf_hash i h0 h1
  · intro p h0 h1
    simp only [inner_body_in] at h1
    have hc0 : 2 * (p - L) ≠ s.in_ := by omega
    have hc1 : 2 * (p - L) + 1 ≠ s.in_ := by omega
    rw [inner_body_hashval, inner_body_hashval _ _ _ _ (2 * (p - L)),
      inner_body_hashval _ _ _ _ (2 * (p - L) + 1)]
    simp only [hc0, hc1, if_false]
    by_cases hp : p = s.in_
    · simp only [hp, if_true]
      have e0 : 2 * (s.in_ - L) = s.j := by omega
      rw [e0]
    · simp only [hp, if_false]
      exact inner_hash p h0 (by omega)
  · intro i h0 h1
    rw [inner_body_prev]
    have hi : ¬ (i = s.in_ ∧ s.in_ ≠ 2 * L - 1 - 1) := by omega
    simp only [hi, if_false]
    exact leaf_prev i h0 h1
  · intro i h0 h1
    rw [inner_body_next]
    have hi : ¬ (i = s.in_ ∧ s.in_ ≠ 2 * L - 1 - 1) := by omega
    simp only [hi, if_false]
    exact leaf_next i h0 h1
  · intro p h0 h1 hroot
    simp only [inner_body_in] at h1
    by_cases hp : p = s.in_
    · refine ⟨e, ?_⟩
      rw [← hWe]
      subst hp
      have hc : s.in_ = s.in_ ∧ s.in_ ≠ 2 * L - 1 - 1 := ⟨rfl, by omega⟩
      have hid1 : (s.mt (s.in_ - 1)).node_id = s.in_ - 1 := node_id _ (by omega) (by omega)
      have hid2 : (s.mt (s.in_ + 1)).node_id = s.in_ + 1 := node_id _ (by omega) (by omega)
      unfold LayerLinks
      rw [inner_body_prev, inner_body_next, if_pos hc, if_pos hc]
      simp only [hid1, hid2, hsub, hlnc]
      refine ⟨by omega, hW, by omega, hhi, trivial, ?_⟩
      by_cases h2 : s.in_ = 2 * L - 2 * W
      · have h3 : ¬ (s.in_ = 2 * L - W - 1) := by omega
        simp only [h2.symm, h3, if_true, if_false]
      · simp only [h2, if_false]
        have h4 : (s.in_ = 2 * L - 2 * W + W - 1) ↔ (s.in_ = 2 * L - W - 1) := by omega
        simp only [h4]
    · obtain ⟨e', h2, h3, h4, h5, h6, h7⟩ := inner_links p h0 (by omega) hroot
      refine ⟨e', h2, h3, h4, h5, ?_, ?_⟩
      · rw [inner_body_prev]
        have hc : ¬ (p = s.in_ ∧ s.in_ ≠ 2 * L - 1 - 1) := by tauto
        simp only [hc, if_false]
        exact h6
      · rw [inner_body_next]
        have hc : ¬ (p = s.in_ ∧ s.in_ ≠ 2 * L - 1 - 1) := by tauto
        simp only [hc, if_false]
        exact h7
  · intro p h0 h1
    simp only [inner_body_in] at h0
    rw [inner_body_prev, inner_body_next]
    have hc : ¬ (p = s.in_ ∧ s.in_ ≠ 2 * L - 1 - 1) := by omega
    simp only [hc, if_false]
    exact todo_links p (by omega) h1
  · rw [inner_body_prev, inner_body_next]
    have hc : ¬ (2 * L - 2 = s.in_ ∧ s.in_ ≠ 2 * L - 1 - 1) := by omega
    simp only [hc, if_false]
    exact root_links

/-- The inner loop, started inside the layer of width `W = 2^e` with `n` nodes of the layer
still to fill, fills them and stops at the end of the layer. -/
theorem inner_while_spec (env : Env) (heaps : Mem Heap)
    (hlist : Mem (List Nat)) (length : Nat) (L : Int)
    (m0 : Mem NODE) (e : Nat) (W : Int) (hWe : W = (2 : Int) ^ e) (hW : 2 * W ≤ L) :
    ∀ (n fuel : Nat) (s : LoopState),
      TreeInv env heaps hlist length L m0 s.mt s.j s.in_ →
      s.sub_len = 2 * L - 2 * W → s.layer_node_count = W → s.sub_len ≤ s.in_ →
      s.in_ + (n : Int) = 2 * L - W → n < fuel →
      ∃ s1, inner_while env heaps (2 * L - 1) fuel s = some s1 ∧
        TreeInv env heaps hlist length L m0 s1.mt s1.j s1.in_ ∧ s1.in_ = 2 * L - W ∧
        s1.sub_len = 2 * L - 2 * W ∧ s1.layer_node_count = W := by
  intro n
  induction n with
  | zero =>
    intro fuel s hinv hsub hlnc _ hn hf
    obtain ⟨f, rfl⟩ : ∃ f, fuel = f + 1 := ⟨fuel - 1, by omega⟩
    have hrel := hinv.rel
    have hc : ¬ (s.j < s.sub_len - 1) := by omega
    refine ⟨s, ?_, hinv, by omega, hsub, hlnc⟩
    simp only [inner_while, hc, if_false]
  | succ n ih =>
    intro fuel s hinv hsub hlnc hlo hn hf
    obtain ⟨f, rfl⟩ : ∃ f, fuel = f + 1 := ⟨fuel - 1, by omega⟩
    have hrel := hinv.rel
    have hc : s.j < s.sub_len - 1 := by omega
    have hb := inner_body_inv env heaps hlist length L m0 e W s hinv hWe hW hsub hlnc hlo (by omega)
    obtain ⟨s1, h1, h2⟩ := ih f (inner_body env heaps (2 * L - 1) s) hb
      (by simp only [inner_body_sub_len]; exact hsub)
      (by simp only [inner_body_layer_node_count]; exact hlnc)
      (by simp only [inner_body_sub_len, inner_body_in]; omega)
      (by simp only [inner_body_in]; push_cast at hn; omega) (by omega)
    refine ⟨s1, ?_, h2⟩
    simp only [inner_while, hc, if_true]
    exact h1

/-- The outer loop, started at the first node of the layer of width `2^e`, fills that layer
and all layers above it and stops with `in = node_count`. -/
theorem outer_while_spec (env : Env) (heaps : Mem Heap)
    (hlist : Mem (List Nat)) (length : Nat) (L : Int)
    (m0 : Mem NODE) :
    ∀ (e fuel : Nat) (s : LoopState),
      TreeInv env heaps hlist length L m0 s.mt s.j s.in_ →
      2 * (2 : Int) ^ e ≤ L →
      s.sub_len = 2 * L - 2 * (2 : Int) ^ e → s.layer_node_count = (2 : Int) ^ e →
      s.in_ = s.sub_len → 2 * 2 ^ e ≤ fuel →
      ∃ s1, outer_while env heaps L (2 * L - 1) fuel s = some s1 ∧
        TreeInv env heaps hlist length L m0 s1.mt s1.j s1.in_ ∧ s1.in_ = 2 * L - 1 := by
  intro e
  induction e with
  | zero =>
    intro fuel s hinv hW hsub hlnc hin hf
    obtain ⟨f, rfl⟩ : ∃ f, fuel = f + 1 := ⟨fuel - 1, by omega⟩
    obtain ⟨g, rfl⟩ : ∃ g, f = g + 1 := ⟨f - 1, by omega⟩
    simp only [pow_zero, mul_one] at hW hsub hlnc
    obtain ⟨s1, h1, h2, h3, h4, h5⟩ := inner_while_spec env heaps hlist length L m0 0 1 (by simp)
      (by omega) 1 (g + 1 + 1) s hinv (by omega) hlnc (by omega) (by push_cast; omega) (by omega)
    have hc : s.in_ < 2 * L - 1 := by omega
    refine ⟨{ s1 with sub_len := L + s1.sub_len.tdiv 2,
                      layer_node_count := s1.layer_node_count.tdiv 2 }, ?_, h2, h3⟩
    simp only [outer_while, hc, if_true, h1]
    have hc2 : ¬ (s1.in_ < 2 * L - 1) := by omega
    simp only [hc2, if_false]
  | succ e ih =>
    intro fuel s hinv hW hsub hlnc hin hf
    have hpos : (1 : Int) ≤ (2 : Int) ^ e := one_le_pow₀ (by norm_num)
    have hposN : 1 ≤ 2 ^ e := Nat.one_le_two_pow
    have hpow : (2 : Int) ^ (e + 1) = 2 * (2 : Int) ^ e := by ring
    have hpowN : 2 ^ (e + 1) = 2 * 2 ^ e := by ring
    rw [hpow] at hW hsub hlnc
    rw [hpowN] at hf
    obtain ⟨f, rfl⟩ : ∃ f, fuel = f + 1 := ⟨fuel - 1, by omega⟩
    have hcast : (((2 * 2 ^ e : Nat)) : Int) = 2 * (2 : Int) ^ e := by push_cast; ring
    obtain ⟨s1, h1, h2, h3, h4, h5⟩ := inner_while_spec env heaps hlist length L m0 (e + 1)
      (2 * (2 : Int) ^ e) hpow.symm hW (2 * 2 ^ e) (f + 1) s hinv hsub hlnc (by omega)
      (by rw [hcast]; omega) (by omega)
    have hc : s.in_ < 2 * L - 1 := by omega
    have hdiv1 : s1.sub_len.tdiv 2 = L - 2 * (2 : Int) ^ e := by
      rw [Int.tdiv_eq_ediv (by omega) (by norm_num)]; omega
    have hdiv2 : s1.layer_node_count.tdiv 2 = (2 : Int) ^ e := by
      rw [Int.tdiv_eq_ediv (by omega) (by norm_num)]; omega
    obtain ⟨s2, k1, k2⟩ := ih f
      { s1 with sub_len := L + s1.sub_len.tdiv 2,
                layer_node_count := s1.layer_node_count.tdiv 2 }
      h2 (by omega) (by simp only [hdiv1]; omega) (by simp only [hdiv2])
      (by simp only [hdiv1]; omega) (by omega)
    refine ⟨s2, ?_, k2⟩
    simp only [outer_while, hc, if_true, h1]
    exact k1

/-- The node array after the init loop and the leaf loop satisfies the invariant at the
entry of the nested loops. -/
theorem leaves_inv (env : Env) (heaps : Mem Heap) (hlist : Mem (List Nat)) (length : Nat) (L : Int)
    (m0 : Mem NODE) (hL : 2 ≤ L) :
    TreeInv env heaps hlist length L m0
      ((List.range L.toNat).foldl
        (fun mt (i : Nat) => fill_leaf env hlist length L mt (i : Int))
        ((List.range (2 * L - 1).toNat).foldl
          (fun mt (i : Nat) => init_node env mt (i : Int)) m0))
      0 L := by
  have hcL : ((L.toNat : Nat) : Int) = L := Int.toNat_of_nonneg (by omega)
  have hcN : (((2 * L - 1).toNat : Nat) : Int) = 2 * L - 1 := Int.toNat_of_nonneg (by omega)
  have key : ∀ k : Int,
      ((List.range L.toNat).foldl
        (fun mt (i : Nat) => fill_leaf env hlist length L mt (i : Int))
        ((List.range (2 * L - 1).toNat).foldl
          (fun mt (i : Nat) => init_node env mt (i : Int)) m0)) k
      = if 0 ≤ k ∧ k < L then
          leaf_cell env hlist length L
            (fun k => if 0 ≤ k ∧ k < 2 * L - 1 then init_cell env k else m0 k) k
        else if 0 ≤ k ∧ k < 2 * L - 1 then init_cell env k else m0 k := by
    intro k
    rw [leaf_fold_apply, hcL]
    have hfun : ((List.range (2 * L - 1).toNat).foldl
          (fun mt (i : Nat) => init_node env mt (i : Int)) m0)
        = (fun k => if 0 ≤ k ∧ k < 2 * L - 1 then init_cell env k else m0 k) := by
      funext k'
      rw [init_fold_apply, hcN]
    rw [hfun]
  refine ⟨by omega, by omega, by omega, ?_, ?_, ?_, ?_, ?_, ?_, ?_, ?_, ?_, ?_, ?_⟩
  · intro k hk
    have h1 : ¬ (0 ≤ k ∧ k < L) := by omega
    have h2 : ¬ (0 ≤ k ∧ k < 2 * L - 1) := by omega
    rw [key, if_neg h1, if_neg h2]
  · intro k h0 h1
    have h2 : 0 ≤ k ∧ k < 2 * L - 1 := ⟨h0, h1⟩
    by_cases h3 : 0 ≤ k ∧ k < L
    · rw [key, if_pos h3]
      simp only [leaf_cell]
      rw [if_pos h2]
      rfl
    · rw [key, if_neg h3, if_pos h2]
      rfl
  · intro c h0 h1
    omega
  · intro c h0 h1
    have h2 : 0 ≤ c ∧ c < 2 * L - 1 := ⟨h0, h1⟩
    by_cases h3 : 0 ≤ c ∧ c < L
    · rw [key, if_pos h3]
      simp only [leaf_cell]
      rw [if_pos h2]
      rfl
    · rw [key, if_neg h3, if_pos h2]
      rfl
  · intro i h0 h1
    have h3 : 0 ≤ i ∧ i < L := ⟨h0, h1⟩
    rw [key, if_pos h3]
    rfl
  · intro p h0 h1
    omega
  · intro i h0 h1
    have h3 : 0 ≤ i ∧ i < L := ⟨h0, h1⟩
    rw [key, if_pos h3]
    simp only [leaf_cell]
    by_cases hi : i = 0
    · rw [if_pos hi, if_pos hi]
    · have h4 : 0 ≤ i - 1 ∧ i - 1 < 2 * L - 1 := by omega
      rw [if_neg hi, if_neg hi, if_pos h4]
      rfl
  · intro i h0 h1
    have h3 : 0 ≤ i ∧ i < L := ⟨h0, h1⟩
    have h4 : 0 ≤ i + 1 ∧ i + 1 < 2 * L - 1 := by omega
    rw [key, if_pos h3]
    simp only [leaf_cell]
    rw [if_pos h4]
    by_cases hi : i = 0
    · have h5 : ¬ (i = L - 1) := by omega
      rw [if_pos hi, if_neg h5]
      rfl
    · rw [if_neg hi]
      by_cases h5 : i = L - 1
      · rw [if_pos h5, if_pos h5]
      · rw [if_neg h5, if_neg h5]
        rfl
  · intro p h0 h1
    omega
  · intro p h0 h1
    have h2 : 0 ≤ p ∧ p < 2 * L - 1 := by omega
    have h3 : ¬ (0 ≤ p ∧ p < L) := by omega
    rw [key, if_neg h3, if_pos h2]
    exact ⟨rfl, rfl⟩
  · have h2 : 0 ≤ 2 * L - 2 ∧ 2 * L - 2 < 2 * L - 1 := by omega
    have h3 : ¬ (0 ≤ 2 * L - 2 ∧ 2 * L - 2 < L) := by omega
    rw [key, if_neg h3, if_pos h2]
    exact ⟨rfl, rfl⟩

/-- What `build_tree` produces for a leaf count `2 * 2^e`: with enough fuel it returns 0 and
the node array satisfies the invariant with every inner node filled. -/
theorem build_tree_spec (env : Env) (heaps : Mem Heap)
    (hlist : Mem (List Nat)) (length : Nat) (m0 : Mem NODE)
    (e fuel : Nat) (hf : 2 * 2 ^ e ≤ fuel) :
    ∃ t, build_tree env heaps fuel
          { leaf_count := 2 * (2 : Int) ^ e, node_count := 2 * (2 * (2 : Int) ^ e) - 1,
            merkle_tree := m0 } hlist length = some (0, t) ∧
      t.leaf_count = 2 * (2 : Int) ^ e ∧ t.node_count = 2 * (2 * (2 : Int) ^ e) - 1 ∧
      TreeInv env heaps hlist length (2 * (2 : Int) ^ e) m0 t.merkle_tree
        (2 * (2 * (2 : Int) ^ e) - 2) (2 * (2 * (2 : Int) ^ e) - 1) := by
  have hpos : (1 : Int) ≤ (2 : Int) ^ e := one_le_pow₀ (by norm_num)
  generalize hL : 2 * (2 : Int) ^ e = L
  have hinit := leaves_inv env heaps hlist length L m0 (by omega)
  have hdiv : L.tdiv 2 = (2 : Int) ^ e := by
    rw [Int.tdiv_eq_ediv (by omega) (by norm_num)]; omega
  obtain ⟨s1, h1, h2, h3⟩ := outer_while_spec env heaps hlist length L m0 e fuel
    { mt := (List.range L.toNat).foldl
        (fun mt (i : Nat) => fill_leaf env hlist length L mt (i : Int))
        ((List.range (2 * L - 1).toNat).foldl
          (fun mt (i : Nat) => init_node env mt (i : Int)) m0),
      j := 0, layer_node_count := L.tdiv 2, sub_len := L, in_ := L }
    hinit (by omega) (by simp only; omega) (by simp only [hdiv]) rfl hf
  refine ⟨{ leaf_count := L, node_count := 2 * L - 1, merkle_tree := s1.mt }, ?_, rfl, rfl, ?_⟩
  · simp only [build_tree, h1]
  · have hj := h2.rel
    have e1 : 2 * L - 2 = s1.j := by omega
    have e2 : 2 * L - 1 = s1.in_ := by omega
    rw [e1, e2]
    exact h2

/-! ## Facts about a finished tree -/

theorem two_pow_even (e : Nat) (h : 2 ≤ (2 : Int) ^ e) : ∃ m : Int, (2 : Int) ^ e = 2 * m := by
  cases e with
  | zero => simp at h
  | succ e => exact ⟨(2 : Int) ^ e, by ring⟩

theorem built_parent {env : Env} {heaps : Mem Heap}
    {hlist : Mem (List Nat)} {length : Nat} {L : Int}
    {m0 mt : Mem NODE} (hb : Built env heaps hlist length L m0 mt) (n : Int)
    (h0 : 0 ≤ n) (h1 : n < 2 * L - 2) : (mt n).parent = L + n / 2 :=
  hb.parent_done n h0 h1

theorem built_root_parent {env : Env} {heaps : Mem Heap}
    {hlist : Mem (List Nat)} {length : Nat} {L : Int}
    {m0 mt : Mem NODE} (hb : Built env heaps hlist length L m0 mt) :
    (mt (2 * L - 2)).parent = -1 :=
  hb.parent_todo (2 * L - 2) (le_refl _) (by omega)

/-- The sibling `find_path` picks for a node that is not the root is the other child of
the node's parent. -/
theorem built_sibling {env : Env} {heaps : Mem Heap}
    {hlist : Mem (List Nat)} {length : Nat} {L : Int}
    {m0 mt : Mem NODE} (hb : Built env heaps hlist length L m0 mt) (hL : ∃ m : Int, L = 2 * m)
    (n : Int) (h0 : 0 ≤ n) (h1 : n < 2 * L - 2) :
    (if n.tmod 2 = 1 then (mt n).prev else (mt n).next)
      = (if n % 2 = 1 then n - 1 else n + 1) := by
  obtain ⟨m, hm⟩ := hL
  rw [Int.tmod_eq_emod h0 (by norm_num)]
  by_cases hleaf : n < L
  · have hp := hb.leaf_prev n h0 hleaf
    have hn := hb.leaf_next n h0 hleaf
    by_cases hodd : n % 2 = 1
    · have hne : n ≠ 0 := by omega
      rw [if_pos hodd, if_pos hodd, hp, if_neg hne]
    · have hne : n ≠ L - 1 := by omega
      rw [if_neg hodd, if_neg hodd, hn, if_neg hne]
  · obtain ⟨e, h2, _, h4, h5, h6, h7⟩ := hb.inner_links n (by omega) (by omega) (by omega)
    obtain ⟨w, hw⟩ := two_pow_even e h2
    rw [hw] at h4 h5 h6 h7
    by_cases hodd : n % 2 = 1
    · have hne : n ≠ 2 * L - 2 * (2 * w) := by omega
      rw [if_pos hodd, if_pos hodd, h6, if_neg hne]
    · have hne : n ≠ 2 * L - 2 * w - 1 := by omega
      rw [if_neg hodd, if_neg hodd, h7, if_neg hne]

/-- The hash of a parent is the combination of the sibling's hash and the node's hash, in
the argument order `find_root_from_path` uses, when the combining call finds in the
never-written cell 0 what the call that filled the parent found there. -/
theorem built_combine {env : Env} {heaps : Mem Heap} {hlist : Mem (List Nat)} {length : Nat}
    {L : Int} {m0 mt : Mem NODE} (hb : Built env heaps hlist length L m0 mt)
    (n : Int) (h0 : 0 ≤ n) (h1 : n < 2 * L - 2) (heap : Heap)
    (hc : cell0 heap = cell0 (heaps (L + n / 2))) :
    get_concat_hash env heap (mt (if n % 2 = 1 then n - 1 else n + 1)).hashval (mt n).hashval
      = (mt (L + n / 2)).hashval := by
  have hp := hb.inner_hash (L + n / 2) (by omega) (by omega)
  rw [hp]
  by_cases hodd : n % 2 = 1
  · have e0 : 2 * (L + n / 2 - L) = n - 1 := by omega
    have e1 : 2 * (L + n / 2 - L) + 1 = n := by omega
    rw [if_pos hodd, e1, e0]
    exact get_concat_hash_heap env _ _ _ _ hc
  · have e0 : 2 * (L + n / 2 - L) = n := by omega
    rw [if_neg hodd, e0]
    exact get_concat_hash_comm env _ _ _ _ hc

theorem built_hash_length {env : Env} {heaps : Mem Heap}
    {hlist : Mem (List Nat)} {length : Nat} {L : Int}
    {m0 mt : Mem NODE} (hb : Built env heaps hlist length L m0 mt)
    (n : Int) (h0 : 0 ≤ n) (h1 : n < 2 * L - 1) : (mt n).hashval.length = H_BYTES := by
  by_cases hleaf : n < L
  · rw [hb.leaf_hash n h0 hleaf, shake256_length]
  · rw [hb.inner_hash n (by omega) h1, get_concat_hash_length]

/-! ## find_path and find_root_from_path on a finished tree -/

/-- The walk of `find_path` from a node `n` that lies `d` levels below the root. -/
theorem find_path_loop_spec {env : Env} {heaps : Mem Heap}
    {hlist : Mem (List Nat)} {length : Nat} {L : Int}
    {m0 mt : Mem NODE} (hb : Built env heaps hlist length L m0 mt) (hL : ∃ m : Int, L = 2 * m) :
    ∀ (d : Nat) (n : Int), 0 ≤ n → (2 : Int) ^ d ≤ 2 * L - 1 - n → 2 * L - 1 - n < 2 * (2 : Int) ^ d →
      ∀ (fuel : Nat) (path : Mem (List Nat)) (i : Int), d < fuel →
        ∃ r, find_path_loop mt fuel n (mt n).parent path i = some r ∧ r.status = 0 ∧
          r.count = i + (d : Int) ∧ (∀ k, k < i → r.path k = path k) ∧
          (∀ k, i + (d : Int) ≤ k → r.path k = path k) ∧
          (∀ t : Nat, t < d → r.path (i + (t : Int)) = (mt (sibling_of (ancestor L t n))).hashval) ∧
          (∀ t : Nat, t < d → (r.path (i + (t : Int))).length = H_BYTES) ∧
          (∀ t : Nat, t < d →
            (mt (ancestor L t n)).parent = ancestor L (t + 1) n ∧
            (mt (ancestor L t n)).parent ≠ -1) ∧
          (mt (ancestor L d n)).parent = -1 ∧
          ancestor L d n = 2 * L - 2 ∧
          (∀ (heaps' : Mem Heap) (d' : Nat), d' ≤ d →
            (∀ t : Nat, t < d' →
              cell0 (heaps' (i + (t : Int))) = cell0 (heaps (ancestor L (t + 1) n))) →
            root_fold env heaps' r.path d' i (mt n).hashval
              = (mt (ancestor L d' n)).hashval) := by
  intro d
  induction d with
  | zero =>
    intro n h0 h1 h2 fuel path i hf
    obtain ⟨f, rfl⟩ : ∃ f, fuel = f + 1 := ⟨fuel - 1, by omega⟩
    simp only [pow_zero] at h1 h2
    have hn : n = 2 * L - 2 := by omega
    subst hn
    refine ⟨{ status := 0, path := path, count := i }, ?_, rfl, by simp, fun _ _ => rfl,
      fun _ _ => rfl, fun t ht => absurd ht (Nat.not_lt_zero t),
      fun t ht => absurd ht (Nat.not_lt_zero t), fun t ht => absurd ht (Nat.not_lt_zero t),
      built_root_parent hb, rfl, ?_⟩
    · rw [built_root_parent hb]
      simp [find_path_loop]
    · intro heaps' d' hd' _
      have hd0 : d' = 0 := by omega
      subst hd0
      rfl
  | succ d ih =>
    intro n h0 h1 h2 fuel path i hf
    obtain ⟨f, rfl⟩ : ∃ f, fuel = f + 1 := ⟨fuel - 1, by omega⟩
    have hpos : (1 : Int) ≤ (2 : Int) ^ d := one_le_pow₀ (by norm_num)
    have hpow : (2 : Int) ^ (d + 1) = 2 * (2 : Int) ^ d := by ring
    rw [hpow] at h1 h2
    have hn1 : n < 2 * L - 2 := by omega
    have hpar := built_parent hb n h0 hn1
    have hsib := built_sibling hb hL n h0 hn1
    have hne : (mt n).parent ≠ -1 := by omega
    obtain ⟨r, k1, k2, k3, k4, k5, k7, k8, k9, k10, k11, k6⟩ :=
      ih (L + n / 2) (by omega) (by omega) (by omega) f
      (store path i (copy_hash (mt (if n % 2 = 1 then n - 1 else n + 1)).hashval)) (i + 1)
      (by omega)
    have hsl : (mt (if n % 2 = 1 then n - 1 else n + 1)).hashval.length = H_BYTES := by
      apply built_hash_length hb
      · split_ifs <;> omega
      · split_ifs <;> omega
    have hpi : r.path i = (mt (if n % 2 = 1 then n - 1 else n + 1)).hashval := by
      rw [k4 i (by omega), store_same, copy_hash_of_length _ hsl]
    refine ⟨r, ?_, k2, by rw [k3]; push_cast; ring, ?_, ?_, ?_, ?_, ?_, k10, k11, ?_⟩
    · rw [find_path_loop, if_pos hne]
      simp only
      rw [hsib, hpar]
      exact k1
    · intro k hk
      rw [k4 k (by omega), store_other _ _ _ _ (by omega)]
    · intro k hk
      push_cast at hk
      rw [k5 k (by omega), store_other _ _ _ _ (by omega)]
    · intro t ht
      cases t with
      | zero =>
        simp only [Nat.cast_zero, add_zero, ancestor, sibling_of]
        exact hpi
      | succ t =>
        have h3 := k7 t (by omega)
        have e3 : i + ((t + 1 : Nat) : Int) = i + 1 + (t : Int) := by push_cast; ring
        rw [e3, h3, ancestor]
    · intro t ht
      cases t with
      | zero =>
        simp only [Nat.cast_zero, add_zero]
        rw [hpi]
        exact hsl
      | succ t =>
        have h3 := k8 t (by omega)
        have e3 : i + ((t + 1 : Nat) : Int) = i + 1 + (t : Int) := by push_cast; ring
        rw [e3]
        exact h3
    · intro t ht
      cases t with
      | zero =>
        simp only [ancestor]
        exact ⟨hpar, hne⟩
      | succ t => exact k9 t (by omega)
    · intro heaps' d' hd' hcell
      cases d' with
      | zero => rfl
      | succ d' =>
        have hc0 := hcell 0 (by omega)
        simp only [Nat.cast_zero, add_zero, zero_add, ancestor] at hc0
        rw [root_fold, hpi, built_combine hb n h0 hn1 _ hc0, ancestor]
        apply k6 heaps' d' (by omega)
        intro t ht
        have h3 := hcell (t + 1) (by omega)
        have e3 : i + ((t + 1 : Nat) : Int) = i + 1 + (t : Int) := by push_cast; ring
        rw [e3] at h3
        exact h3

theorem root_fold_snoc (env : Env) (heaps : Mem Heap) (path : Mem (List Nat)) (d : Nat)
    (i : Int) (acc : List Nat) :
    root_fold env heaps path (d + 1) i acc
      = get_concat_hash env (heaps (i + (d : Int))) (path (i + (d : Int)))
          (root_fold env heaps path d i acc) := by
  induction d generalizing i acc with
  | zero => simp [root_fold]
  | succ d ih =>
    rw [root_fold, ih, root_fold]
    have e0 : i + 1 + (d : Int) = i + ((d + 1 : Nat) : Int) := by push_cast; ring
    rw [e0]

/-- The first loop of `find_root_from_path`: the slots `0 .. len-1` are assigned. -/
theorem md_init_apply (fresh : List Nat) (n : Nat) (k : Int) :
    ((List.range n).foldl
        (fun (md : Mem (Option (List Nat))) (i : Nat) => store md (i : Int) (some fresh))
        (fun _ => none)) k
      = if 0 ≤ k ∧ k < (n : Int) then some fresh else none := by
  induction n with
  | zero =>
    have h0 : ¬ (0 ≤ k ∧ k < ((0 : Nat) : Int)) := by omega
    rw [if_neg h0]
    rfl
  | succ n ih =>
    rw [List.range_succ, List.foldl_append]
    simp only [List.foldl_cons, List.foldl_nil]
    by_cases hk : k = (n : Int)
    · subst hk
      have h1 : 0 ≤ (n : Int) ∧ (n : Int) < ((n + 1 : Nat) : Int) := by omega
      rw [store_same, if_pos h1]
    · rw [store_other _ _ _ _ hk, ih]
      have h1 : (0 ≤ k ∧ k < ((n + 1 : Nat) : Int)) ↔ (0 ≤ k ∧ k < (n : Int)) := by omega
      simp only [h1]

/-- The second loop of `find_root_from_path`: started at `i = j + 1` with the accumulation
of the first `j + 1` path elements in slot `j` and the next `n` slots assigned, it runs its
`n` rounds and leaves the accumulation of the first `j + n + 1` path elements in slot
`j + n`. -/
theorem md_loop_spec (env : Env) (heaps : Mem Heap) (path : Mem (List Nat))
    (node_hash : List Nat) (n : Nat) :
    ∀ (j : Nat) (md : Mem (Option (List Nat))),
      md (j : Int) = some (root_fold env heaps path (j + 1) 0 node_hash) →
      (∀ t : Nat, j < t → t ≤ j + n → ∃ b, md (t : Int) = some b) →
      ∃ md2, md_loop env heaps path n ((j : Int) + 1) md = some md2 ∧
        md2 ((j + n : Nat) : Int) = some (root_fold env heaps path (j + n + 1) 0 node_hash) := by
  induction n with
  | zero =>
    intro j md hj _
    exact ⟨md, rfl, hj⟩
  | succ n ih =>
    intro j md hj hs
    obtain ⟨b, hb⟩ := hs (j + 1) (by omega) (by omega)
    have e1 : (j : Int) + 1 - 1 = (j : Int) := by ring
    have e2 : (j : Int) + 1 = ((j + 1 : Nat) : Int) := by push_cast; ring
    have hstep : md_loop env heaps path (n + 1) ((j : Int) + 1) md
        = md_loop env heaps path n (((j + 1 : Nat) : Int) + 1)
            (store md ((j + 1 : Nat) : Int)
              (some (get_concat_hash env (heaps ((j + 1 : Nat) : Int)) (path ((j + 1 : Nat) : Int))
                (root_fold env heaps path (j + 1) 0 node_hash)))) := by
      rw [md_loop, e1, hj, e2, hb]
    obtain ⟨md2, h1, h2⟩ := ih (j + 1)
      (store md ((j + 1 : Nat) : Int)
        (some (get_concat_hash env (heaps ((j + 1 : Nat) : Int)) (path ((j + 1 : Nat) : Int))
          (root_fold env heaps path (j + 1) 0 node_hash))))
      (by
        rw [store_same, root_fold_snoc env heaps path (j + 1) 0 node_hash]
        simp)
      (by
        intro t ht1 ht2
        obtain ⟨b', hb'⟩ := hs t (by omega) (by omega)
        exact ⟨b', by rw [store_other _ _ _ _ (by omega)]; exact hb'⟩)
    refine ⟨md2, by rw [hstep]; exact h1, ?_⟩
    have e3 : j + (n + 1) = j + 1 + n := by omega
    rw [e3]
    exact h2

/-- For a path of `len ≥ 1` elements `find_root_from_path` returns 0 and writes the
accumulation of the `len` path elements, starting from `node_hash`, to `root`. -/
theorem find_root_from_path_eq (env : Env) (heaps : Mem Heap) (path : Mem (List Nat))
    (node_hash : List Nat) (len : Nat) (hlen : 1 ≤ len) :
    find_root_from_path env heaps path node_hash (len : Int)
      = some (0, root_fold env heaps path len 0 node_hash) := by
  obtain ⟨m, rfl⟩ : ∃ m, len = m + 1 := ⟨len - 1, by omega⟩
  unfold find_root_from_path
  simp only
  have e0 : (((m + 1 : Nat) : Int)).toNat = m + 1 := by omega
  have e1 : (((m + 1 : Nat) : Int) - 1).toNat = m := by omega
  have e2 : ((m + 1 : Nat) : Int) - 1 = ((0 + m : Nat) : Int) := by omega
  rw [e0, e1]
  have h00 : ((List.range (m + 1)).foldl
        (fun (md : Mem (Option (List Nat))) (i : Nat) =>
          store md (i : Int) (some env.fresh_bytes)) (fun _ => none)) 0
      = some env.fresh_bytes := by
    rw [md_init_apply, if_pos (by omega)]
  rw [h00]
  simp only
  obtain ⟨md2, h1, h2⟩ := md_loop_spec env heaps path node_hash m 0
    (store ((List.range (m + 1)).foldl
        (fun (md : Mem (Option (List Nat))) (i : Nat) =>
          store md (i : Int) (some env.fresh_bytes)) (fun _ => none)) 0
      (some (get_concat_hash env (heaps 0) (path 0) node_hash)))
    (by rw [Nat.cast_zero, store_same]; rfl)
    (by
      intro t ht1 ht2
      refine ⟨env.fresh_bytes, ?_⟩
      rw [store_other _ _ _ _ (by omega), md_init_apply, if_pos (by omega)])
  have e4 : ((0 : Nat) : Int) + 1 = 1 := by norm_num
  rw [e4] at h1
  rw [h1]
  simp only
  rw [e2, h2]
  simp only
  rw [copy_hash_of_length]
  · rw [zero_add]
  · rw [zero_add, root_fold_snoc]
    exact get_concat_hash_length _ _ _ _

/-- With `len ≤ 0` no slot of `md_values` is assigned, and `find_root_from_path` stores
the result of its first call of `get_concat_hash` through the unassigned `md_values[0]`. -/
theorem find_root_from_path_no_slot (env : Env) (heaps : Mem Heap) (path : Mem (List Nat))
    (node_hash : List Nat) (len : Int) (hlen : len ≤ 0) :
    find_root_from_path env heaps path node_hash len = none := by
  unfold find_root_from_path
  have e0 : len.toNat = 0 := by omega
  simp only [e0]
  rfl

/-- The statement of `build_tree_spec` for a leaf count `2^k` with `k ≥ 1`. -/
theorem build_tree_pow (env : Env) (heaps : Mem Heap)
    (hlist : Mem (List Nat)) (length : Nat) (m0 : Mem NODE)
    (k fuel : Nat) (hk : 1 ≤ k) (hf : 2 ^ k ≤ fuel) :
    ∃ t, build_tree env heaps fuel
          { leaf_count := (2 : Int) ^ k, node_count := 2 * (2 : Int) ^ k - 1,
            merkle_tree := m0 } hlist length = some (0, t) ∧
      t.leaf_count = (2 : Int) ^ k ∧ t.node_count = 2 * (2 : Int) ^ k - 1 ∧
      Built env heaps hlist length ((2 : Int) ^ k) m0 t.merkle_tree := by
  obtain ⟨e, rfl⟩ : ∃ e, k = e + 1 := ⟨k - 1, by omega⟩
  have hpow : (2 : Int) ^ (e + 1) = 2 * (2 : Int) ^ e := by ring
  have hpowN : 2 ^ (e + 1) = 2 * 2 ^ e := by ring
  rw [hpow]
  rw [hpowN] at hf
  exact build_tree_spec env heaps hlist length m0 e fuel hf

/-- On the tree built for `2^k` leaves, `find_path` from a leaf walks `k` levels. -/
theorem find_path_leaf_spec {env : Env} {heaps : Mem Heap}
    {hlist : Mem (List Nat)} {length : Nat} {m0 : Mem NODE}
    {k : Nat} (hk : 1 ≤ k) {t : TREE}
    (hb : Built env heaps hlist length ((2 : Int) ^ k) m0 t.merkle_tree)
    (i : Int) (h0 : 0 ≤ i) (h1 : i < (2 : Int) ^ k) (fuel : Nat) (path : Mem (List Nat))
    (hf : k < fuel) :
    ∃ r, find_path fuel t i path = some r ∧ r.status = 0 ∧ r.count = (k : Int) ∧
      (∀ j, (k : Int) ≤ j → r.path j = path j) ∧ (∀ j, j < 0 → r.path j = path j) ∧
      (∀ s : Nat, s < k →
        r.path (s : Int)
          = (t.merkle_tree (sibling_of (ancestor ((2 : Int) ^ k) s i))).hashval) ∧
      (∀ s : Nat, s < k → (r.path (s : Int)).length = H_BYTES) ∧
      (∀ s : Nat, s < k →
        (t.merkle_tree (ancestor ((2 : Int) ^ k) s i)).parent
          = ancestor ((2 : Int) ^ k) (s + 1) i ∧
        (t.merkle_tree (ancestor ((2 : Int) ^ k) s i)).parent ≠ -1) ∧
      (t.merkle_tree (ancestor ((2 : Int) ^ k) k i)).parent = -1 ∧
      ancestor ((2 : Int) ^ k) k i = 2 * (2 : Int) ^ k - 2 ∧
      (∀ (heaps' : Mem Heap) (d : Nat), d ≤ k →
        (∀ s : Nat, s < d →
          cell0 (heaps' (s : Int)) = cell0 (heaps (ancestor ((2 : Int) ^ k) (s + 1) i))) →
        root_fold env heaps' r.path d 0 (t.merkle_tree i).hashval
          = (t.merkle_tree (ancestor ((2 : Int) ^ k) d i)).hashval) := by
  have hL : ∃ m : Int, (2 : Int) ^ k = 2 * m := by
    obtain ⟨e, rfl⟩ : ∃ e, k = e + 1 := ⟨k - 1, by omega⟩
    exact ⟨(2 : Int) ^ e, by ring⟩
  obtain ⟨r, k1, k2, k3, k4, k5, k7, k8, k9, k10, k11, k6⟩ :=
    find_path_loop_spec hb hL k i h0 (by omega) (by omega) fuel path 0 hf
  refine ⟨r, k1, k2, by rw [k3]; ring, ?_, k4, ?_, ?_, k9, k10, k11, ?_⟩
  · intro j hj
    exact k5 j (by omega)
  · intro s hs
    have := k7 s hs
    rwa [zero_add] at this
  · intro s hs
    have := k8 s hs
    rwa [zero_add] at this
  · intro heaps' d hd hcell
    apply k6 heaps' d hd
    intro s hs
    rw [zero_add]
    exact hcell s hs

/-! ## Round trip, path length, parents, the four-leaf tree and the boundary cases -/

/-- The round trip when the heap contents agree: if at every level `s` the call of
`find_root_from_path` finds in the never-written cell 0 what the call of `build_tree`
that filled the ancestor `s + 1` levels above leaf `i` found there, then
`find_root_from_path` on the path `find_path` wrote, the stored hash of leaf `i` and
`len = k` returns 0 and writes the stored hash of node `node_count - 1` to `root`. -/
theorem round_trip_same_cell0 (env : Env) (heaps heaps' : Mem Heap) (hlist : Mem (List Nat))
    (length : Nat) (m0 : Mem NODE) (path0 : Mem (List Nat)) (k : Nat) (i : Int)
    (fuel fuel' : Nat) (hk : 1 ≤ k) (h0 : 0 ≤ i) (h1 : i < (2 : Int) ^ k) (hf : 2 ^ k ≤ fuel)
    (hf' : k < fuel')
    (hcell : ∀ s : Nat, s < k →
      cell0 (heaps' (s : Int)) = cell0 (heaps (ancestor ((2 : Int) ^ k) (s + 1) i))) :
    ∃ t r,
      build_tree env heaps fuel
        { leaf_count := (2 : Int) ^ k, node_count := 2 * (2 : Int) ^ k - 1, merkle_tree := m0 }
        hlist length = some (0, t) ∧
      find_path fuel' t i path0 = some r ∧
      find_root_from_path env heaps' r.path (t.merkle_tree i).hashval (k : Int)
        = some (0, (t.merkle_tree (t.node_count - 1)).hashval) := by
  obtain ⟨t, hbuild, _, hnc, hb⟩ := build_tree_pow env heaps hlist length m0 k fuel hk hf
  obtain ⟨r, hr, _, _, _, _, _, _, _, _, hanc, hroot⟩ :=
    find_path_leaf_spec hk hb i h0 h1 fuel' path0 hf'
  refine ⟨t, r, hbuild, hr, ?_⟩
  rw [find_root_from_path_eq env heaps' r.path _ k hk, hroot heaps' k (le_refl k) hcell, hanc,
    hnc]
  have e0 : 2 * (2 : Int) ^ k - 1 - 1 = 2 * (2 : Int) ^ k - 2 := by ring
  rw [e0]

/-- On a tree built under the sum engine on a never-used heap: the reconstruction from
leaf `i` returns the stored root when all its calls find never-used blocks, and another
value when the blocks of its last call were used before (`binary1[0]` holds 1). -/
theorem reconstruct_last_call_used {hlist : Mem (List Nat)} {length : Nat} {m0 : Mem NODE}
    {k : Nat} (hk : 1 ≤ k) {t : TREE}
    (hb : Built sample_env sample_heaps hlist length ((2 : Int) ^ k) m0 t.merkle_tree)
    (i : Int) (h0 : 0 ≤ i) (h1 : i < (2 : Int) ^ k) (fuel : Nat) (path0 : Mem (List Nat))
    (hf : k < fuel) :
    ∃ r root,
      find_path fuel t i path0 = some r ∧
      find_root_from_path sample_env sample_heaps r.path (t.merkle_tree i).hashval (k : Int)
        = some (0, (t.merkle_tree (2 * (2 : Int) ^ k - 2)).hashval) ∧
      find_root_from_path sample_env (store sample_heaps ((k : Int) - 1) used_heap) r.path
          (t.merkle_tree i).hashval (k : Int)
        = some (0, root) ∧
      root ≠ (t.merkle_tree (2 * (2 : Int) ^ k - 2)).hashval := by
  obtain ⟨r, hr, _, _, _, _, _, _, _, _, hanc, hroot⟩ :=
    find_path_leaf_spec hk hb i h0 h1 fuel path0 hf
  obtain ⟨m, rfl⟩ : ∃ m, k = m + 1 := ⟨k - 1, by omega⟩
  have hlow : root_fold sample_env (store sample_heaps (((m + 1 : Nat) : Int) - 1) used_heap)
        r.path m 0 (t.merkle_tree i).hashval
      = root_fold sample_env sample_heaps r.path m 0 (t.merkle_tree i).hashval := by
    rw [hroot _ m (by omega), hroot sample_heaps m (by omega) (fun _ _ => rfl)]
    intro s hs
    rw [store_other _ _ _ _ (by omega)]
    rfl
  have hlast : store sample_heaps (((m + 1 : Nat) : Int) - 1) used_heap ((0 : Int) + (m : Int))
      = used_heap := by
    have e1 : (0 : Int) + (m : Int) = ((m + 1 : Nat) : Int) - 1 := by push_cast; ring
    rw [e1, store_same]
  refine ⟨r, _, hr, ?_, find_root_from_path_eq sample_env _ r.path _ (m + 1) hk, ?_⟩
  · rw [find_root_from_path_eq sample_env sample_heaps r.path _ (m + 1) hk,
      hroot sample_heaps (m + 1) (le_refl _) (fun _ _ => rfl), hanc]
  · rw [← hanc, ← hroot sample_heaps (m + 1) (le_refl _) (fun _ _ => rfl), root_fold_snoc,
      root_fold_snoc, hlow, hlast]
    exact (sample_env_cell0_ne sample_heap used_heap _ _ _ _ rfl rfl rfl).symm

/-- C1 (round trip).  For a leaf count `2^k` with `k ≥ 1`, any raw inputs and any leaf
`i` in `0 .. 2^k - 1`, under the sum engine: `build_tree` on a heap that was never used
returns 0 and `find_path` from leaf `i` returns a path.  When every call of
`find_root_from_path` also finds never-used blocks, the stored hash of node
`node_count - 1` is written to `root`.  When the blocks of its last call were used before
(`binary1[0]` holds 1), `find_root_from_path` on the same path, the same leaf hash and
`len = k` returns 0 and writes a value that differs from the stored hash of node
`node_count - 1`: the cell `binary3[0]`, which `convert_binary` never writes, is among the
bytes handed to `shake256`. -/
theorem round_trip_heap_dependent (hlist : Mem (List Nat)) (length : Nat) (m0 : Mem NODE)
    (path0 : Mem (List Nat)) (k : Nat) (i : Int) (fuel fuel' : Nat)
    (hk : 1 ≤ k) (h0 : 0 ≤ i) (h1 : i < (2 : Int) ^ k) (hf : 2 ^ k ≤ fuel) (hf' : k < fuel') :
    ∃ t r root,
      build_tree sample_env sample_heaps fuel
        { leaf_count := (2 : Int) ^ k, node_count := 2 * (2 : Int) ^ k - 1, merkle_tree := m0 }
        hlist length = some (0, t) ∧
      find_path fuel' t i path0 = some r ∧
      find_root_from_path sample_env sample_heaps r.path (t.merkle_tree i).hashval (k : Int)
        = some (0, (t.merkle_tree (t.node_count - 1)).hashval) ∧
      find_root_from_path sample_env (store sample_heaps ((k : Int) - 1) used_heap) r.path
          (t.merkle_tree i).hashval (k : Int)
        = some (0, root) ∧
      root ≠ (t.merkle_tree (t.node_count - 1)).hashval := by
  obtain ⟨t, hbuild, _, hnc, hb⟩ :=
    build_tree_pow sample_env sample_heaps hlist length m0 k fuel hk hf
  obtain ⟨r, root, hr, hsame, hused, hne⟩ :=
    reconstruct_last_call_used hk hb i h0 h1 fuel' path0 hf'
  have e0 : t.node_count - 1 = 2 * (2 : Int) ^ k - 2 := by rw [hnc]; ring
  refine ⟨t, r, root, hbuild, hr, ?_, hused, ?_⟩
  · rw [e0]; exact hsame
  · rw [e0]; exact hne

/-- Witness of C1: four leaves, leaf 1. -/
theorem round_trip_heap_dependent_witness :
    (1 ≤ 2 ∧ (0 : Int) ≤ 1 ∧ (1 : Int) < (2 : Int) ^ 2 ∧ 2 ^ 2 ≤ 4 ∧ 2 < 3) ∧
    ∃ t r root,
      build_tree sample_env sample_heaps 4
        { leaf_count := (2 : Int) ^ 2, node_count := 2 * (2 : Int) ^ 2 - 1,
          merkle_tree := sample_mem }
        sample_hlist 1 = some (0, t) ∧
      find_path 3 t 1 sample_path = some r ∧
      find_root_from_path sample_env sample_heaps r.path (t.merkle_tree 1).hashval
          ((2 : Nat) : Int)
        = some (0, (t.merkle_tree (t.node_count - 1)).hashval) ∧
      find_root_from_path sample_env (store sample_heaps (((2 : Nat) : Int) - 1) used_heap) r.path
          (t.merkle_tree 1).hashval ((2 : Nat) : Int)
        = some (0, root) ∧
      root ≠ (t.merkle_tree (t.node_count - 1)).hashval :=
  ⟨by decide, round_trip_heap_dependent sample_hlist 1 sample_mem sample_path 2 1 4 3
    (by decide) (by decide) (by decide) (by decide) (by decide)⟩

/-- C4 (path length).  For a leaf count `2^k` with `k ≥ 1`, any raw inputs and any leaf
`i`: `find_path` on the tree `build_tree` produced terminates with return value 0 after
exactly `k` rounds of its loop; it writes the `k` slots `0 .. k-1` of `path` (each the
hash of the sibling of the node reached after that many parent links) and leaves every
other slot as it was.  The nodes reached after `0 .. k-1` parent links have a parent other
than `-1`, and the node reached after `k` parent links has parent `-1`. -/
theorem path_length (env : Env) (heaps : Mem Heap)
    (hlist : Mem (List Nat)) (length : Nat) (m0 : Mem NODE)
    (path0 : Mem (List Nat)) (k : Nat) (i : Int) (fuel fuel' : Nat)
    (hk : 1 ≤ k) (h0 : 0 ≤ i) (h1 : i < (2 : Int) ^ k) (hf : 2 ^ k ≤ fuel) (hf' : k < fuel') :
    ∃ t r,
      build_tree env heaps fuel
        { leaf_count := (2 : Int) ^ k, node_count := 2 * (2 : Int) ^ k - 1, merkle_tree := m0 }
        hlist length = some (0, t) ∧
      find_path fuel' t i path0 = some r ∧ r.status = 0 ∧ r.count = (k : Int) ∧
      (∀ s : Nat, s < k →
        r.path (s : Int) = (t.merkle_tree (sibling_of (ancestor t.leaf_count s i))).hashval) ∧
      (∀ j : Int, (j < 0 ∨ (k : Int) ≤ j) → r.path j = path0 j) ∧
      (∀ s : Nat, s < k →
        (t.merkle_tree (ancestor t.leaf_count s i)).parent = ancestor t.leaf_count (s + 1) i ∧
        (t.merkle_tree (ancestor t.leaf_count s i)).parent ≠ -1) ∧
      (t.merkle_tree (ancestor t.leaf_count k i)).parent = -1 := by
  obtain ⟨t, hbuild, hlc, _, hb⟩ := build_tree_pow env heaps hlist length m0 k fuel hk hf
  obtain ⟨r, hr, hs, hc, hhi, hlo, hcont, _, hchain, hend, _⟩ :=
    find_path_leaf_spec hk hb i h0 h1 fuel' path0 hf'
  refine ⟨t, r, hbuild, hr, hs, hc, ?_, ?_, ?_, ?_⟩
  · rw [hlc]; exact hcont
  · intro j hj
    rcases hj with hj | hj
    · exact hlo j hj
    · exact hhi j hj
  · rw [hlc]; exact hchain
  · rw [hlc]; exact hend

/-- Witness of C4: eight leaves, leaf 5. -/
theorem path_length_witness :
    (1 ≤ 3 ∧ (0 : Int) ≤ 5 ∧ (5 : Int) < (2 : Int) ^ 3 ∧ 2 ^ 3 ≤ 8 ∧ 3 < 4) ∧
    ∃ t r,
      build_tree sample_env sample_heaps 8
        { leaf_count := (2 : Int) ^ 3, node_count := 2 * (2 : Int) ^ 3 - 1,
          merkle_tree := sample_mem }
        sample_hlist 1 = some (0, t) ∧
      find_path 4 t 5 sample_path = some r ∧ r.status = 0 ∧ r.count = ((3 : Nat) : Int) ∧
      (∀ s : Nat, s < 3 →
        r.path (s : Int) = (t.merkle_tree (sibling_of (ancestor t.leaf_count s 5))).hashval) ∧
      (∀ j : Int, (j < 0 ∨ ((3 : Nat) : Int) ≤ j) → r.path j = sample_path j) ∧
      (∀ s : Nat, s < 3 →
        (t.merkle_tree (ancestor t.leaf_count s 5)).parent = ancestor t.leaf_count (s + 1) 5 ∧
        (t.merkle_tree (ancestor t.leaf_count s 5)).parent ≠ -1) ∧
      (t.merkle_tree (ancestor t.leaf_count 3 5)).parent = -1 :=
  ⟨by decide, path_length sample_env sample_heaps sample_hlist 1 sample_mem sample_path 3 5 8 4
    (by decide) (by decide) (by decide) (by decide) (by decide)⟩

/-- C10 (parent invariant).  For a leaf count `2^k` with `k ≥ 1`, after `build_tree` node
`node_count - 1` has parent `-1`, and every other node `c` in `0 .. node_count - 2` has
parent `leaf_count + c / 2`, which is not `-1`, lies in `leaf_count .. node_count - 1` and
is greater than `c`. -/
theorem parent_invariant (env : Env) (heaps : Mem Heap)
    (hlist : Mem (List Nat)) (length : Nat) (m0 : Mem NODE)
    (k fuel : Nat) (hk : 1 ≤ k) (hf : 2 ^ k ≤ fuel) :
    ∃ t,
      build_tree env heaps fuel
        { leaf_count := (2 : Int) ^ k, node_count := 2 * (2 : Int) ^ k - 1, merkle_tree := m0 }
        hlist length = some (0, t) ∧
      (t.merkle_tree (t.node_count - 1)).parent = -1 ∧
      ∀ c : Int, 0 ≤ c → c ≤ t.node_count - 2 →
        (t.merkle_tree c).parent = t.leaf_count + c / 2 ∧
        (t.merkle_tree c).parent ≠ -1 ∧
        t.leaf_count ≤ (t.merkle_tree c).parent ∧
        (t.merkle_tree c).parent ≤ t.node_count - 1 ∧
        c < (t.merkle_tree c).parent := by
  obtain ⟨t, hbuild, hlc, hnc, hb⟩ := build_tree_pow env heaps hlist length m0 k fuel hk hf
  have hpos : (1 : Int) ≤ (2 : Int) ^ k := one_le_pow₀ (by norm_num)
  refine ⟨t, hbuild, ?_, ?_⟩
  · rw [hnc]
    have e0 : 2 * (2 : Int) ^ k - 1 - 1 = 2 * (2 : Int) ^ k - 2 := by ring
    rw [e0]
    exact built_root_parent hb
  · intro c h0 h1
    rw [hnc] at h1
    have hp := built_parent hb c h0 (by omega)
    rw [hlc, hnc, hp]
    refine ⟨rfl, by omega, by omega, by omega, by omega⟩

/-- Witness of C10: four leaves. -/
theorem parent_invariant_witness :
    (1 ≤ 2 ∧ 2 ^ 2 ≤ 4) ∧
    ∃ t,
      build_tree sample_env sample_heaps 4
        { leaf_count := (2 : Int) ^ 2, node_count := 2 * (2 : Int) ^ 2 - 1,
          merkle_tree := sample_mem }
        sample_hlist 1 = some (0, t) ∧
      (t.merkle_tree (t.node_count - 1)).parent = -1 ∧
      ∀ c : Int, 0 ≤ c → c ≤ t.node_count - 2 →
        (t.merkle_tree c).parent = t.leaf_count + c / 2 ∧
        (t.merkle_tree c).parent ≠ -1 ∧
        t.leaf_count ≤ (t.merkle_tree c).parent ∧
        (t.merkle_tree c).parent ≤ t.node_count - 1 ∧
        c < (t.merkle_tree c).parent :=
  ⟨by decide, parent_invariant sample_env sample_heaps
      sample_hlist 1 sample_mem 2 4 (by decide) (by decide)⟩

/-- C7 (four leaves).  For `leaf_count = 4`, `node_count = 7` and any four raw inputs,
`build_tree` returns 0 and `find_path(tree, 0)` writes a path of two elements: the hash of
node 1, which is the hash of input 1, and the hash of node 5, which is the combination of
the hashes of inputs 2 and 3.  `find_root_from_path` on that path with the hash of input 0
and `len = 2` writes the hash stored at node 6 when its two calls find in the never-written
cell 0 what the calls that filled nodes 4 and 6 found there.  It does not in general:
under the sum engine, with the tree built on a never-used heap and the blocks of the
second call used before (`binary1[0]` holds 1), it returns 0 and writes a value that
differs from the hash stored at node 6. -/
theorem four_leaf_heap_dependent (env : Env) (heaps : Mem Heap) (hlist : Mem (List Nat))
    (length : Nat) (m0 : Mem NODE) (path0 : Mem (List Nat)) (fuel fuel' : Nat)
    (hf : 4 ≤ fuel) (hf' : 2 < fuel') :
    (∃ t r,
      build_tree env heaps fuel { leaf_count := 4, node_count := 7, merkle_tree := m0 }
        hlist length = some (0, t) ∧
      find_path fuel' t 0 path0 = some r ∧ r.status = 0 ∧ r.count = 2 ∧
      r.path 0 = (t.merkle_tree 1).hashval ∧
      (t.merkle_tree 1).hashval = shake256 env H_BYTES (hlist 1) length ∧
      r.path 1 = (t.merkle_tree 5).hashval ∧
      (t.merkle_tree 5).hashval
        = get_concat_hash env (heaps 5) (shake256 env H_BYTES (hlist 2) length)
            (shake256 env H_BYTES (hlist 3) length) ∧
      ∀ heaps' : Mem Heap, cell0 (heaps' 0) = cell0 (heaps 4) →
        cell0 (heaps' 1) = cell0 (heaps 6) →
        find_root_from_path env heaps' r.path (shake256 env H_BYTES (hlist 0) length) 2
          = some (0, (t.merkle_tree 6).hashval)) ∧
    (∃ t r root,
      build_tree sample_env sample_heaps fuel
        { leaf_count := 4, node_count := 7, merkle_tree := m0 } hlist length = some (0, t) ∧
      find_path fuel' t 0 path0 = some r ∧
      find_root_from_path sample_env (store sample_heaps 1 used_heap) r.path
          (shake256 sample_env H_BYTES (hlist 0) length) 2
        = some (0, root) ∧
      root ≠ (t.merkle_tree 6).hashval) := by
  have e4 : (2 : Int) ^ 2 = 4 := by norm_num
  have e7 : 2 * (4 : Int) - 1 = 7 := by norm_num
  have e6 : 2 * (4 : Int) - 2 = 6 := by norm_num
  constructor
  · obtain ⟨t, hbuild, _, _, hb⟩ :=
      build_tree_pow env heaps hlist length m0 2 fuel (by decide) hf
    obtain ⟨r, hr, hs, hc, _, _, hcont, _, _, _, hanc, hroot⟩ :=
      find_path_leaf_spec (by decide) hb 0 (le_refl 0) (by norm_num) fuel' path0 hf'
    rw [e4] at hb hcont hroot hanc
    rw [e4, e7] at hbuild
    have h0 := hb.leaf_hash 0 (by norm_num) (by norm_num)
    have h1 := hb.leaf_hash 1 (by norm_num) (by norm_num)
    have h2 := hb.leaf_hash 2 (by norm_num) (by norm_num)
    have h3 := hb.leaf_hash 3 (by norm_num) (by norm_num)
    have h5 := hb.inner_hash 5 (by norm_num) (by norm_num)
    norm_num at h5
    rw [h2, h3] at h5
    have p0 := hcont 0 (by decide)
    have p1 := hcont 1 (by decide)
    have s0 : sibling_of (ancestor 4 0 0) = 1 := by decide
    have s1 : sibling_of (ancestor 4 1 0) = 5 := by decide
    rw [s0] at p0
    rw [s1] at p1
    rw [e6] at hanc
    refine ⟨t, r, hbuild, hr, hs, by simpa using hc, by simpa using p0, h1, by simpa using p1,
      h5, ?_⟩
    intro heaps' hc0 hc1
    have hfr := find_root_from_path_eq env heaps' r.path
      (shake256 env H_BYTES (hlist 0) length) 2 (by decide)
    have hcell : ∀ s : Nat, s < 2 →
        cell0 (heaps' (s : Int)) = cell0 (heaps (ancestor 4 (s + 1) 0)) := by
      intro s hs2
      have hs01 : s = 0 ∨ s = 1 := by omega
      rcases hs01 with rfl | rfl
      · exact hc0
      · exact hc1
    rw [← h0, hroot heaps' 2 (le_refl 2) hcell, hanc] at hfr
    rw [← h0]
    simpa using hfr
  · obtain ⟨t, hbuild, _, _, hb⟩ :=
      build_tree_pow sample_env sample_heaps hlist length m0 2 fuel (by decide) hf
    obtain ⟨r, root, hr, _, hused, hne⟩ :=
      reconstruct_last_call_used (by decide) hb 0 (le_refl 0) (by norm_num) fuel' path0 hf'
    rw [e4] at hb hne
    rw [e4, e7] at hbuild
    have h0 := hb.leaf_hash 0 (by norm_num) (by norm_num)
    rw [e6] at hne
    rw [h0] at hused
    refine ⟨t, r, root, hbuild, hr, ?_, hne⟩
    have e1 : ((2 : Nat) : Int) - 1 = 1 := by norm_num
    rw [e1] at hused
    simpa using hused

/-- Witness of C7. -/
theorem four_leaf_heap_dependent_witness :
    (4 ≤ 4 ∧ 2 < 3) ∧
    ((∃ t r,
      build_tree sample_env sample_heaps 4
        { leaf_count := 4, node_count := 7, merkle_tree := sample_mem } sample_hlist 1
        = some (0, t) ∧
      find_path 3 t 0 sample_path = some r ∧ r.status = 0 ∧ r.count = 2 ∧
      r.path 0 = (t.merkle_tree 1).hashval ∧
      (t.merkle_tree 1).hashval = shake256 sample_env H_BYTES (sample_hlist 1) 1 ∧
      r.path 1 = (t.merkle_tree 5).hashval ∧
      (t.merkle_tree 5).hashval
        = get_concat_hash sample_env (sample_heaps 5)
            (shake256 sample_env H_BYTES (sample_hlist 2) 1)
            (shake256 sample_env H_BYTES (sample_hlist 3) 1) ∧
      ∀ heaps' : Mem Heap, cell0 (heaps' 0) = cell0 (sample_heaps 4) →
        cell0 (heaps' 1) = cell0 (sample_heaps 6) →
        find_root_from_path sample_env heaps' r.path
            (shake256 sample_env H_BYTES (sample_hlist 0) 1) 2
          = some (0, (t.merkle_tree 6).hashval)) ∧
    (∃ t r root,
      build_tree sample_env sample_heaps 4
        { leaf_count := 4, node_count := 7, merkle_tree := sample_mem } sample_hlist 1
        = some (0, t) ∧
      find_path 3 t 0 sample_path = some r ∧
      find_root_from_path sample_env (store sample_heaps 1 used_heap) r.path
          (shake256 sample_env H_BYTES (sample_hlist 0) 1) 2
        = some (0, root) ∧
      root ≠ (t.merkle_tree 6).hashval)) :=
  ⟨by decide, four_leaf_heap_dependent sample_env sample_heaps sample_hlist 1 sample_mem
    sample_path 4 3 (by decide) (by decide)⟩

/-- C9 (empty path), at the input `len = 0` with the 16-byte leaf hash `1, 2, ..., 16`:
`find_root_from_path` does not return the leaf hash as the root.  No slot of `md_values`
is assigned, the call `get_concat_hash(path[0], node_hash, md_values[0])` is made all the
same and stores through the unassigned `md_values[0]`, and no statement copies `node_hash`
to `root`. -/
theorem empty_path_root_lost :
    find_root_from_path sample_env sample_heaps sample_path
        [1, 2, 3, 4, 5, 6, 7, 8, 9, 10, 11, 12, 13, 14, 15, 16] 0
      = none ∧
    find_root_from_path sample_env sample_heaps sample_path
        [1, 2, 3, 4, 5, 6, 7, 8, 9, 10, 11, 12, 13, 14, 15, 16] 0
      ≠ some (0, [1, 2, 3, 4, 5, 6, 7, 8, 9, 10, 11, 12, 13, 14, 15, 16]) := by
  rw [find_root_from_path_no_slot _ _ _ _ _ (le_refl 0)]
  exact ⟨rfl, by simp⟩

/-- The tree `build_tree` leaves for `leaf_count = 1`, `node_count = 1`: the `next` link
of node 0 is the `node_id` found in cell 1, behind the one-node array. -/
theorem build_tree_single_leaf (env : Env) (heaps : Mem Heap)
    (hlist : Mem (List Nat)) (length : Nat)
    (m0 : Mem NODE) (fuel : Nat) :
    ∃ t, build_tree env heaps (fuel + 1) { leaf_count := 1, node_count := 1, merkle_tree := m0 }
        hlist length = some (0, t) ∧
      t.merkle_tree 0 =
        { node_id := 0, hashval := shake256 env H_BYTES (hlist 0) length, prev := -1,
          next := (m0 1).node_id, parent := -1 } ∧
      ∀ k, k ≠ 0 → t.merkle_tree k = m0 k := by
  refine ⟨_, rfl, rfl, ?_⟩
  intro k hk
  show ((List.range (1 : Int).toNat).foldl
      (fun mt (i : Nat) => fill_leaf env hlist length 1 mt (i : Int))
      ((List.range (1 : Int).toNat).foldl
        (fun mt (i : Nat) => init_node env mt (i : Int)) m0)) k = m0 k
  have h1 : ¬ (0 ≤ k ∧ k < (((1 : Int).toNat : Nat) : Int)) := by
    have : (((1 : Int).toNat : Nat) : Int) = 1 := rfl
    omega
  rw [leaf_fold_apply, if_neg h1, init_fold_apply, if_neg h1]

/-- C8 (single leaf), at the input `leaf_count = 1`, `node_count = 1` with a node array
whose cell 1 holds `node_id = 7`: `build_tree` returns 0, but the `next` link of node 0 is
7, the `node_id` read from cell 1 outside the array, not `-1`; `find_path` on the result
writes no path element. -/
theorem single_leaf_reads_cell_one :
    ∃ t, build_tree sample_env sample_heaps 1
        { leaf_count := 1, node_count := 1, merkle_tree := sample_mem }
        sample_hlist 1 = some (0, t) ∧
      (t.merkle_tree 0).prev = -1 ∧ (t.merkle_tree 0).parent = -1 ∧
      (t.merkle_tree 0).next = 7 ∧ (t.merkle_tree 0).next ≠ -1 ∧
      (find_path 1 t 0 sample_path).map (fun r => (r.status, r.count)) = some (0, 0) := by
  obtain ⟨t, h1, h2, _⟩ := build_tree_single_leaf sample_env sample_heaps
      sample_hlist 1 sample_mem 0
  refine ⟨t, h1, ?_, ?_, ?_, ?_, ?_⟩
  · rw [h2]
  · rw [h2]
  · rw [h2]; rfl
  · rw [h2]; decide
  · simp only [find_path, h2, find_path_loop]
    decide

/-- The tree `build_tree` leaves for `leaf_count = 3`, `node_count = 5`. -/
theorem build_tree_three_leaves (env : Env) (heaps : Mem Heap)
    (hlist : Mem (List Nat)) (length : Nat)
    (m0 : Mem NODE) (fuel : Nat) :
    ∃ t, build_tree env heaps (fuel + 3) { leaf_count := 3, node_count := 5, merkle_tree := m0 }
        hlist length = some (0, t) ∧
      (∀ i : Int, 0 ≤ i → i < 3 →
        (t.merkle_tree i).hashval = shake256 env H_BYTES (hlist i) length) ∧
      (t.merkle_tree 3).hashval
        = get_concat_hash env (heaps 3) (t.merkle_tree 0).hashval (t.merkle_tree 1).hashval ∧
      (t.merkle_tree 4).hashval
        = get_concat_hash env (heaps 4) (t.merkle_tree 2).hashval (t.merkle_tree 3).hashval ∧
      (t.merkle_tree 0).parent = 3 ∧ (t.merkle_tree 1).parent = 3 ∧
      (t.merkle_tree 2).parent = 4 ∧ (t.merkle_tree 3).parent = 4 ∧
      (t.merkle_tree 4).parent = -1 := by
  refine ⟨_, rfl, ?_, rfl, rfl, rfl, rfl, rfl, rfl, rfl⟩
  intro i h0 h1
  have hi : i = 0 ∨ i = 1 ∨ i = 2 := by omega
  rcases hi with rfl | rfl | rfl <;> rfl

theorem three_not_two_pow (k : Nat) : (2 : Int) ^ k ≠ 3 := by
  rcases k with _ | _ | k
  · norm_num
  · norm_num
  · have hpos : (1 : Int) ≤ (2 : Int) ^ k := one_le_pow₀ (by norm_num)
    have hpow : (2 : Int) ^ (k + 1 + 1) = 4 * (2 : Int) ^ k := by ring
    rw [hpow]
    omega

/-- The function `build_tree` has no failure return: it returns 0 whenever its loops end. -/
theorem build_tree_status (env : Env) (heaps : Mem Heap)
    (fuel : Nat) (mtree : TREE) (hlist : Mem (List Nat))
    (length : Nat) :
    build_tree env heaps fuel mtree hlist length = none ∨
      ∃ t, build_tree env heaps fuel mtree hlist length = some (0, t) ∧
        t.leaf_count = mtree.leaf_count ∧ t.node_count = mtree.node_count := by
  unfold build_tree
  simp only
  split
  · exact Or.inl rfl
  · exact Or.inr ⟨_, rfl, rfl, rfl⟩

/-- C3, counterexample: 3 is not a power of two, and for `leaf_count = 3`,
`node_count = 5` the function `build_tree` returns 0 with the nodes filled: nodes 0 and 1
have parent 3, nodes 2 and 3 have parent 4, node 4 has parent `-1`. -/
theorem bad_leaf_count_accepted :
    (∀ k : Nat, (2 : Int) ^ k ≠ 3) ∧
    ∃ t, build_tree sample_env sample_heaps 3
        { leaf_count := 3, node_count := 5, merkle_tree := sample_mem }
        sample_hlist 1 = some (0, t) ∧
      (t.merkle_tree 0).parent = 3 ∧ (t.merkle_tree 1).parent = 3 ∧
      (t.merkle_tree 2).parent = 4 ∧ (t.merkle_tree 3).parent = 4 ∧
      (t.merkle_tree 4).parent = -1 ∧
      (t.merkle_tree 0).hashval = shake256 sample_env H_BYTES (sample_hlist 0) 1 := by
  refine ⟨three_not_two_pow, ?_⟩
  obtain ⟨t, h1, h2, _, _, h5, h6, h7, h8, h9⟩ :=
    build_tree_three_leaves sample_env sample_heaps sample_hlist 1 sample_mem 0
  exact ⟨t, h1, h5, h6, h7, h8, h9, h2 0 (le_refl 0) (by norm_num)⟩

/-- C3, as the code behaves: `build_tree` does not examine `leaf_count` and has no failure
return.  For every tree header it returns 0 whenever its loops end, and for
`leaf_count = 3`, `node_count = 5` it returns 0 with all five nodes filled: the leaves hold
the hashes of the inputs, node 3 combines nodes 0 and 1 and is their parent, node 4
combines nodes 2 and 3 and is their parent, and node 4 has parent `-1`. -/
theorem build_tree_accepts_three (env : Env) (heaps : Mem Heap)
    (hlist : Mem (List Nat)) (length : Nat)
    (m0 : Mem NODE) (fuel : Nat) (hf : 3 ≤ fuel) :
    (∀ (g : Nat) (mtree : TREE),
      build_tree env heaps g mtree hlist length = none ∨
        ∃ t, build_tree env heaps g mtree hlist length = some (0, t)) ∧
    ∃ t, build_tree env heaps fuel { leaf_count := 3, node_count := 5, merkle_tree := m0 }
        hlist length = some (0, t) ∧
      (∀ i : Int, 0 ≤ i → i < 3 →
        (t.merkle_tree i).hashval = shake256 env H_BYTES (hlist i) length) ∧
      (t.merkle_tree 3).hashval
        = get_concat_hash env (heaps 3) (t.merkle_tree 0).hashval (t.merkle_tree 1).hashval ∧
      (t.merkle_tree 4).hashval
        = get_concat_hash env (heaps 4) (t.merkle_tree 2).hashval (t.merkle_tree 3).hashval ∧
      (t.merkle_tree 0).parent = 3 ∧ (t.merkle_tree 1).parent = 3 ∧
      (t.merkle_tree 2).parent = 4 ∧ (t.merkle_tree 3).parent = 4 ∧
      (t.merkle_tree 4).parent = -1 := by
  constructor
  · intro g mtree
    rcases build_tree_status env heaps g mtree hlist length with h | ⟨t, h, _⟩
    · exact Or.inl h
    · exact Or.inr ⟨t, h⟩
  · obtain ⟨f, rfl⟩ : ∃ f, fuel = f + 3 := ⟨fuel - 3, by omega⟩
    exact build_tree_three_leaves env heaps hlist length m0 f

/-- Witness of the corrected C3. -/
theorem build_tree_accepts_three_witness :
    3 ≤ 3 ∧
    ((∀ (g : Nat) (mtree : TREE),
      build_tree sample_env sample_heaps g mtree sample_hlist 1 = none ∨
        ∃ t, build_tree sample_env sample_heaps g mtree sample_hlist 1 = some (0, t)) ∧
    ∃ t, build_tree sample_env sample_heaps 3
        { leaf_count := 3, node_count := 5, merkle_tree := sample_mem }
        sample_hlist 1 = some (0, t) ∧
      (∀ i : Int, 0 ≤ i → i < 3 →
        (t.merkle_tree i).hashval = shake256 sample_env H_BYTES (sample_hlist i) 1) ∧
      (t.merkle_tree 3).hashval
        = get_concat_hash sample_env (sample_heaps 3) (t.merkle_tree 0).hashval
            (t.merkle_tree 1).hashval ∧
      (t.merkle_tree 4).hashval
        = get_concat_hash sample_env (sample_heaps 4) (t.merkle_tree 2).hashval
            (t.merkle_tree 3).hashval ∧
      (t.merkle_tree 0).parent = 3 ∧ (t.merkle_tree 1).parent = 3 ∧
      (t.merkle_tree 2).parent = 4 ∧ (t.merkle_tree 3).parent = 4 ∧
      (t.merkle_tree 4).parent = -1) :=
  ⟨by decide, build_tree_accepts_three sample_env sample_heaps
      sample_hlist 1 sample_mem 3 (by decide)⟩

/-! ## compare_hash and find_nodeid on a finished tree -/

theorem compare_hash_from_spec (hash1 hash2 : List Nat) (n i : Nat) :
    compare_hash_from hash1 hash2 n i
      = if ∀ t, t < n → hash1.getD (i + t) 0 = hash2.getD (i + t) 0 then 1 else 0 := by
  induction n generalizing i with
  | zero => simp [compare_hash_from]
  | succ n ih =>
    rw [compare_hash_from]
    by_cases h : hash1.getD i 0 = hash2.getD i 0
    · have h' : ¬ (hash1.getD i 0 ≠ hash2.getD i 0) := by simpa using h
      rw [if_neg h', ih]
      have hiff : (∀ t, t < n → hash1.getD (i + 1 + t) 0 = hash2.getD (i + 1 + t) 0)
          ↔ (∀ t, t < n + 1 → hash1.getD (i + t) 0 = hash2.getD (i + t) 0) := by
        constructor
        · intro hall t ht
          cases t with
          | zero => simpa using h
          | succ t =>
            have := hall t (by omega)
            have e : i + (t + 1) = i + 1 + t := by omega
            rwa [e]
        · intro hall t ht
          have := hall (t + 1) (by omega)
          have e : i + (t + 1) = i + 1 + t := by omega
          rwa [e] at this
      simp only [hiff]
    · rw [if_pos h]
      have hne : ¬ (∀ t, t < n + 1 → hash1.getD (i + t) 0 = hash2.getD (i + t) 0) := by
        intro hall
        exact h (by simpa using hall 0 (by omega))
      rw [if_neg hne]

/-- On two `H_BYTES`-byte buffers `compare_hash` returns 1 when they are equal and 0
otherwise. -/
theorem compare_hash_eq (hash1 hash2 : List Nat) (h1 : hash1.length = H_BYTES)
    (h2 : hash2.length = H_BYTES) :
    compare_hash hash1 hash2 = if hash1 = hash2 then 1 else 0 := by
  unfold compare_hash
  rw [compare_hash_from_spec]
  have hiff : (∀ t, t < H_BYTES → hash1.getD (0 + t) 0 = hash2.getD (0 + t) 0)
      ↔ hash1 = hash2 := by
    constructor
    · intro hall
      apply List.ext_getElem (by rw [h1, h2])
      intro n hn1 hn2
      have := hall n (by rw [← h1]; exact hn1)
      simpa [List.getD_eq_getElem?_getD, List.getElem?_eq_getElem hn1,
        List.getElem?_eq_getElem hn2] using this
    · intro heq t _
      rw [heq]
  simp only [hiff]

/-- The scan of `find_nodeid`: either no cell among the `n` cells from `i` on compares
equal and the result is `-1`, or the result is the `node_id` of the first cell that
compares equal. -/
theorem find_nodeid_loop_spec (mt : Mem NODE) (hash : List Nat) (n : Nat) (i : Int) :
    (find_nodeid_loop mt hash n i = -1 ∧
      ∀ j, i ≤ j → j < i + (n : Int) → compare_hash hash (mt j).hashval = 0) ∨
    (∃ j, i ≤ j ∧ j < i + (n : Int) ∧ compare_hash hash (mt j).hashval ≠ 0 ∧
      (∀ j', i ≤ j' → j' < j → compare_hash hash (mt j').hashval = 0) ∧
      find_nodeid_loop mt hash n i = (mt j).node_id) := by
  induction n generalizing i with
  | zero =>
    left
    refine ⟨rfl, ?_⟩
    intro j h0 h1
    simp at h1
    omega
  | succ n ih =>
    rw [find_nodeid_loop]
    by_cases hc : compare_hash hash (mt i).hashval ≠ 0
    · right
      refine ⟨i, le_refl i, by push_cast; omega, hc, ?_, by rw [if_pos hc]⟩
      intro j' h0 h1
      omega
    · rw [if_neg hc]
      have hc0 : compare_hash hash (mt i).hashval = 0 := by simpa using hc
      rcases ih (i + 1) with ⟨h1, h2⟩ | ⟨j, h1, h2, h3, h4, h5⟩
      · left
        refine ⟨h1, ?_⟩
        intro j h0 hlt
        by_cases hj : j = i
        · rw [hj]; exact hc0
        · exact h2 j (by omega) (by push_cast at hlt; omega)
      · right
        refine ⟨j, by omega, by push_cast; omega, h3, ?_, h5⟩
        intro j' h0 hlt
        by_cases hj : j' = i
        · rw [hj]; exact hc0
        · exact h4 j' (by omega) hlt

/-- The lookup on a finished tree: `find_nodeid` returns the first leaf index whose input
hashes like the text looked up, and `-1` when there is none. -/
theorem find_nodeid_built {env : Env} {heaps : Mem Heap}
    {hlist : Mem (List Nat)} {length : Nat} {m0 : Mem NODE}
    {L : Int} {t : TREE} (hL : 2 ≤ L) (hlc : t.leaf_count = L)
    (hb : Built env heaps hlist length L m0 t.merkle_tree) (x : List Nat) :
    (find_nodeid env t x length = -1 ∧
      ∀ j, 0 ≤ j → j < L →
        shake256 env H_BYTES (hlist j) length ≠ shake256 env H_BYTES x length) ∨
    (∃ j, 0 ≤ j ∧ j < L ∧ find_nodeid env t x length = j ∧
      shake256 env H_BYTES (hlist j) length = shake256 env H_BYTES x length ∧
      ∀ j', 0 ≤ j' → j' < j →
        shake256 env H_BYTES (hlist j') length ≠ shake256 env H_BYTES x length) := by
  have hcL : ((L.toNat : Nat) : Int) = L := Int.toNat_of_nonneg (by omega)
  have hcmp : ∀ j, 0 ≤ j → j < L →
      compare_hash (shake256 env H_BYTES x length) (t.merkle_tree j).hashval
        = if shake256 env H_BYTES (hlist j) length = shake256 env H_BYTES x length
          then 1 else 0 := by
    intro j h0 h1
    rw [hb.leaf_hash j h0 h1, compare_hash_eq _ _ (shake256_length _ _ _ _)
      (shake256_length _ _ _ _)]
    by_cases he : shake256 env H_BYTES (hlist j) length = shake256 env H_BYTES x length
    · rw [if_pos he, if_pos he.symm]
    · rw [if_neg he, if_neg (fun h => he h.symm)]
  unfold find_nodeid
  simp only
  rw [hlc]
  rcases find_nodeid_loop_spec t.merkle_tree (shake256 env H_BYTES x length) L.toNat 0 with
    ⟨h1, h2⟩ | ⟨j, h1, h2, h3, h4, h5⟩
  · left
    refine ⟨h1, ?_⟩
    intro j h0 hlt heq
    have := h2 j h0 (by omega)
    rw [hcmp j h0 hlt, if_pos heq] at this
    exact absurd this (by decide)
  · right
    have hjL : j < L := by omega
    refine ⟨j, h1, hjL, ?_, ?_, ?_⟩
    · rw [h5, hb.node_id j h1 (by omega)]
    · by_contra hne
      rw [hcmp j h1 hjL, if_neg hne] at h3
      exact h3 rfl
    · intro j' h0 hlt heq
      have := h4 j' h0 hlt
      rw [hcmp j' h0 (by omega), if_pos heq] at this
      exact absurd this (by decide)

/-- C5, counterexample: built from two equal raw inputs, the tree answers the lookup of
input 1 with index 0, not 1. -/
theorem duplicate_input_lookup :
    ∃ t, build_tree sample_env sample_heaps 2
        { leaf_count := 2, node_count := 3, merkle_tree := sample_mem }
        sample_same 1 = some (0, t) ∧
      find_nodeid sample_env t (sample_same 1) 1 = 0 ∧
      find_nodeid sample_env t (sample_same 1) 1 ≠ 1 := by
  have e2 : (2 : Int) ^ 1 = 2 := by norm_num
  obtain ⟨t, hbuild, hlc, _, hb⟩ :=
    build_tree_pow sample_env sample_heaps sample_same 1 sample_mem 1 2 (by decide) (by decide)
  have e3 : 2 * (2 : Int) - 1 = 3 := by norm_num
  rw [e2] at hb hlc
  rw [e2, e3] at hbuild
  have hres : find_nodeid sample_env t (sample_same 1) 1 = 0 := by
    rcases find_nodeid_built (by norm_num) hlc hb (sample_same 1) with ⟨_, h2⟩ | ⟨j, h0, _, h3, _, h5⟩
    · exact absurd rfl (h2 0 (le_refl 0) (by norm_num))
    · have hj : j = 0 := by
        by_contra hne
        exact h5 0 (le_refl 0) (by omega) rfl
      rw [h3, hj]
  refine ⟨t, hbuild, hres, ?_⟩
  rw [hres]
  decide

/-- C5, as the code behaves.  On the tree built from `2^k ≥ 2` raw inputs, the lookup of
input `i` returns the smallest index `j` whose input has the same hash as input `i`; so
`j ≤ i`, and `j = i` when no earlier input has that hash.  The lookup of a text whose hash
differs from the hash of every input returns `-1`. -/
theorem leaf_lookup (env : Env) (heaps : Mem Heap)
    (hlist : Mem (List Nat)) (length : Nat) (m0 : Mem NODE)
    (k fuel : Nat) (hk : 1 ≤ k) (hf : 2 ^ k ≤ fuel) :
    ∃ t,
      build_tree env heaps fuel
        { leaf_count := (2 : Int) ^ k, node_count := 2 * (2 : Int) ^ k - 1, merkle_tree := m0 }
        hlist length = some (0, t) ∧
      (∀ i : Int, 0 ≤ i → i < (2 : Int) ^ k →
        ∃ j : Int, 0 ≤ j ∧ j ≤ i ∧ find_nodeid env t (hlist i) length = j ∧
          shake256 env H_BYTES (hlist j) length = shake256 env H_BYTES (hlist i) length ∧
          ∀ j' : Int, 0 ≤ j' → j' < j →
            shake256 env H_BYTES (hlist j') length ≠ shake256 env H_BYTES (hlist i) length) ∧
      (∀ i : Int, 0 ≤ i → i < (2 : Int) ^ k →
        (∀ j' : Int, 0 ≤ j' → j' < i →
          shake256 env H_BYTES (hlist j') length ≠ shake256 env H_BYTES (hlist i) length) →
        find_nodeid env t (hlist i) length = i) ∧
      (∀ x : List Nat,
        (∀ j : Int, 0 ≤ j → j < (2 : Int) ^ k →
          shake256 env H_BYTES (hlist j) length ≠ shake256 env H_BYTES x length) →
        find_nodeid env t x length = -1) := by
  obtain ⟨t, hbuild, hlc, _, hb⟩ := build_tree_pow env heaps hlist length m0 k fuel hk hf
  have hpos : (2 : Int) ≤ (2 : Int) ^ k := by
    obtain ⟨e, rfl⟩ : ∃ e, k = e + 1 := ⟨k - 1, by omega⟩
    have h1 : (1 : Int) ≤ (2 : Int) ^ e := one_le_pow₀ (by norm_num)
    have hpow : (2 : Int) ^ (e + 1) = 2 * (2 : Int) ^ e := by ring
    omega
  refine ⟨t, hbuild, ?_, ?_, ?_⟩
  · intro i h0 h1
    rcases find_nodeid_built hpos hlc hb (hlist i) with ⟨_, h2⟩ | ⟨j, hj0, _, h3, h4, h5⟩
    · exact absurd rfl (h2 i h0 h1)
    · refine ⟨j, hj0, ?_, h3, h4, h5⟩
      by_contra hgt
      exact h5 i h0 (by omega) rfl
  · intro i h0 h1 hfirst
    rcases find_nodeid_built hpos hlc hb (hlist i) with ⟨_, h2⟩ | ⟨j, hj0, _, h3, h4, h5⟩
    · exact absurd rfl (h2 i h0 h1)
    · have hji : j = i := by
        by_contra hne
        rcases lt_or_gt_of_ne hne with hlt | hgt
        · exact hfirst j hj0 hlt h4
        · exact h5 i h0 hgt rfl
      rw [h3, hji]
  · intro x hx
    rcases find_nodeid_built hpos hlc hb x with ⟨h1, _⟩ | ⟨j, hj0, hj1, _, h4, _⟩
    · exact h1
    · exact absurd h4 (hx j hj0 hj1)

/-- Witness of the corrected C5: four leaves. -/
theorem leaf_lookup_witness :
    (1 ≤ 2 ∧ 2 ^ 2 ≤ 4) ∧
    ∃ t,
      build_tree sample_env sample_heaps 4
        { leaf_count := (2 : Int) ^ 2, node_count := 2 * (2 : Int) ^ 2 - 1,
          merkle_tree := sample_mem }
        sample_hlist 1 = some (0, t) ∧
      (∀ i : Int, 0 ≤ i → i < (2 : Int) ^ 2 →
        ∃ j : Int, 0 ≤ j ∧ j ≤ i ∧ find_nodeid sample_env t (sample_hlist i) 1 = j ∧
          shake256 sample_env H_BYTES (sample_hlist j) 1
            = shake256 sample_env H_BYTES (sample_hlist i) 1 ∧
          ∀ j' : Int, 0 ≤ j' → j' < j →
            shake256 sample_env H_BYTES (sample_hlist j') 1
              ≠ shake256 sample_env H_BYTES (sample_hlist i) 1) ∧
      (∀ i : Int, 0 ≤ i → i < (2 : Int) ^ 2 →
        (∀ j' : Int, 0 ≤ j' → j' < i →
          shake256 sample_env H_BYTES (sample_hlist j') 1
            ≠ shake256 sample_env H_BYTES (sample_hlist i) 1) →
        find_nodeid sample_env t (sample_hlist i) 1 = i) ∧
      (∀ x : List Nat,
        (∀ j : Int, 0 ≤ j → j < (2 : Int) ^ 2 →
          shake256 sample_env H_BYTES (sample_hlist j) 1 ≠ shake256 sample_env H_BYTES x 1) →
        find_nodeid sample_env t x 1 = -1) :=
  ⟨by decide, leaf_lookup sample_env sample_heaps
      sample_hlist 1 sample_mem 2 4 (by decide) (by decide)⟩

/-! ## find_path without a bounds check -/

/-- The loop of `find_path` has no failure exit: when it ends, the return value is 0. -/
theorem find_path_loop_status (mt : Mem NODE) (fuel : Nat) (node_id parent : Int)
    (path : Mem (List Nat)) (i : Int) :
    find_path_loop mt fuel node_id parent path i = none ∨
      ∃ r, find_path_loop mt fuel node_id parent path i = some r ∧ r.status = 0 := by
  induction fuel generalizing node_id parent path i with
  | zero => exact Or.inl rfl
  | succ f ih =>
    rw [find_path_loop]
    by_cases hp : parent ≠ -1
    · rw [if_pos hp]
      exact ih _ _ _ _
    · rw [if_neg hp]
      exact Or.inr ⟨_, rfl, rfl⟩

/-- Every node index `n` of a tree with `2^k` leaves lies `d ≤ k` levels below the root. -/
theorem level_exists (k : Nat) (n : Int) (h0 : 0 ≤ n) (h1 : n ≤ 2 * (2 : Int) ^ k - 2) :
    ∃ d : Nat, d ≤ k ∧ (2 : Int) ^ d ≤ 2 * (2 : Int) ^ k - 1 - n ∧
      2 * (2 : Int) ^ k - 1 - n < 2 * (2 : Int) ^ d := by
  obtain ⟨x, hx⟩ : ∃ x : Nat, (x : Int) = 2 * (2 : Int) ^ k - 1 - n :=
    ⟨(2 * (2 : Int) ^ k - 1 - n).toNat, Int.toNat_of_nonneg (by omega)⟩
  have hx0 : x ≠ 0 := by omega
  have hlt : x < 2 ^ (k + 1) := by
    have e1 : ((2 ^ (k + 1) : Nat) : Int) = 2 * (2 : Int) ^ k := by push_cast; ring
    omega
  have hd := Nat.log_lt_of_lt_pow hx0 hlt
  have hlo := Nat.pow_log_le_self 2 hx0
  have hhi := Nat.lt_pow_succ_log_self (by decide : 1 < 2) x
  generalize Nat.log 2 x = d at hd hlo hhi
  have e1 : ((2 ^ d : Nat) : Int) = (2 : Int) ^ d := by push_cast; ring
  have e2 : ((2 ^ d.succ : Nat) : Int) = 2 * (2 : Int) ^ d := by
    rw [Nat.pow_succ]; push_cast; ring
  refine ⟨d, by omega, by omega, by omega⟩

/-- C6, counterexample: on the tree built for four leaves, `find_path` called with index 4,
an inner node, returns 0 and writes one path element, the hash of node 5. -/
theorem internal_index_accepted :
    ∃ t r,
      build_tree sample_env sample_heaps 4
          { leaf_count := 4, node_count := 7, merkle_tree := sample_mem }
        sample_hlist 1 = some (0, t) ∧
      find_path 3 t 4 sample_path = some r ∧ r.status = 0 ∧ r.count = 1 ∧
      r.path 0 = (t.merkle_tree 5).hashval := by
  have e4 : (2 : Int) ^ 2 = 4 := by norm_num
  obtain ⟨t, hbuild, _, _, hb⟩ :=
    build_tree_pow sample_env sample_heaps sample_hlist 1 sample_mem 2 4 (by decide) (by decide)
  have e7 : 2 * (4 : Int) - 1 = 7 := by norm_num
  rw [e4] at hb
  rw [e4, e7] at hbuild
  obtain ⟨r, k1, k2, k3, _, _, k7, _, _, _, _⟩ :=
    find_path_loop_spec hb ⟨2, by norm_num⟩ 1 4 (by norm_num) (by norm_num) (by norm_num)
      3 sample_path 0 (by decide)
  have p0 := k7 0 (by decide)
  have s0 : sibling_of (ancestor 4 0 4) = 5 := by decide
  rw [s0] at p0
  exact ⟨t, r, hbuild, k1, k2, by simpa using k3, by simpa using p0⟩

/-- C6, as the code behaves.  `find_path` does not check `node_id` and has no failure
return: whenever its loop ends it returns 0.  On the tree built for `2^k ≥ 2` leaves and
for the index `n` of an inner node (`leaf_count ≤ n ≤ node_count - 1`) it returns 0 and
writes fewer than `k` path elements, the hashes of the siblings met on the way from `n` to
the root. -/
theorem find_path_no_bounds_check (env : Env) (heaps : Mem Heap)
    (hlist : Mem (List Nat)) (length : Nat)
    (m0 : Mem NODE) (path0 : Mem (List Nat)) (k fuel fuel' : Nat)
    (hk : 1 ≤ k) (hf : 2 ^ k ≤ fuel) (hf' : k < fuel') :
    (∀ (g : Nat) (t : TREE) (n : Int) (path : Mem (List Nat)),
      find_path g t n path = none ∨ ∃ r, find_path g t n path = some r ∧ r.status = 0) ∧
    ∃ t,
      build_tree env heaps fuel
        { leaf_count := (2 : Int) ^ k, node_count := 2 * (2 : Int) ^ k - 1, merkle_tree := m0 }
        hlist length = some (0, t) ∧
      ∀ n : Int, t.leaf_count ≤ n → n ≤ t.node_count - 1 →
        ∃ (r : PathResult) (d : Nat), find_path fuel' t n path0 = some r ∧ r.status = 0 ∧ r.count = (d : Int) ∧
          d < k ∧
          ∀ s : Nat, s < d →
            r.path (s : Int)
              = (t.merkle_tree (sibling_of (ancestor t.leaf_count s n))).hashval := by
  constructor
  · intro g t n path
    exact find_path_loop_status _ _ _ _ _ _
  · obtain ⟨t, hbuild, hlc, hnc, hb⟩ := build_tree_pow env heaps hlist length m0 k fuel hk hf
    have hL : ∃ m : Int, (2 : Int) ^ k = 2 * m := by
      obtain ⟨e, rfl⟩ : ∃ e, k = e + 1 := ⟨k - 1, by omega⟩
      exact ⟨(2 : Int) ^ e, by ring⟩
    have hpos : (1 : Int) ≤ (2 : Int) ^ k := one_le_pow₀ (by norm_num)
    refine ⟨t, hbuild, ?_⟩
    intro n hn0 hn1
    rw [hlc] at hn0
    rw [hnc] at hn1
    obtain ⟨d, hd, hlo, hhi⟩ := level_exists k n (by omega) (by omega)
    have hdk : d < k := by
      by_contra hge
      have hdk : d = k := by omega
      subst hdk
      omega
    obtain ⟨r, k1, k2, k3, _, _, k7, _, _, _, _⟩ :=
      find_path_loop_spec hb hL d n (by omega) hlo hhi fuel' path0 0 (by omega)
    refine ⟨r, d, k1, k2, by rw [k3]; ring, hdk, ?_⟩
    intro s hs
    have := k7 s hs
    rw [zero_add] at this
    rw [hlc]
    exact this

/-- Witness of the corrected C6: four leaves. -/
theorem find_path_no_bounds_check_witness :
    (1 ≤ 2 ∧ 2 ^ 2 ≤ 4 ∧ 2 < 3) ∧
    ((∀ (g : Nat) (t : TREE) (n : Int) (path : Mem (List Nat)),
      find_path g t n path = none ∨ ∃ r, find_path g t n path = some r ∧ r.status = 0) ∧
    ∃ t,
      build_tree sample_env sample_heaps 4
        { leaf_count := (2 : Int) ^ 2, node_count := 2 * (2 : Int) ^ 2 - 1,
          merkle_tree := sample_mem }
        sample_hlist 1 = some (0, t) ∧
      ∀ n : Int, t.leaf_count ≤ n → n ≤ t.node_count - 1 →
        ∃ (r : PathResult) (d : Nat), find_path 3 t n sample_path = some r ∧ r.status = 0 ∧ r.count = (d : Int) ∧
          d < 2 ∧
          ∀ s : Nat, s < d →
            r.path (s : Int)
              = (t.merkle_tree (sibling_of (ancestor t.leaf_count s n))).hashval) :=
  ⟨by decide, find_path_no_bounds_check sample_env sample_heaps
      sample_hlist 1 sample_mem sample_path 2 4 3
    (by decide) (by decide) (by decide)⟩

/-! ## What of a hash reaches the combination -/

/-- The cells `0 .. 31` of the expansion depend on the bytes 0 to 3 only. -/
theorem convert_binary_low (a a' : List Nat) (f : Mem Nat) (h : same_first_four a a')
    (c : Int) (hc : c < 32) : convert_binary a f c = convert_binary a' f c := by
  rw [convert_binary_apply, convert_binary_apply]
  by_cases h1 : 0 < c ∧ c ≤ (H_BITS : Int)
  · rw [if_pos h1, if_pos h1]
    unfold hash_bit
    have hH : (H_BITS : Int) = 128 := rfl
    obtain ⟨x, hx⟩ : ∃ x : Nat, ((H_BITS : Int) - c).toNat = x := ⟨_, rfl⟩
    have hx1 : 96 < x ∧ x < 128 := by omega
    rw [hx]
    have hb : H_BYTES - 1 - x / 8 < 4 := by
      have : H_BYTES = 16 := rfl
      omega
    rw [h _ hb]
  · rw [if_neg h1, if_neg h1]

/-- The bits `97 .. 127`, which go to the cells `1 .. 31`, are bits of the bytes 0 to 3. -/
theorem hash_bit_low (a a' : List Nat) (h : same_first_four a a') (x : Nat) (h1 : 96 < x)
    (h2 : x < 128) : hash_bit a x = hash_bit a' x := by
  unfold hash_bit
  have hb : H_BYTES - 1 - x / 8 < 4 := by
    have : H_BYTES = 16 := rfl
    omega
  rw [h _ hb]

/-- The bytes of the cells 1 to 31 are the same for all arguments that agree on their
first four bytes. -/
theorem input_tail_congr (a a' b b' : List Nat) (ha : same_first_four a a')
    (hb : same_first_four b b') : input_tail a b = input_tail a' b' := by
  unfold input_tail
  apply List.map_congr_left
  intro m hm
  have hm1 : m < SIZEOF_INT * 31 := List.mem_range.mp hm
  have h4 : SIZEOF_INT = 4 := rfl
  have hH : H_BITS = 128 := rfl
  rw [h4] at hm1
  have hq : m / SIZEOF_INT < 31 := by rw [h4]; omega
  generalize m / SIZEOF_INT = q at hq ⊢
  rw [hash_bit_low a a' ha _ (by rw [hH]; omega) (by rw [hH]; omega),
    hash_bit_low b b' hb _ (by rw [hH]; omega) (by rw [hH]; omega)]

/-- The output of a call is the same for all arguments that agree on their first four
bytes, when the never-written cell 0 holds the same value. -/
theorem get_concat_hash_congr (env : Env) (heap heap' : Heap) (a a' b b' : List Nat)
    (ha : same_first_four a a') (hb : same_first_four b b') (hc : cell0 heap = cell0 heap') :
    get_concat_hash env heap a b = get_concat_hash env heap' a' b' := by
  rw [get_concat_hash_eq_input, get_concat_hash_eq_input, hash_input_split, hash_input_split,
    hc, input_tail_congr a a' b b' ha hb]

theorem hash_input_congr (heap heap' : Heap) (a a' b b' : List Nat)
    (ha : same_first_four a a') (hb : same_first_four b b') (hc : cell0 heap = cell0 heap') :
    hash_input heap a b = hash_input heap' a' b' := by
  rw [hash_input_split, hash_input_split, hc, input_tail_congr a a' b b' ha hb]

theorem root_fold_congr (env : Env) (heaps : Mem Heap) (path path' : Mem (List Nat))
    (h h' : List Nat) (hh : same_first_four h' h)
    (hp : ∀ s, same_first_four (path' s) (path s)) (d : Nat) (i : Int) :
    root_fold env heaps path' (d + 1) i h' = root_fold env heaps path (d + 1) i h := by
  rw [root_fold, root_fold, get_concat_hash_congr env _ _ _ _ _ _ (hp i) hh rfl]
  generalize get_concat_hash env (heaps i) (path i) h = acc
  generalize i + 1 = i1
  induction d generalizing acc i1 with
  | zero => rfl
  | succ d ih =>
    rw [root_fold, root_fold,
      get_concat_hash_congr env _ _ _ _ _ _ (hp i1) (fun _ _ => rfl) rfl]
    exact ih _ _

theorem tamper_byte_ne (h : List Nat) (pos : Nat) (hpos : pos < h.length) :
    tamper_byte h pos ≠ h := by
  intro heq
  have h1 : (tamper_byte h pos)[pos]? = h[pos]? := by rw [heq]
  unfold tamper_byte at h1
  rw [List.getElem?_set_self hpos, List.getElem?_eq_getElem hpos,
    List.getD_eq_getElem?_getD, List.getElem?_eq_getElem hpos] at h1
  simp only [Option.getD_some, Option.some.injEq] at h1
  omega

theorem tamper_byte_same (h : List Nat) (pos : Nat) (hpos : 4 ≤ pos) :
    same_first_four (tamper_byte h pos) h := by
  intro t ht
  unfold tamper_byte
  simp only [List.getD_eq_getElem?_getD]
  rw [List.getElem?_set_ne (by omega)]

theorem tamper_byte_length (h : List Nat) (pos : Nat) :
    (tamper_byte h pos).length = h.length := by
  unfold tamper_byte
  rw [List.length_set]

/-- C2 (tamper detection), as the code behaves: for every hash engine, also one that maps
distinct inputs to distinct outputs, on the tree built for `2^k ≥ 2` leaves and for every
leaf `i`, replacing one byte at a position `pos` in `4 .. H_BYTES - 1` of the leaf hash, or
of one path element, by a different byte is not seen.  Whatever the blocks of the calls
hold, `find_root_from_path` returns for the altered input what it returns for the
unaltered one; and when its calls find in the never-written cell 0 what the calls of
`build_tree` found there (as on a heap that was never used), the root it computes from the
altered input is the stored hash of node `node_count - 1`. -/
theorem tamper_undetected (env : Env) (heaps heaps' : Mem Heap) (hlist : Mem (List Nat))
    (length : Nat) (m0 : Mem NODE) (path0 : Mem (List Nat)) (k : Nat) (i : Int)
    (fuel fuel' : Nat)
    (hk : 1 ≤ k) (h0 : 0 ≤ i) (h1 : i < (2 : Int) ^ k) (hf : 2 ^ k ≤ fuel) (hf' : k < fuel')
    (hcell : ∀ s : Nat, s < k →
      cell0 (heaps' (s : Int)) = cell0 (heaps (ancestor ((2 : Int) ^ k) (s + 1) i))) :
    ∃ t r,
      build_tree env heaps fuel
        { leaf_count := (2 : Int) ^ k, node_count := 2 * (2 : Int) ^ k - 1, merkle_tree := m0 }
        hlist length = some (0, t) ∧
      find_path fuel' t i path0 = some r ∧
      ∀ pos : Nat, 4 ≤ pos → pos < H_BYTES →
        (tamper_byte (t.merkle_tree i).hashval pos ≠ (t.merkle_tree i).hashval ∧
          find_root_from_path env heaps' r.path
              (tamper_byte (t.merkle_tree i).hashval pos) (k : Int)
            = some (0, (t.merkle_tree (t.node_count - 1)).hashval) ∧
          ∀ heaps'' : Mem Heap,
            find_root_from_path env heaps'' r.path
                (tamper_byte (t.merkle_tree i).hashval pos) (k : Int)
              = find_root_from_path env heaps'' r.path (t.merkle_tree i).hashval (k : Int)) ∧
        (∀ s : Nat, s < k →
          tamper_byte (r.path (s : Int)) pos ≠ r.path (s : Int) ∧
          find_root_from_path env heaps'
              (store r.path (s : Int) (tamper_byte (r.path (s : Int)) pos))
              (t.merkle_tree i).hashval (k : Int)
            = some (0, (t.merkle_tree (t.node_count - 1)).hashval) ∧
          ∀ heaps'' : Mem Heap,
            find_root_from_path env heaps''
                (store r.path (s : Int) (tamper_byte (r.path (s : Int)) pos))
                (t.merkle_tree i).hashval (k : Int)
              = find_root_from_path env heaps'' r.path (t.merkle_tree i).hashval (k : Int)) := by
  obtain ⟨t, hbuild, _, hnc, hb⟩ := build_tree_pow env heaps hlist length m0 k fuel hk hf
  obtain ⟨r, hr, _, _, _, _, _, hlen, _, _, hanc, hroot⟩ :=
    find_path_leaf_spec hk hb i h0 h1 fuel' path0 hf'
  have hpos : (1 : Int) ≤ (2 : Int) ^ k := one_le_pow₀ (by norm_num)
  have hleaf : (t.merkle_tree i).hashval.length = H_BYTES :=
    built_hash_length hb i h0 (by omega)
  have e0 : t.node_count - 1 = 2 * (2 : Int) ^ k - 2 := by rw [hnc]; ring
  have hgood : find_root_from_path env heaps' r.path (t.merkle_tree i).hashval (k : Int)
      = some (0, (t.merkle_tree (t.node_count - 1)).hashval) := by
    rw [find_root_from_path_eq env heaps' r.path _ k hk, hroot heaps' k (le_refl k) hcell,
      hanc, e0]
  obtain ⟨d, rfl⟩ : ∃ d, k = d + 1 := ⟨k - 1, by omega⟩
  have hleaf_any : ∀ (heaps'' : Mem Heap) (pos : Nat), 4 ≤ pos →
      find_root_from_path env heaps'' r.path
          (tamper_byte (t.merkle_tree i).hashval pos) ((d + 1 : Nat) : Int)
        = find_root_from_path env heaps'' r.path (t.merkle_tree i).hashval
            ((d + 1 : Nat) : Int) := by
    intro heaps'' pos hp4
    rw [find_root_from_path_eq env heaps'' r.path _ (d + 1) (by omega),
      find_root_from_path_eq env heaps'' r.path _ (d + 1) (by omega),
      root_fold_congr env heaps'' r.path r.path _ _ (tamper_byte_same _ _ hp4)
        (fun _ _ _ => rfl)]
  have hpath_any : ∀ (heaps'' : Mem Heap) (pos : Nat) (s : Nat), 4 ≤ pos →
      find_root_from_path env heaps''
          (store r.path (s : Int) (tamper_byte (r.path (s : Int)) pos))
          (t.merkle_tree i).hashval ((d + 1 : Nat) : Int)
        = find_root_from_path env heaps'' r.path (t.merkle_tree i).hashval
            ((d + 1 : Nat) : Int) := by
    intro heaps'' pos s hp4
    rw [find_root_from_path_eq env heaps'' _ _ (d + 1) (by omega),
      find_root_from_path_eq env heaps'' r.path _ (d + 1) (by omega)]
    congr 2
    apply root_fold_congr env heaps'' r.path _ _ _ (fun _ _ => rfl)
    intro s'
    by_cases hs' : s' = (s : Int)
    · rw [hs', store_same]
      exact tamper_byte_same _ _ hp4
    · rw [store_other _ _ _ _ hs']
      exact fun _ _ => rfl
  refine ⟨t, r, hbuild, hr, ?_⟩
  intro pos hp4 hp16
  refine ⟨⟨tamper_byte_ne _ _ (by rw [hleaf]; exact hp16), ?_, fun h'' => hleaf_any h'' pos hp4⟩,
    ?_⟩
  · rw [hleaf_any heaps' pos hp4]
    exact hgood
  · intro s hs
    refine ⟨tamper_byte_ne _ _ (by rw [hlen s hs]; exact hp16), ?_,
      fun h'' => hpath_any h'' pos s hp4⟩
    rw [hpath_any heaps' pos s hp4]
    exact hgood

/-- Witness of C2: four leaves, leaf 1, every call on never-used blocks. -/
theorem tamper_undetected_witness :
    (1 ≤ 2 ∧ (0 : Int) ≤ 1 ∧ (1 : Int) < (2 : Int) ^ 2 ∧ 2 ^ 2 ≤ 4 ∧ 2 < 3 ∧
      ∀ s : Nat, s < 2 →
        cell0 (sample_heaps (s : Int))
          = cell0 (sample_heaps (ancestor ((2 : Int) ^ 2) (s + 1) 1))) ∧
    ∃ t r,
      build_tree sample_env sample_heaps 4
        { leaf_count := (2 : Int) ^ 2, node_count := 2 * (2 : Int) ^ 2 - 1,
          merkle_tree := sample_mem }
        sample_hlist 1 = some (0, t) ∧
      find_path 3 t 1 sample_path = some r ∧
      ∀ pos : Nat, 4 ≤ pos → pos < H_BYTES →
        (tamper_byte (t.merkle_tree 1).hashval pos ≠ (t.merkle_tree 1).hashval ∧
          find_root_from_path sample_env sample_heaps r.path
              (tamper_byte (t.merkle_tree 1).hashval pos) ((2 : Nat) : Int)
            = some (0, (t.merkle_tree (t.node_count - 1)).hashval) ∧
          ∀ heaps'' : Mem Heap,
            find_root_from_path sample_env heaps'' r.path
                (tamper_byte (t.merkle_tree 1).hashval pos) ((2 : Nat) : Int)
              = find_root_from_path sample_env heaps'' r.path (t.merkle_tree 1).hashval
                  ((2 : Nat) : Int)) ∧
        (∀ s : Nat, s < 2 →
          tamper_byte (r.path (s : Int)) pos ≠ r.path (s : Int) ∧
          find_root_from_path sample_env sample_heaps
              (store r.path (s : Int) (tamper_byte (r.path (s : Int)) pos))
              (t.merkle_tree 1).hashval ((2 : Nat) : Int)
            = some (0, (t.merkle_tree (t.node_count - 1)).hashval) ∧
          ∀ heaps'' : Mem Heap,
            find_root_from_path sample_env heaps''
                (store r.path (s : Int) (tamper_byte (r.path (s : Int)) pos))
                (t.merkle_tree 1).hashval ((2 : Nat) : Int)
              = find_root_from_path sample_env heaps'' r.path (t.merkle_tree 1).hashval
                  ((2 : Nat) : Int)) :=
  ⟨⟨by decide, by decide, by decide, by decide, by decide, fun _ _ => rfl⟩,
    tamper_undetected sample_env sample_heaps sample_heaps sample_hlist 1 sample_mem sample_path
      2 1 4 3 (by decide) (by decide) (by decide) (by decide) (by decide) (fun _ _ => rfl)⟩

/-! ## Node hashes, the combination and the fold of find_root_from_path -/

/-- C14 (node hashes).  For a leaf count `2^k` with `k ≥ 1` and any raw inputs, after
`build_tree` every leaf `i` stores the hash of raw input `i`, every inner node `p` in
`leaf_count .. node_count - 1` stores the combination of the hashes of the nodes
`2*(p - leaf_count)` and `2*(p - leaf_count) + 1`, the lower index as first argument (the
output of the call of `get_concat_hash` for node `p`, on the blocks that call obtained),
and the `node_id` of every node `i` is `i`. -/
theorem node_hashes (env : Env) (heaps : Mem Heap)
    (hlist : Mem (List Nat)) (length : Nat) (m0 : Mem NODE)
    (k fuel : Nat) (hk : 1 ≤ k) (hf : 2 ^ k ≤ fuel) :
    ∃ t,
      build_tree env heaps fuel
        { leaf_count := (2 : Int) ^ k, node_count := 2 * (2 : Int) ^ k - 1, merkle_tree := m0 }
        hlist length = some (0, t) ∧
      (∀ i : Int, 0 ≤ i → i < t.leaf_count →
        (t.merkle_tree i).hashval = shake256 env H_BYTES (hlist i) length) ∧
      (∀ p : Int, t.leaf_count ≤ p → p ≤ t.node_count - 1 →
        (t.merkle_tree p).hashval
          = get_concat_hash env (heaps p) (t.merkle_tree (2 * (p - t.leaf_count))).hashval
              (t.merkle_tree (2 * (p - t.leaf_count) + 1)).hashval) ∧
      (∀ i : Int, 0 ≤ i → i ≤ t.node_count - 1 → (t.merkle_tree i).node_id = i) := by
  obtain ⟨t, hbuild, hlc, hnc, hb⟩ := build_tree_pow env heaps hlist length m0 k fuel hk hf
  refine ⟨t, hbuild, ?_, ?_, ?_⟩
  · intro i h0 h1
    rw [hlc] at h1
    exact hb.leaf_hash i h0 h1
  · intro p h0 h1
    rw [hlc] at h0 ⊢
    rw [hnc] at h1
    exact hb.inner_hash p h0 (by omega)
  · intro i h0 h1
    rw [hnc] at h1
    exact hb.node_id i h0 (by omega)

/-- Witness of C14: four leaves. -/
theorem node_hashes_witness :
    (1 ≤ 2 ∧ 2 ^ 2 ≤ 4) ∧
    ∃ t,
      build_tree sample_env sample_heaps 4
        { leaf_count := (2 : Int) ^ 2, node_count := 2 * (2 : Int) ^ 2 - 1,
          merkle_tree := sample_mem }
        sample_hlist 1 = some (0, t) ∧
      (∀ i : Int, 0 ≤ i → i < t.leaf_count →
        (t.merkle_tree i).hashval = shake256 sample_env H_BYTES (sample_hlist i) 1) ∧
      (∀ p : Int, t.leaf_count ≤ p → p ≤ t.node_count - 1 →
        (t.merkle_tree p).hashval
          = get_concat_hash sample_env (sample_heaps p)
              (t.merkle_tree (2 * (p - t.leaf_count))).hashval
              (t.merkle_tree (2 * (p - t.leaf_count) + 1)).hashval) ∧
      (∀ i : Int, 0 ≤ i → i ≤ t.node_count - 1 → (t.merkle_tree i).node_id = i) :=
  ⟨by decide, node_hashes sample_env sample_heaps
      sample_hlist 1 sample_mem 2 4 (by decide) (by decide)⟩

/-- C19 (combine is commutative).  The cells `1 .. H_BITS - 1` of the XOR array `binary3`
are the same for both orders of the two hashes, whatever the blocks held.  The bytes handed
to `shake256` are the four bytes of the never-written cell 0 followed by the bytes of the
cells 1 to 31, so two calls that find the same value in cell 0 give the same output for
`(a, b)` and `(b, a)`.  Two calls do not give the same output in general: under the sum
engine the call for `(a, b)` on never-used blocks and the call for `(b, a)` on blocks used
before (`binary1[0]` holds 1) give different outputs, for every `a` and `b`. -/
theorem combine_order_heap_dependent :
    (∀ (heap heap' : Heap) (a b : List Nat) (c : Int), 0 < c → c < (H_BITS : Int) →
      xor_binary (convert_binary a heap.binary1) (convert_binary b heap.binary2)
          heap.binary3 c
        = xor_binary (convert_binary b heap'.binary1) (convert_binary a heap'.binary2)
            heap'.binary3 c) ∧
    (∀ (heap : Heap) (a b : List Nat),
      hash_input heap a b = cell_bytes (cell0 heap) ++ input_tail a b) ∧
    (∀ (env : Env) (heap heap' : Heap) (a b : List Nat), cell0 heap = cell0 heap' →
      hash_input heap a b = hash_input heap' b a ∧
      get_concat_hash env heap a b = get_concat_hash env heap' b a) ∧
    (∀ a b : List Nat,
      get_concat_hash sample_env sample_heap a b ≠ get_concat_hash sample_env used_heap b a) := by
  refine ⟨?_, hash_input_split, ?_, ?_⟩
  · intro heap heap' a b c h0 h1
    rw [binary3_apply, binary3_apply, if_pos ⟨h0, h1⟩, if_pos ⟨h0, h1⟩, Nat.xor_comm]
  · intro env heap heap' a b hc
    refine ⟨?_, get_concat_hash_comm env heap heap' a b hc⟩
    rw [hash_input_split, hash_input_split, hc, input_tail_comm]
  · intro a b
    exact sample_env_cell0_ne sample_heap used_heap a b b a (input_tail_comm a b) rfl rfl

/-- C20 (combine ignores most of its input).  The bytes handed to `shake256` are `H_BITS`
bytes, the `SIZEOF_INT` bytes of each of the 32 cells `binary3[0] .. binary3[31]`.  If `a`
and `a'` agree on their bytes 0 to 3, two calls that find the same value in the
never-written cell 0 give the same output for `a` and for `a'`, as first argument and as
second argument.  Two calls do not give the same output in general: under the sum engine
the call for `a` on never-used blocks and the call for `a'` on blocks used before
(`binary1[0]` holds 1) give different outputs. -/
theorem combine_tail_heap_dependent (a a' b : List Nat) (h : same_first_four a a') :
    (∀ heap : Heap,
      (hash_input heap a b).length = H_BITS ∧
      hash_input heap a b
        = (List.range (SIZEOF_INT * 32)).map
            (fun m =>
              (xor_binary (convert_binary a heap.binary1) (convert_binary b heap.binary2)
                heap.binary3 ((m / SIZEOF_INT : Nat) : Int) >>> (8 * (m % SIZEOF_INT))) % 256)) ∧
    (∀ (env : Env) (heap heap' : Heap), cell0 heap = cell0 heap' →
      get_concat_hash env heap a b = get_concat_hash env heap' a' b ∧
      get_concat_hash env heap b a = get_concat_hash env heap' b a') ∧
    get_concat_hash sample_env sample_heap a b ≠ get_concat_hash sample_env used_heap a' b ∧
    get_concat_hash sample_env sample_heap b a ≠ get_concat_hash sample_env used_heap b a' := by
  refine ⟨?_, ?_, ?_, ?_⟩
  · intro heap
    refine ⟨?_, hash_input_eq heap a b⟩
    rw [hash_input_eq, List.length_map, List.length_range]
    rfl
  · intro env heap heap' hc
    exact ⟨get_concat_hash_congr env heap heap' a a' b b h (fun _ _ => rfl) hc,
      get_concat_hash_congr env heap heap' b b a a' (fun _ _ => rfl) h hc⟩
  · exact sample_env_cell0_ne sample_heap used_heap a b a' b
      (input_tail_congr a a' b b h (fun _ _ => rfl)) rfl rfl
  · exact sample_env_cell0_ne sample_heap used_heap b a b a'
      (input_tail_congr b b a a' (fun _ _ => rfl) h) rfl rfl

/-- Witness of C20: two hashes that differ in byte 4 only. -/
theorem combine_tail_heap_dependent_witness :
    same_first_four [1, 2, 3, 4, 5, 6, 7, 8, 9, 10, 11, 12, 13, 14, 15, 16]
      [1, 2, 3, 4, 77, 6, 7, 8, 9, 10, 11, 12, 13, 14, 15, 16] ∧
    ((∀ heap : Heap,
      (hash_input heap [1, 2, 3, 4, 5, 6, 7, 8, 9, 10, 11, 12, 13, 14, 15, 16]
        [0, 0, 0, 0, 0, 0, 0, 0, 0, 0, 0, 0, 0, 0, 0, 0]).length = H_BITS ∧
      hash_input heap [1, 2, 3, 4, 5, 6, 7, 8, 9, 10, 11, 12, 13, 14, 15, 16]
          [0, 0, 0, 0, 0, 0, 0, 0, 0, 0, 0, 0, 0, 0, 0, 0]
        = (List.range (SIZEOF_INT * 32)).map
            (fun m =>
              (xor_binary
                (convert_binary [1, 2, 3, 4, 5, 6, 7, 8, 9, 10, 11, 12, 13, 14, 15, 16]
                  heap.binary1)
                (convert_binary [0, 0, 0, 0, 0, 0, 0, 0, 0, 0, 0, 0, 0, 0, 0, 0] heap.binary2)
                heap.binary3 ((m / SIZEOF_INT : Nat) : Int) >>> (8 * (m % SIZEOF_INT))) % 256)) ∧
    (∀ (env : Env) (heap heap' : Heap), cell0 heap = cell0 heap' →
      get_concat_hash env heap [1, 2, 3, 4, 5, 6, 7, 8, 9, 10, 11, 12, 13, 14, 15, 16]
          [0, 0, 0, 0, 0, 0, 0, 0, 0, 0, 0, 0, 0, 0, 0, 0]
        = get_concat_hash env heap' [1, 2, 3, 4, 77, 6, 7, 8, 9, 10, 11, 12, 13, 14, 15, 16]
          [0, 0, 0, 0, 0, 0, 0, 0, 0, 0, 0, 0, 0, 0, 0, 0] ∧
      get_concat_hash env heap [0, 0, 0, 0, 0, 0, 0, 0, 0, 0, 0, 0, 0, 0, 0, 0]
          [1, 2, 3, 4, 5, 6, 7, 8, 9, 10, 11, 12, 13, 14, 15, 16]
        = get_concat_hash env heap' [0, 0, 0, 0, 0, 0, 0, 0, 0, 0, 0, 0, 0, 0, 0, 0]
          [1, 2, 3, 4, 77, 6, 7, 8, 9, 10, 11, 12, 13, 14, 15, 16]) ∧
    get_concat_hash sample_env sample_heap [1, 2, 3, 4, 5, 6, 7, 8, 9, 10, 11, 12, 13, 14, 15, 16]
        [0, 0, 0, 0, 0, 0, 0, 0, 0, 0, 0, 0, 0, 0, 0, 0]
      ≠ get_concat_hash sample_env used_heap
        [1, 2, 3, 4, 77, 6, 7, 8, 9, 10, 11, 12, 13, 14, 15, 16]
        [0, 0, 0, 0, 0, 0, 0, 0, 0, 0, 0, 0, 0, 0, 0, 0] ∧
    get_concat_hash sample_env sample_heap [0, 0, 0, 0, 0, 0, 0, 0, 0, 0, 0, 0, 0, 0, 0, 0]
        [1, 2, 3, 4, 5, 6, 7, 8, 9, 10, 11, 12, 13, 14, 15, 16]
      ≠ get_concat_hash sample_env used_heap [0, 0, 0, 0, 0, 0, 0, 0, 0, 0, 0, 0, 0, 0, 0, 0]
        [1, 2, 3, 4, 77, 6, 7, 8, 9, 10, 11, 12, 13, 14, 15, 16]) :=
  ⟨by unfold same_first_four; decide,
    combine_tail_heap_dependent [1, 2, 3, 4, 5, 6, 7, 8, 9, 10, 11, 12, 13, 14, 15, 16]
      [1, 2, 3, 4, 77, 6, 7, 8, 9, 10, 11, 12, 13, 14, 15, 16]
      [0, 0, 0, 0, 0, 0, 0, 0, 0, 0, 0, 0, 0, 0, 0, 0] (by unfold same_first_four; decide)⟩

theorem root_fold_eq_foldl (env : Env) (heaps : Mem Heap) (path : Mem (List Nat)) (d : Nat)
    (i : Int) (acc : List Nat) :
    root_fold env heaps path d i acc
      = (List.range d).foldl
          (fun acc (t : Nat) =>
            get_concat_hash env (heaps (i + (t : Int))) (path (i + (t : Int))) acc) acc := by
  induction d with
  | zero => rfl
  | succ d ih =>
    rw [root_fold_snoc, ih, List.range_succ, List.foldl_append]
    rfl

/-- C12 (root reconstruction is a left fold).  For a path of `len ≥ 1` elements and any
leaf hash `h`, `find_root_from_path` returns 0 and writes to `root` the value `acc_len`,
where `acc_0 = h` and `acc_(k+1)` is the combination with the path element `path[k]` as
first argument and `acc_k` as second (the output of the call of `get_concat_hash` for
`path[k]`, on the blocks that call obtained).  The result depends on the `len` path
elements and on `h` only: not on a tree, not on the other slots of `path`. -/
theorem root_is_left_fold (env : Env) (heaps : Mem Heap) (path : Mem (List Nat))
    (node_hash : List Nat) (len : Nat) (hlen : 1 ≤ len) :
    find_root_from_path env heaps path node_hash (len : Int)
      = some (0, (List.range len).foldl
          (fun acc (k : Nat) => get_concat_hash env (heaps (k : Int)) (path (k : Int)) acc)
          node_hash) := by
  rw [find_root_from_path_eq env heaps path node_hash len hlen, root_fold_eq_foldl]
  simp

/-- Witness of C12: a path of two elements. -/
theorem root_is_left_fold_witness :
    1 ≤ 2 ∧
    find_root_from_path sample_env sample_heaps sample_hlist [1, 2, 3] ((2 : Nat) : Int)
      = some (0, (List.range 2).foldl
          (fun acc (k : Nat) =>
            get_concat_hash sample_env (sample_heaps (k : Int)) (sample_hlist (k : Int)) acc)
          [1, 2, 3]) :=
  ⟨by decide, root_is_left_fold sample_env sample_heaps sample_hlist [1, 2, 3] 2 (by decide)⟩

/-! ## Layers, sibling links and sibling discovery -/

/-- Doubling the exponent step: a smaller exponent gives at most half the power. -/
theorem two_pow_lt_step (e e' : Nat) (h : e < e') : 2 * (2 : Int) ^ e ≤ (2 : Int) ^ e' := by
  have h1 : (2 : Int) ^ (e + 1) ≤ (2 : Int) ^ e' := pow_le_pow_right₀ (by norm_num) h
  have h2 : (2 : Int) ^ (e + 1) = 2 * (2 : Int) ^ e := by ring
  omega

/-- The layers do not overlap: a distance `x` from the end of the array lies in the layer
of one width only. -/
theorem layer_unique (e e' : Nat) (x : Int) (h1 : (2 : Int) ^ e < x) (h2 : x ≤ 2 * (2 : Int) ^ e)
    (h1' : (2 : Int) ^ e' < x) (h2' : x ≤ 2 * (2 : Int) ^ e') : e = e' := by
  rcases Nat.lt_trichotomy e e' with h | h | h
  · have := two_pow_lt_step e e' h
    omega
  · exact h
  · have := two_pow_lt_step e' e h
    omega

/-- The sibling links of the layer of width `2^e` in a finished tree with `2^k` leaves. -/
theorem built_layer_links {env : Env} {heaps : Mem Heap}
    {hlist : Mem (List Nat)} {length : Nat} {m0 mt : Mem NODE}
    {k : Nat} (hk : 1 ≤ k) (hb : Built env heaps hlist length ((2 : Int) ^ k) m0 mt)
    (e : Nat) (he : e ≤ k) (n : Int)
    (h0 : 2 * (2 : Int) ^ k - 2 * (2 : Int) ^ e ≤ n) (h1 : n < 2 * (2 : Int) ^ k - (2 : Int) ^ e) :
    (mt n).prev = (if n = 2 * (2 : Int) ^ k - 2 * (2 : Int) ^ e then -1 else n - 1) ∧
    (mt n).next = (if n = 2 * (2 : Int) ^ k - (2 : Int) ^ e - 1 then -1 else n + 1) := by
  have hpe : (1 : Int) ≤ (2 : Int) ^ e := one_le_pow₀ (by norm_num)
  rcases Nat.lt_or_ge e k with hlt | hge
  · have hstep := two_pow_lt_step e k hlt
    rcases Nat.eq_zero_or_pos e with h00 | hpos
    · subst h00
      simp only [pow_zero, mul_one] at h0 h1 hstep ⊢
      have hn : n = 2 * (2 : Int) ^ k - 2 := by omega
      have hr := hb.root_links
      rw [hn]
      have c1 : (2 * (2 : Int) ^ k - 2 = 2 * (2 : Int) ^ k - 2) := rfl
      have c2 : (2 * (2 : Int) ^ k - 2 = 2 * (2 : Int) ^ k - 1 - 1) := by ring
      rw [if_pos c1, if_pos c2]
      exact hr
    · have h2e : 2 ≤ (2 : Int) ^ e := by
        have := two_pow_lt_step 0 e hpos
        simpa using this
      obtain ⟨e', g1, g2, g3, g4, g5, g6⟩ := hb.inner_links n (by omega) (by omega) (by omega)
      have hee : e' = e :=
        layer_unique e' e (2 * (2 : Int) ^ k - n) (by omega) (by omega) (by omega) (by omega)
      subst hee
      exact ⟨g5, g6⟩
  · have hek : e = k := by omega
    subst hek
    have hp := hb.leaf_prev n (by omega) (by omega)
    have hn := hb.leaf_next n (by omega) (by omega)
    rw [hp, hn]
    constructor
    · by_cases hc : n = 0
      · rw [if_pos hc, if_pos (by omega)]
      · rw [if_neg hc, if_neg (by omega)]
    · by_cases hc : n = (2 : Int) ^ e - 1
      · rw [if_pos hc, if_pos (by omega)]
      · rw [if_neg hc, if_neg (by omega)]

/-- C11 (sibling links).  For a leaf count `2^k` with `k ≥ 1`, after `build_tree` the nodes
form the layers of widths `2^k, 2^(k-1), ..., 1`: the layer of width `2^e` occupies the
indices `2*leaf_count - 2*2^e .. 2*leaf_count - 2^e - 1`, and every node lies in one of
them.  For every node `n` of the layer of width `2^e`, `prev(n)` is `-1` when `n` is the
first node of the layer and `n - 1` otherwise, and `next(n)` is `-1` when `n` is the last
node of the layer and `n + 1` otherwise.  The root has both links `-1`. -/
theorem sibling_links (env : Env) (heaps : Mem Heap)
    (hlist : Mem (List Nat)) (length : Nat) (m0 : Mem NODE)
    (k fuel : Nat) (hk : 1 ≤ k) (hf : 2 ^ k ≤ fuel) :
    ∃ t,
      build_tree env heaps fuel
        { leaf_count := (2 : Int) ^ k, node_count := 2 * (2 : Int) ^ k - 1, merkle_tree := m0 }
        hlist length = some (0, t) ∧
      (∀ n : Int, 0 ≤ n → n ≤ t.node_count - 1 →
        ∃ e : Nat, e ≤ k ∧ 2 * t.leaf_count - 2 * (2 : Int) ^ e ≤ n ∧
          n < 2 * t.leaf_count - (2 : Int) ^ e) ∧
      (∀ (e : Nat) (n : Int), e ≤ k →
        2 * t.leaf_count - 2 * (2 : Int) ^ e ≤ n → n < 2 * t.leaf_count - (2 : Int) ^ e →
        (t.merkle_tree n).prev
          = (if n = 2 * t.leaf_count - 2 * (2 : Int) ^ e then -1 else n - 1) ∧
        (t.merkle_tree n).next
          = (if n = 2 * t.leaf_count - (2 : Int) ^ e - 1 then -1 else n + 1)) ∧
      (t.merkle_tree (t.node_count - 1)).prev = -1 ∧
      (t.merkle_tree (t.node_count - 1)).next = -1 := by
  obtain ⟨t, hbuild, hlc, hnc, hb⟩ := build_tree_pow env heaps hlist length m0 k fuel hk hf
  have e0 : t.node_count - 1 = 2 * (2 : Int) ^ k - 2 := by rw [hnc]; ring
  refine ⟨t, hbuild, ?_, ?_, ?_⟩
  · intro n h0 h1
    rw [e0] at h1
    obtain ⟨d, hd, hlo, hhi⟩ := level_exists k n h0 h1
    exact ⟨d, hd, by rw [hlc]; omega, by rw [hlc]; omega⟩
  · intro e n he h0 h1
    rw [hlc] at h0 h1 ⊢
    exact built_layer_links hk hb e he n h0 h1
  · rw [e0]
    exact hb.root_links

/-- Witness of C11: eight leaves. -/
theorem sibling_links_witness :
    (1 ≤ 3 ∧ 2 ^ 3 ≤ 8) ∧
    ∃ t,
      build_tree sample_env sample_heaps 8
        { leaf_count := (2 : Int) ^ 3, node_count := 2 * (2 : Int) ^ 3 - 1,
          merkle_tree := sample_mem }
        sample_hlist 1 = some (0, t) ∧
      (∀ n : Int, 0 ≤ n → n ≤ t.node_count - 1 →
        ∃ e : Nat, e ≤ 3 ∧ 2 * t.leaf_count - 2 * (2 : Int) ^ e ≤ n ∧
          n < 2 * t.leaf_count - (2 : Int) ^ e) ∧
      (∀ (e : Nat) (n : Int), e ≤ 3 →
        2 * t.leaf_count - 2 * (2 : Int) ^ e ≤ n → n < 2 * t.leaf_count - (2 : Int) ^ e →
        (t.merkle_tree n).prev
          = (if n = 2 * t.leaf_count - 2 * (2 : Int) ^ e then -1 else n - 1) ∧
        (t.merkle_tree n).next
          = (if n = 2 * t.leaf_count - (2 : Int) ^ e - 1 then -1 else n + 1)) ∧
      (t.merkle_tree (t.node_count - 1)).prev = -1 ∧
      (t.merkle_tree (t.node_count - 1)).next = -1 :=
  ⟨by decide, sibling_links sample_env sample_heaps
      sample_hlist 1 sample_mem 3 8 (by decide) (by decide)⟩

/-- C15 (sibling discovery).  On the tree built for `2^k ≥ 2` leaves, for every node `n`
other than the root and the layer of width `2^e` it lies in: the test `node_id % 2 == 1` on
the array index gives the same answer as the parity of the position `n - start` inside the
layer; the sibling `find_path` picks (`prev` when the test holds, `next` otherwise) is
`n - 1` or `n + 1` accordingly, differs from `n`, lies in the same layer and has the same
parent as `n`. -/
theorem sibling_discovery (env : Env) (heaps : Mem Heap)
    (hlist : Mem (List Nat)) (length : Nat) (m0 : Mem NODE)
    (k fuel : Nat) (hk : 1 ≤ k) (hf : 2 ^ k ≤ fuel) :
    ∃ t,
      build_tree env heaps fuel
        { leaf_count := (2 : Int) ^ k, node_count := 2 * (2 : Int) ^ k - 1, merkle_tree := m0 }
        hlist length = some (0, t) ∧
      ∀ (e : Nat) (n : Int), e ≤ k → 0 ≤ n → n < t.node_count - 1 →
        2 * t.leaf_count - 2 * (2 : Int) ^ e ≤ n → n < 2 * t.leaf_count - (2 : Int) ^ e →
        (n.tmod 2 = 1 ↔ (n - (2 * t.leaf_count - 2 * (2 : Int) ^ e)).tmod 2 = 1) ∧
        (if n.tmod 2 = 1 then (t.merkle_tree n).prev else (t.merkle_tree n).next)
          = (if n.tmod 2 = 1 then n - 1 else n + 1) ∧
        (if n.tmod 2 = 1 then (t.merkle_tree n).prev else (t.merkle_tree n).next) ≠ n ∧
        2 * t.leaf_count - 2 * (2 : Int) ^ e
          ≤ (if n.tmod 2 = 1 then (t.merkle_tree n).prev else (t.merkle_tree n).next) ∧
        (if n.tmod 2 = 1 then (t.merkle_tree n).prev else (t.merkle_tree n).next)
          < 2 * t.leaf_count - (2 : Int) ^ e ∧
        (t.merkle_tree
            (if n.tmod 2 = 1 then (t.merkle_tree n).prev else (t.merkle_tree n).next)).parent
          = (t.merkle_tree n).parent ∧
        (t.merkle_tree n).parent ≠ -1 := by
  obtain ⟨t, hbuild, hlc, hnc, hb⟩ := build_tree_pow env heaps hlist length m0 k fuel hk hf
  have hL : ∃ m : Int, (2 : Int) ^ k = 2 * m := by
    obtain ⟨e, rfl⟩ : ∃ e, k = e + 1 := ⟨k - 1, by omega⟩
    exact ⟨(2 : Int) ^ e, by ring⟩
  refine ⟨t, hbuild, ?_⟩
  intro e n he hn0 hn1 h0 h1
  rw [hlc] at h0 h1 ⊢
  rw [hnc] at hn1
  have hpe : (1 : Int) ≤ (2 : Int) ^ e := one_le_pow₀ (by norm_num)
  have h2e : 2 ≤ (2 : Int) ^ e := by
    rcases Nat.eq_zero_or_pos e with h00 | hpos
    · subst h00
      simp only [pow_zero, mul_one] at h0 h1
      omega
    · have := two_pow_lt_step 0 e hpos
      simpa using this
  obtain ⟨w, hw⟩ := two_pow_even e h2e
  have hsib := built_sibling hb hL n hn0 (by omega)
  have hpar := built_parent hb n hn0 (by omega)
  have htm : n.tmod 2 = n % 2 := Int.tmod_eq_emod hn0 (by norm_num)
  have htm2 : (n - (2 * (2 : Int) ^ k - 2 * (2 : Int) ^ e)).tmod 2
      = (n - (2 * (2 : Int) ^ k - 2 * (2 : Int) ^ e)) % 2 :=
    Int.tmod_eq_emod (by omega) (by norm_num)
  rw [hsib, htm, htm2, hpar]
  rw [hw] at h0 h1 ⊢
  obtain ⟨m, hm⟩ := hL
  by_cases hodd : n % 2 = 1
  · rw [if_pos hodd]
    have hp2 := built_parent hb (n - 1) (by omega) (by omega)
    rw [hp2]
    refine ⟨by omega, rfl, by omega, by omega, by omega, by omega, by omega⟩
  · rw [if_neg hodd]
    have hp2 := built_parent hb (n + 1) (by omega) (by omega)
    rw [hp2]
    refine ⟨by omega, rfl, by omega, by omega, by omega, by omega, by omega⟩

/-- Witness of C15: four leaves. -/
theorem sibling_discovery_witness :
    (1 ≤ 2 ∧ 2 ^ 2 ≤ 4) ∧
    ∃ t,
      build_tree sample_env sample_heaps 4
        { leaf_count := (2 : Int) ^ 2, node_count := 2 * (2 : Int) ^ 2 - 1,
          merkle_tree := sample_mem }
        sample_hlist 1 = some (0, t) ∧
      ∀ (e : Nat) (n : Int), e ≤ 2 → 0 ≤ n → n < t.node_count - 1 →
        2 * t.leaf_count - 2 * (2 : Int) ^ e ≤ n → n < 2 * t.leaf_count - (2 : Int) ^ e →
        (n.tmod 2 = 1 ↔ (n - (2 * t.leaf_count - 2 * (2 : Int) ^ e)).tmod 2 = 1) ∧
        (if n.tmod 2 = 1 then (t.merkle_tree n).prev else (t.merkle_tree n).next)
          = (if n.tmod 2 = 1 then n - 1 else n + 1) ∧
        (if n.tmod 2 = 1 then (t.merkle_tree n).prev else (t.merkle_tree n).next) ≠ n ∧
        2 * t.leaf_count - 2 * (2 : Int) ^ e
          ≤ (if n.tmod 2 = 1 then (t.merkle_tree n).prev else (t.merkle_tree n).next) ∧
        (if n.tmod 2 = 1 then (t.merkle_tree n).prev else (t.merkle_tree n).next)
          < 2 * t.leaf_count - (2 : Int) ^ e ∧
        (t.merkle_tree
            (if n.tmod 2 = 1 then (t.merkle_tree n).prev else (t.merkle_tree n).next)).parent
          = (t.merkle_tree n).parent ∧
        (t.merkle_tree n).parent ≠ -1 :=
  ⟨by decide, sibling_discovery sample_env sample_heaps sample_hlist 1 sample_mem 2 4 (by decide)
    (by decide)⟩

/-! ## First-match lookup -/

theorem compare_hash_ne_zero_iff (hash1 hash2 : List Nat) :
    compare_hash hash1 hash2 ≠ 0 ↔ bytes_equal hash1 hash2 := by
  unfold compare_hash bytes_equal
  rw [compare_hash_from_spec]
  simp only [zero_add]
  by_cases h : ∀ t, t < H_BYTES → hash1.getD t 0 = hash2.getD t 0
  · rw [if_pos h]
    exact ⟨fun _ => h, fun _ => by decide⟩
  · rw [if_neg h]
    exact ⟨fun hc => absurd rfl hc, fun hb => absurd hb h⟩

/-- C16 (first-match lookup).  For every tree whose leaves have `node_id(i) = i` and every
raw input `x` with hash `H(x)`: either no leaf hash among the leaves
`0 .. leaf_count - 1` equals `H(x)` in all `H_BYTES` bytes and `find_nodeid` returns `-1`,
or `find_nodeid` returns the smallest leaf index whose stored hash equals `H(x)` in all
`H_BYTES` bytes.  It returns `-1` exactly when no leaf hash equals `H(x)`. -/
theorem first_match_lookup (env : Env) (t : TREE) (x : List Nat) (length : Nat)
    (hid : ∀ i : Int, 0 ≤ i → i < t.leaf_count → (t.merkle_tree i).node_id = i) :
    ((find_nodeid env t x length = -1 ∧
        ∀ j : Int, 0 ≤ j → j < t.leaf_count →
          ¬ bytes_equal (shake256 env H_BYTES x length) (t.merkle_tree j).hashval) ∨
      (∃ j : Int, 0 ≤ j ∧ j < t.leaf_count ∧ find_nodeid env t x length = j ∧
        bytes_equal (shake256 env H_BYTES x length) (t.merkle_tree j).hashval ∧
        ∀ j' : Int, 0 ≤ j' → j' < j →
          ¬ bytes_equal (shake256 env H_BYTES x length) (t.merkle_tree j').hashval)) ∧
    (find_nodeid env t x length = -1 ↔
      ∀ j : Int, 0 ≤ j → j < t.leaf_count →
        ¬ bytes_equal (shake256 env H_BYTES x length) (t.merkle_tree j).hashval) := by
  have hmain : (find_nodeid env t x length = -1 ∧
        ∀ j : Int, 0 ≤ j → j < t.leaf_count →
          ¬ bytes_equal (shake256 env H_BYTES x length) (t.merkle_tree j).hashval) ∨
      (∃ j : Int, 0 ≤ j ∧ j < t.leaf_count ∧ find_nodeid env t x length = j ∧
        bytes_equal (shake256 env H_BYTES x length) (t.merkle_tree j).hashval ∧
        ∀ j' : Int, 0 ≤ j' → j' < j →
          ¬ bytes_equal (shake256 env H_BYTES x length) (t.merkle_tree j').hashval) := by
    unfold find_nodeid
    simp only
    rcases find_nodeid_loop_spec t.merkle_tree (shake256 env H_BYTES x length)
        t.leaf_count.toNat 0 with ⟨h1, h2⟩ | ⟨j, h1, h2, h3, h4, h5⟩
    · left
      refine ⟨h1, ?_⟩
      intro j h0 hlt hbe
      have := h2 j h0 (by omega)
      exact (compare_hash_ne_zero_iff _ _).mpr hbe this
    · right
      have hjl : j < t.leaf_count := by omega
      refine ⟨j, h1, hjl, ?_, (compare_hash_ne_zero_iff _ _).mp h3, ?_⟩
      · rw [h5, hid j h1 hjl]
      · intro j' h0 hlt hbe
        exact (compare_hash_ne_zero_iff _ _).mpr hbe (h4 j' h0 hlt)
  refine ⟨hmain, ?_⟩
  rcases hmain with ⟨h1, h2⟩ | ⟨j, h0, h1, h2, h3, _⟩
  · exact ⟨fun _ => h2, fun _ => h1⟩
  · constructor
    · intro hneg
      rw [h2] at hneg
      omega
    · intro hall
      exact absurd h3 (hall j h0 h1)

/-- Witness of C16: a two-leaf array with `node_id(i) = i`. -/
theorem first_match_lookup_witness :
    (∀ i : Int, 0 ≤ i → i < sample_tree.leaf_count → (sample_tree.merkle_tree i).node_id = i) ∧
    (((find_nodeid sample_env sample_tree [1] 1 = -1 ∧
        ∀ j : Int, 0 ≤ j → j < sample_tree.leaf_count →
          ¬ bytes_equal (shake256 sample_env H_BYTES [1] 1) (sample_tree.merkle_tree j).hashval) ∨
      (∃ j : Int, 0 ≤ j ∧ j < sample_tree.leaf_count ∧
        find_nodeid sample_env sample_tree [1] 1 = j ∧
        bytes_equal (shake256 sample_env H_BYTES [1] 1) (sample_tree.merkle_tree j).hashval ∧
        ∀ j' : Int, 0 ≤ j' → j' < j →
          ¬ bytes_equal (shake256 sample_env H_BYTES [1] 1)
            (sample_tree.merkle_tree j').hashval)) ∧
    (find_nodeid sample_env sample_tree [1] 1 = -1 ↔
      ∀ j : Int, 0 ≤ j → j < sample_tree.leaf_count →
        ¬ bytes_equal (shake256 sample_env H_BYTES [1] 1)
          (sample_tree.merkle_tree j).hashval)) :=
  ⟨fun _ _ _ => rfl, first_match_lookup sample_env sample_tree [1] 1 (fun _ _ _ => rfl)⟩

/-! ## Where convert_binary stores and what reaches the hash engine -/

theorem hash_bit_le_one (hashval : List Nat) (index : Nat) :
    hash_bit hashval index = 0 ∨ hash_bit hashval index = 1 := by
  unfold hash_bit
  rw [Nat.and_one_is_mod]
  omega

/-- C17 (bit expansion), as the code behaves, for every hash value and every buffer:
`convert_binary` performs `H_BITS` stores, to the offsets `H_BITS, H_BITS - 1, ..., 1` in
this order.  So offset `H_BITS`, which lies outside `0 .. H_BITS - 1`, is written (with
bit 0 of the last byte), and offset 0 is never written and keeps the content the buffer
had.  Every stored value is 0 or 1. -/
theorem convert_binary_offsets (hashval : List Nat) (binary : Mem Nat) :
    (convert_binary_stores hashval).map Prod.fst
      = (List.range H_BITS).map (fun (index : Nat) => (H_BITS : Int) - (index : Int)) ∧
    (H_BITS : Int) ∈ (convert_binary_stores hashval).map Prod.fst ∧
    (0 : Int) ∉ (convert_binary_stores hashval).map Prod.fst ∧
    convert_binary hashval binary 0 = binary 0 ∧
    convert_binary hashval binary (H_BITS : Int) = (hashval.getD (H_BYTES - 1) 0 >>> 0) &&& 1 ∧
    (∀ p ∈ convert_binary_stores hashval, p.2 = 0 ∨ p.2 = 1) := by
  have hpos : (convert_binary_stores hashval).map Prod.fst
      = (List.range H_BITS).map (fun (index : Nat) => (H_BITS : Int) - (index : Int)) := by
    rw [convert_binary_stores_eq, List.map_map]
    rfl
  have hH : (H_BITS : Int) = 128 := rfl
  refine ⟨hpos, ?_, ?_, ?_, ?_, ?_⟩
  · rw [hpos, List.mem_map]
    exact ⟨0, List.mem_range.mpr (by decide), by simp⟩
  · rw [hpos, List.mem_map]
    rintro ⟨index, hmem, heq⟩
    have hlt : index < H_BITS := List.mem_range.mp hmem
    have h128 : H_BITS = 128 := rfl
    omega
  · rw [convert_binary_apply, if_neg (by omega)]
  · rw [convert_binary_apply, if_pos (by omega)]
    have e0 : ((H_BITS : Int) - (H_BITS : Int)).toNat = 0 := by omega
    rw [e0]
    rfl
  · intro p hp
    rw [convert_binary_stores_eq, List.mem_map] at hp
    obtain ⟨index, _, rfl⟩ := hp
    exact hash_bit_le_one hashval index

/-- C13 (combine rule), at the inputs `l` = 16 zero bytes, `l'` = `l` with byte 4 set to 1,
`r` = 16 zero bytes, for every content `heap` of the blocks: the XOR arrays of `(l, r)` and
`(l', r)` differ at position 40, but the bytes handed to `shake256` are the same `H_BITS`
bytes (the XOR array has `SIZEOF_INT * H_BITS` bytes) and `get_concat_hash` gives the same
output. -/
theorem xor_bits_dropped (heap : Heap) :
    xor_binary (convert_binary [0, 0, 0, 0, 0, 0, 0, 0, 0, 0, 0, 0, 0, 0, 0, 0] heap.binary1)
        (convert_binary [0, 0, 0, 0, 0, 0, 0, 0, 0, 0, 0, 0, 0, 0, 0, 0] heap.binary2)
        heap.binary3 40 = 0 ∧
    xor_binary (convert_binary [0, 0, 0, 0, 1, 0, 0, 0, 0, 0, 0, 0, 0, 0, 0, 0] heap.binary1)
        (convert_binary [0, 0, 0, 0, 0, 0, 0, 0, 0, 0, 0, 0, 0, 0, 0, 0] heap.binary2)
        heap.binary3 40 = 1 ∧
    (int_bytes (xor_binary
        (convert_binary [0, 0, 0, 0, 1, 0, 0, 0, 0, 0, 0, 0, 0, 0, 0, 0] heap.binary1)
        (convert_binary [0, 0, 0, 0, 0, 0, 0, 0, 0, 0, 0, 0, 0, 0, 0, 0] heap.binary2)
        heap.binary3)).length = SIZEOF_INT * H_BITS ∧
    (hash_input heap [0, 0, 0, 0, 1, 0, 0, 0, 0, 0, 0, 0, 0, 0, 0, 0]
        [0, 0, 0, 0, 0, 0, 0, 0, 0, 0, 0, 0, 0, 0, 0, 0]).length = H_BITS ∧
    hash_input heap [0, 0, 0, 0, 0, 0, 0, 0, 0, 0, 0, 0, 0, 0, 0, 0]
        [0, 0, 0, 0, 0, 0, 0, 0, 0, 0, 0, 0, 0, 0, 0, 0]
      = hash_input heap [0, 0, 0, 0, 1, 0, 0, 0, 0, 0, 0, 0, 0, 0, 0, 0]
        [0, 0, 0, 0, 0, 0, 0, 0, 0, 0, 0, 0, 0, 0, 0, 0] ∧
    get_concat_hash sample_env heap [0, 0, 0, 0, 0, 0, 0, 0, 0, 0, 0, 0, 0, 0, 0, 0]
        [0, 0, 0, 0, 0, 0, 0, 0, 0, 0, 0, 0, 0, 0, 0, 0]
      = get_concat_hash sample_env heap [0, 0, 0, 0, 1, 0, 0, 0, 0, 0, 0, 0, 0, 0, 0, 0]
        [0, 0, 0, 0, 0, 0, 0, 0, 0, 0, 0, 0, 0, 0, 0, 0] := by
  have hsame : same_first_four [0, 0, 0, 0, 0, 0, 0, 0, 0, 0, 0, 0, 0, 0, 0, 0]
      [0, 0, 0, 0, 1, 0, 0, 0, 0, 0, 0, 0, 0, 0, 0, 0] := by
    unfold same_first_four
    decide
  have hc : (0 : Int) < 40 ∧ (40 : Int) < (H_BITS : Int) := by decide
  refine ⟨?_, ?_, ?_, ?_, hash_input_congr _ _ _ _ _ _ hsame (fun _ _ => rfl) rfl,
    get_concat_hash_congr _ _ _ _ _ _ _ hsame (fun _ _ => rfl) rfl⟩
  · rw [binary3_apply, if_pos hc]
    decide
  · rw [binary3_apply, if_pos hc]
    decide
  · unfold int_bytes
    rw [List.length_map, List.length_range]
  · rw [hash_input_eq, List.length_map, List.length_range]
    rfl

/-! ## Termination and index bounds of the nested loops -/

/-- The function `build_tree` is its two nested loops run from `loop_entry`. -/
theorem build_tree_eq_loops (env : Env) (heaps : Mem Heap)
    (fuel : Nat) (mtree : TREE) (hlist : Mem (List Nat))
    (length : Nat) :
    build_tree env heaps fuel mtree hlist length
      = (outer_while env heaps mtree.leaf_count mtree.node_count fuel
          (loop_entry env mtree hlist length)).map
          (fun s => (0, { mtree with merkle_tree := s.mt })) := by
  unfold build_tree loop_entry
  simp only
  split <;> simp_all

/-- Dropping the log from the logged inner loop gives the inner loop. -/
theorem inner_while_log_erase (env : Env) (heaps : Mem Heap) (nc : Int) (fuel : Nat) (s : LoopState)
    (log : LoopLog) :
    (inner_while_log env heaps nc fuel s log).map Prod.fst = inner_while env heaps nc fuel s := by
  induction fuel generalizing s log with
  | zero => rfl
  | succ f ih =>
    rw [inner_while_log, inner_while]
    by_cases hc : s.j < s.sub_len - 1
    · rw [if_pos hc, if_pos hc]
      exact ih _ _
    · rw [if_neg hc, if_neg hc]
      rfl

/-- Dropping the log from the logged outer loop gives the outer loop. -/
theorem outer_while_log_erase (env : Env) (heaps : Mem Heap)
    (L nc : Int) (fuel : Nat) (s : LoopState)
    (log : LoopLog) :
    (outer_while_log env heaps L nc fuel s log).map Prod.fst = outer_while env heaps L nc fuel s := by
  induction fuel generalizing s log with
  | zero => rfl
  | succ f ih =>
    rw [outer_while_log, outer_while]
    by_cases hc : s.in_ < nc
    · rw [if_pos hc, if_pos hc]
      have hin := inner_while_log_erase env heaps nc (f + 1) s log
      cases h1 : inner_while_log env heaps nc (f + 1) s log with
      | none =>
        rw [h1] at hin
        simp only [Option.map_none'] at hin
        rw [← hin]
        rfl
      | some p =>
        obtain ⟨s1, log1⟩ := p
        rw [h1] at hin
        simp only [Option.map_some'] at hin
        rw [← hin]
        exact ih _ _
    · rw [if_neg hc, if_neg hc]
      rfl

/-- The indices one run of the body touches lie inside the node array, when the run
happens inside the layer of width `W`. -/
theorem body_accesses_bounds (L W : Int) (s : LoopState) (hW1 : 1 ≤ W) (hW : 2 * W ≤ L)
    (hrel : s.j = 2 * (s.in_ - L))
    (hsub : s.sub_len = 2 * L - 2 * W) (hlnc : s.layer_node_count = W)
    (hlo : s.sub_len ≤ s.in_) (hhi : s.in_ < 2 * L - W) :
    ∀ x ∈ body_accesses (2 * L - 1) s, 0 ≤ x ∧ x ≤ 2 * L - 1 - 1 := by
  intro x hx
  unfold body_accesses at hx
  rw [List.mem_append] at hx
  rcases hx with hx | hx
  · split_ifs at hx with h1 h2 h3
    · simp only [List.mem_cons, List.mem_singleton, List.not_mem_nil, or_false] at hx
      rcases hx with rfl | rfl | rfl <;> omega
    · simp only [List.mem_cons, List.mem_singleton, List.not_mem_nil, or_false] at hx
      rcases hx with rfl | rfl | rfl <;> omega
    · simp only [List.mem_cons, List.mem_singleton, List.not_mem_nil, or_false] at hx
      rcases hx with rfl | rfl | rfl | rfl <;> omega
    · simp at hx
  · simp only [List.mem_cons, List.mem_singleton, List.not_mem_nil, or_false] at hx
    rcases hx with rfl | rfl | rfl | rfl | rfl <;> omega

/-- The logged inner loop inside the layer of width `W`, with `n` nodes of the layer left:
it ends at the end of the layer, fills the `n` nodes in order and touches indices inside
the array only. -/
theorem inner_while_log_spec (env : Env) (heaps : Mem Heap)
    (L W : Int) (hW1 : 1 ≤ W) (hW : 2 * W ≤ L) :
    ∀ (n fuel : Nat) (s : LoopState) (log : LoopLog),
      s.j = 2 * (s.in_ - L) → s.sub_len = 2 * L - 2 * W → s.layer_node_count = W →
      s.sub_len ≤ s.in_ → s.in_ + (n : Int) = 2 * L - W → n < fuel →
      ∃ s1 log1, inner_while_log env heaps (2 * L - 1) fuel s log = some (s1, log1) ∧
        s1.j = 2 * (s1.in_ - L) ∧ s1.in_ = 2 * L - W ∧
        s1.sub_len = 2 * L - 2 * W ∧ s1.layer_node_count = W ∧
        log1.filled = log.filled ++ (List.range n).map (fun (i : Nat) => s.in_ + (i : Int)) ∧
        (∀ x ∈ log1.touched, x ∈ log.touched ∨ (0 ≤ x ∧ x ≤ 2 * L - 1 - 1)) := by
  intro n
  induction n with
  | zero =>
    intro fuel s log hrel hsub hlnc _ hn hf
    obtain ⟨f, rfl⟩ : ∃ f, fuel = f + 1 := ⟨fuel - 1, by omega⟩
    have hc : ¬ (s.j < s.sub_len - 1) := by omega
    refine ⟨s, log, ?_, hrel, by omega, hsub, hlnc, by simp, fun x hx => Or.inl hx⟩
    rw [inner_while_log, if_neg hc]
  | succ n ih =>
    intro fuel s log hrel hsub hlnc hlo hn hf
    obtain ⟨f, rfl⟩ : ∃ f, fuel = f + 1 := ⟨fuel - 1, by omega⟩
    have hc : s.j < s.sub_len - 1 := by omega
    have hhi : s.in_ < 2 * L - W := by omega
    obtain ⟨s1, log1, h1, h2, h3, h4, h5, h6, h7⟩ :=
      ih f (inner_body env heaps (2 * L - 1) s)
        { touched := log.touched ++ body_accesses (2 * L - 1) s,
          filled := log.filled ++ [s.in_] }
        (by simp only [inner_body_j, inner_body_in]; omega)
        (by simp only [inner_body_sub_len]; exact hsub)
        (by simp only [inner_body_layer_node_count]; exact hlnc)
        (by simp only [inner_body_sub_len, inner_body_in]; omega)
        (by simp only [inner_body_in]; push_cast at hn; omega) (by omega)
    refine ⟨s1, log1, ?_, h2, h3, h4, h5, ?_, ?_⟩
    · rw [inner_while_log, if_pos hc]
      exact h1
    · rw [h6]
      simp only [inner_body_in]
      have hr : List.range (n + 1) = 0 :: (List.range n).map (fun i => i + 1) := by
        rw [List.range_succ_eq_map]
      rw [hr, List.map_cons, List.map_map, List.append_assoc, List.singleton_append]
      congr 2
      · simp
      · apply List.map_congr_left
        intro i _
        simp only [Function.comp]
        push_cast
        ring
    · intro x hx
      rcases h7 x hx with h8 | h8
      · simp only [List.mem_append] at h8
        rcases h8 with h9 | h9
        · exact Or.inl h9
        · exact Or.inr (body_accesses_bounds L W s hW1 hW hrel hsub hlnc hlo hhi x h9)
      · exact Or.inr h8

/-- The logged outer loop started at the first node of the layer of width `2^e`: it ends
with `in = node_count`, fills the remaining `2 * 2^e - 1` inner nodes in index order and
touches indices inside the array only. -/
theorem outer_while_log_spec (env : Env) (heaps : Mem Heap) (L : Int) :
    ∀ (e fuel : Nat) (s : LoopState) (log : LoopLog),
      s.j = 2 * (s.in_ - L) → 2 * (2 : Int) ^ e ≤ L →
      s.sub_len = 2 * L - 2 * (2 : Int) ^ e → s.layer_node_count = (2 : Int) ^ e →
      s.in_ = s.sub_len → 2 * 2 ^ e ≤ fuel →
      ∃ s1 log1, outer_while_log env heaps L (2 * L - 1) fuel s log = some (s1, log1) ∧
        s1.in_ = 2 * L - 1 ∧
        log1.filled
          = log.filled ++ (List.range (2 * 2 ^ e - 1)).map (fun (i : Nat) => s.in_ + (i : Int)) ∧
        (∀ x ∈ log1.touched, x ∈ log.touched ∨ (0 ≤ x ∧ x ≤ 2 * L - 1 - 1)) := by
  intro e
  induction e with
  | zero =>
    intro fuel s log hrel hW hsub hlnc hin hf
    obtain ⟨f, rfl⟩ : ∃ f, fuel = f + 1 := ⟨fuel - 1, by omega⟩
    obtain ⟨g, rfl⟩ : ∃ g, f = g + 1 := ⟨f - 1, by omega⟩
    simp only [pow_zero, mul_one] at hW hsub hlnc
    obtain ⟨s1, log1, h1, h2, h3, h4, h5, h6, h7⟩ :=
      inner_while_log_spec env heaps L 1 (le_refl 1) (by omega) 1 (g + 1 + 1) s log hrel
        (by omega) hlnc (by omega) (by push_cast; omega) (by omega)
    have hc : s.in_ < 2 * L - 1 := by omega
    refine ⟨{ s1 with sub_len := L + s1.sub_len.tdiv 2,
                      layer_node_count := s1.layer_node_count.tdiv 2 }, log1, ?_, h3, ?_, h7⟩
    · rw [outer_while_log, if_pos hc, h1]
      simp only
      rw [outer_while_log, if_neg (by simp only; omega)]
    · rw [h6]
      rfl
  | succ e ih =>
    intro fuel s log hrel hW hsub hlnc hin hf
    have hpos : (1 : Int) ≤ (2 : Int) ^ e := one_le_pow₀ (by norm_num)
    have hposN : 1 ≤ 2 ^ e := Nat.one_le_two_pow
    have hpow : (2 : Int) ^ (e + 1) = 2 * (2 : Int) ^ e := by ring
    have hpowN : 2 ^ (e + 1) = 2 * 2 ^ e := by ring
    rw [hpow] at hW hsub hlnc
    rw [hpowN] at hf ⊢
    obtain ⟨f, rfl⟩ : ∃ f, fuel = f + 1 := ⟨fuel - 1, by omega⟩
    have hcast : (((2 * 2 ^ e : Nat)) : Int) = 2 * (2 : Int) ^ e := by push_cast; ring
    obtain ⟨s1, log1, h1, h2, h3, h4, h5, h6, h7⟩ :=
      inner_while_log_spec env heaps L (2 * (2 : Int) ^ e) (by omega) hW (2 * 2 ^ e) (f + 1) s log
        hrel hsub hlnc (by omega) (by rw [hcast]; omega) (by omega)
    have hc : s.in_ < 2 * L - 1 := by omega
    have hdiv1 : s1.sub_len.tdiv 2 = L - 2 * (2 : Int) ^ e := by
      rw [Int.tdiv_eq_ediv (by omega) (by norm_num)]; omega
    have hdiv2 : s1.layer_node_count.tdiv 2 = (2 : Int) ^ e := by
      rw [Int.tdiv_eq_ediv (by omega) (by norm_num)]; omega
    obtain ⟨s2, log2, k1, k2, k3, k4⟩ := ih f
      { s1 with sub_len := L + s1.sub_len.tdiv 2,
                layer_node_count := s1.layer_node_count.tdiv 2 } log1
      h2 (by omega) (by simp only [hdiv1]; omega) (by simp only [hdiv2])
      (by simp only [hdiv1]; omega) (by omega)
    refine ⟨s2, log2, ?_, k2, ?_, ?_⟩
    · rw [outer_while_log, if_pos hc, h1]
      exact k1
    · rw [k3, h6, List.append_assoc]
      congr 1
      simp only
      have hsplit : 2 * (2 * 2 ^ e) - 1 = 2 * 2 ^ e + (2 * 2 ^ e - 1) := by omega
      rw [hsplit, List.range_add, List.map_append, List.map_map]
      congr 1
      apply List.map_congr_left
      intro i _
      simp only [Function.comp]
      rw [h3, hin, hsub]
      push_cast
      ring
    · intro x hx
      rcases k4 x hx with h8 | h8
      · exact h7 x h8
      · exact Or.inr h8

/-- C18 (construction terminates).  For a leaf count `2^k` with `k ≥ 0` and
`node_count = 2 * leaf_count - 1`, the two nested loops of `build_tree`, run with their log
from the state at their entry, terminate; `in` ends equal to `node_count`; the inner nodes
filled are `leaf_count, leaf_count + 1, ..., node_count - 1`, each once and in this order;
every index of `merkle_tree` the loops read or write lies in `0 .. node_count - 1`; and
`build_tree` returns 0 with the node array the loops leave. -/
theorem construction_terminates (env : Env) (heaps : Mem Heap)
    (hlist : Mem (List Nat)) (length : Nat)
    (m0 : Mem NODE) (k fuel : Nat) (hf : 2 ^ k ≤ fuel) :
    ∃ s log,
      outer_while_log env heaps ((2 : Int) ^ k) (2 * (2 : Int) ^ k - 1) fuel
        (loop_entry env
          { leaf_count := (2 : Int) ^ k, node_count := 2 * (2 : Int) ^ k - 1, merkle_tree := m0 }
          hlist length)
        { touched := [], filled := [] } = some (s, log) ∧
      s.in_ = 2 * (2 : Int) ^ k - 1 ∧
      log.filled = (List.range (2 ^ k - 1)).map (fun (i : Nat) => (2 : Int) ^ k + (i : Int)) ∧
      (∀ x ∈ log.touched, 0 ≤ x ∧ x ≤ 2 * (2 : Int) ^ k - 1 - 1) ∧
      build_tree env heaps fuel
        { leaf_count := (2 : Int) ^ k, node_count := 2 * (2 : Int) ^ k - 1, merkle_tree := m0 }
        hlist length
        = some (0, { leaf_count := (2 : Int) ^ k, node_count := 2 * (2 : Int) ^ k - 1,
                     merkle_tree := s.mt }) := by
  have hmain : ∃ s log,
      outer_while_log env heaps ((2 : Int) ^ k) (2 * (2 : Int) ^ k - 1) fuel
        (loop_entry env
          { leaf_count := (2 : Int) ^ k, node_count := 2 * (2 : Int) ^ k - 1, merkle_tree := m0 }
          hlist length)
        { touched := [], filled := [] } = some (s, log) ∧
      s.in_ = 2 * (2 : Int) ^ k - 1 ∧
      log.filled = (List.range (2 ^ k - 1)).map (fun (i : Nat) => (2 : Int) ^ k + (i : Int)) ∧
      (∀ x ∈ log.touched, 0 ≤ x ∧ x ≤ 2 * (2 : Int) ^ k - 1 - 1) := by
    cases k with
    | zero =>
      obtain ⟨f, rfl⟩ : ∃ f, fuel = f + 1 := ⟨fuel - 1, by simp at hf; omega⟩
      refine ⟨_, _, rfl, rfl, rfl, ?_⟩
      intro x hx
      simp at hx
    | succ e =>
      have hpos : (1 : Int) ≤ (2 : Int) ^ e := one_le_pow₀ (by norm_num)
      have hpow : (2 : Int) ^ (e + 1) = 2 * (2 : Int) ^ e := by ring
      have hpowN : 2 ^ (e + 1) = 2 * 2 ^ e := by ring
      rw [hpowN] at hf ⊢
      rw [hpow]
      have hdiv : (2 * (2 : Int) ^ e).tdiv 2 = (2 : Int) ^ e := by
        rw [Int.tdiv_eq_ediv (by omega) (by norm_num)]; omega
      obtain ⟨s1, log1, h1, h2, h3, h4⟩ := outer_while_log_spec env heaps (2 * (2 : Int) ^ e) e fuel
        (loop_entry env
          { leaf_count := 2 * (2 : Int) ^ e, node_count := 2 * (2 * (2 : Int) ^ e) - 1,
            merkle_tree := m0 } hlist length)
        { touched := [], filled := [] }
        (by simp only [loop_entry]; ring) (le_refl _)
        (by simp only [loop_entry]; ring) (by simp only [loop_entry]; exact hdiv)
        (by simp only [loop_entry]) hf
      refine ⟨s1, log1, h1, h2, ?_, ?_⟩
      · rw [h3]
        simp only [loop_entry, List.nil_append]
      · intro x hx
        rcases h4 x hx with h5 | h5
        · simp at h5
        · exact h5
  obtain ⟨s, log, h1, h2, h3, h4⟩ := hmain
  refine ⟨s, log, h1, h2, h3, h4, ?_⟩
  have her := outer_while_log_erase env heaps ((2 : Int) ^ k) (2 * (2 : Int) ^ k - 1) fuel
    (loop_entry env
      { leaf_count := (2 : Int) ^ k, node_count := 2 * (2 : Int) ^ k - 1, merkle_tree := m0 }
      hlist length) { touched := [], filled := [] }
  rw [h1] at her
  simp only [Option.map_some'] at her
  rw [build_tree_eq_loops]
  simp only
  rw [← her]
  rfl

/-- Witness of C18: eight leaves. -/
theorem construction_terminates_witness :
    2 ^ 3 ≤ 8 ∧
    ∃ s log,
      outer_while_log sample_env sample_heaps ((2 : Int) ^ 3) (2 * (2 : Int) ^ 3 - 1) 8
        (loop_entry sample_env
          { leaf_count := (2 : Int) ^ 3, node_count := 2 * (2 : Int) ^ 3 - 1,
            merkle_tree := sample_mem }
          sample_hlist 1)
        { touched := [], filled := [] } = some (s, log) ∧
      s.in_ = 2 * (2 : Int) ^ 3 - 1 ∧
      log.filled = (List.range (2 ^ 3 - 1)).map (fun (i : Nat) => (2 : Int) ^ 3 + (i : Int)) ∧
      (∀ x ∈ log.touched, 0 ≤ x ∧ x ≤ 2 * (2 : Int) ^ 3 - 1 - 1) ∧
      build_tree sample_env sample_heaps 8
        { leaf_count := (2 : Int) ^ 3, node_count := 2 * (2 : Int) ^ 3 - 1,
          merkle_tree := sample_mem }
        sample_hlist 1
        = some (0, { leaf_count := (2 : Int) ^ 3, node_count := 2 * (2 : Int) ^ 3 - 1,
                     merkle_tree := s.mt }) :=
  ⟨by decide, construction_terminates sample_env sample_heaps
      sample_hlist 1 sample_mem 3 8 (by decide)⟩

end MerkleTree
